import Mathlib

/-
Verification development for the MIND scenario-tree generator
(planners/mind/scenario_tree.py).

Modelling conventions:
  * Python floats are modelled as rationals (Rat); float library kernels
    (sqrt, sin, cos, atan2) and the helper get_distance_to_polyline from
    planners/mind/utils (a module of this repository that is not part of
    the sources given here) are modelled as an abstract record of pure
    functions (NumLib), since no claim in scope depends on their numeric
    values.
  * IEEE NaN propagation, where a claim depends on it, is modelled by
    Option Rat (none = non-finite: NaN or infinity).
  * torch tensors are modelled as nested lists; a 2x2 rotation matrix is
    the record Mat2.
  * The Tree and Node classes come from planners/basic/tree, which is not
    among the given sources; they are modelled from the spec, section 3.
  * The prediction network (planners/mind/networks) is an external oracle
    per spec section 4.3; the controller is parameterised by it.

The file is organised as: all definitions first, then all theorems.
-/

namespace MindST

/- ===================== DEFINITIONS ===================== -/

/-- Decimal digit value of a character; inverse of Nat.digitChar on 0..9.
(Used only to reason about decimal numerals.) -/
def digitVal (c : Char) : Nat := c.toNat - '0'.toNat

/-- Decimal numeral of a natural number, as a list of characters.
Models the Python str(int) / format rendering used to build scenario
identifiers in prune_merge (scenario_tree.py line 362). -/
def natChars (n : Nat) : List Char :=
  if n < 10 then [Nat.digitChar n]
  else natChars (n / 10) ++ [Nat.digitChar (n % 10)]
decreasing_by
  exact Nat.div_lt_self (by omega) (by omega)

/-- Value of a decimal numeral read left to right. -/
def strVal (cs : List Char) : Nat := cs.foldl (fun a c => 10 * a + digitVal c) 0

/-- Character list of a scenario identifier: the Python string
"{branch_depth}_{batch_idx}_{mode_idx}" built in prune_merge
(scenario_tree.py line 362). -/
def mkKeyChars (d i s : Nat) : List Char :=
  natChars d ++ '_' :: (natChars i ++ '_' :: natChars s)

/-- Scenario identifier string (tree key) minted by prune_merge. -/
def mkKey (d i s : Nat) : String := ⟨mkKeyChars d i s⟩

/-- A 2D point or vector: one row of a torch tensor with last dim 2. -/
abbrev Pt := Rat × Rat

/-- Componentwise addition of 2D vectors. -/
def padd (u v : Pt) : Pt := (u.1 + v.1, u.2 + v.2)

/-- Componentwise subtraction of 2D vectors. -/
def psub (u v : Pt) : Pt := (u.1 - v.1, u.2 - v.2)

/-- Squared Euclidean norm of a 2D vector. -/
def normSq (u : Pt) : Rat := u.1 * u.1 + u.2 * u.2

/-- A 2x2 matrix [[a, b], [c, d]], modelling a torch rotation tensor. -/
structure Mat2 where
  a : Rat
  b : Rat
  c : Rat
  d : Rat
deriving DecidableEq

/-- Row-vector times matrix: torch.matmul(p, M) for a [..., 2] row p. -/
def rowMul (p : Pt) (m : Mat2) : Pt :=
  (p.1 * m.a + p.2 * m.c, p.1 * m.b + p.2 * m.d)

/-- Row-vector times the matrix transpose:
torch.matmul(p, M.transpose(-1, -2)), equally torch.matmul(p, M.T). -/
def rowMulT (p : Pt) (m : Mat2) : Pt :=
  (p.1 * m.a + p.2 * m.b, p.1 * m.c + p.2 * m.d)

/-- Abstract numeric kernels. sqrtF, sinF, cosF, atan2F model the float
routines used through torch (norm, cos, sin, atan2); distToPolyline
models get_distance_to_polyline of planners/mind/utils.
Modelled from the spec: utils and the math kernels are collaborator
primitives (spec section 1 treats coordinate-frame linear algebra as
used, not redesigned); no claim in scope depends on their numeric
values, so the embedding is parameterised by them. -/
structure NumLib where
  sqrtF : Rat → Rat
  sinF : Rat → Rat
  cosF : Rat → Rat
  atan2F : Rat → Rat → Rat
  distToPolyline : List Pt → Pt → Rat

/-- Euclidean norm of a 2D vector through the abstract sqrt kernel. -/
def pnorm (lib : NumLib) (p : Pt) : Rat := lib.sqrtF (normSq p)

/-- Rotation matrix [[cos t, -sin t], [sin t, cos t]] as assembled at
scenario_tree.py lines 372-373 and 488-489. -/
def rotOf (lib : NumLib) (theta : Rat) : Mat2 :=
  ⟨lib.cosF theta, -lib.sinF theta, lib.sinF theta, lib.cosF theta⟩

/-- Result of a float computation that may be non-finite: none models an
IEEE NaN or infinity; arithmetic propagates it. -/
abbrev FloatQ := Option Rat

/-- Addition on possibly-non-finite floats. -/
def fqAdd : FloatQ → FloatQ → FloatQ
  | some a, some b => some (a + b)
  | _, _ => none

/-- Subtraction on possibly-non-finite floats. -/
def fqSub : FloatQ → FloatQ → FloatQ
  | some a, some b => some (a - b)
  | _, _ => none

/-- Division on possibly-non-finite floats; a zero divisor yields a
non-finite result (0/0 is NaN, x/0 is an infinity). -/
def fqDiv : FloatQ → FloatQ → FloatQ
  | some a, some b => if b = 0 then none else some (a / b)
  | _, _ => none

/-- Lift a unary kernel over possibly-non-finite floats (a float kernel
maps NaN to NaN). -/
def fqLift (f : Rat → Rat) : FloatQ → FloatQ
  | some a => some (f a)
  | none => none

/-- Lift a binary kernel over possibly-non-finite floats. -/
def fqLift2 (f : Rat → Rat → Rat) : FloatQ → FloatQ → FloatQ
  | some a, some b => some (f a b)
  | _, _ => none

/-- Absolute value on possibly-non-finite floats. -/
def fqAbs : FloatQ → FloatQ := fqLift (fun a => |a|)

/-- Strict comparison x greater than y; every comparison involving a
non-finite NaN value is false (IEEE semantics, as in torch). -/
def fqGt : FloatQ → FloatQ → Bool
  | some a, some b => decide (b < a)
  | _, _ => false

/-- Wrapping of an angle difference into (-pi, pi]:
torch.atan2(torch.sin(d), torch.cos(d)) as used at scenario_tree.py
lines 440 and 457. -/
def wrapAng (lib : NumLib) (d : FloatQ) : FloatQ :=
  fqLift2 lib.atan2F (fqLift lib.sinF d) (fqLift lib.cosF d)

/-- Topology signature of one non-ego agent with respect to the ego
(scenario_tree.py lines 434-442): the summed wrapped bearing change of
the vector pointing from the ego trajectory to the agent trajectory.
The normalisation vec / torch.norm(vec) is modelled NaN-aware: a
zero-length difference vector has norm 0 and the division produces a
non-finite value that propagates (the code has no minimum-norm floor). -/
def topoSig (lib : NumLib) (ego exo : List Pt) : FloatQ :=
  let vec := List.zipWith psub exo ego
  let unit : List (FloatQ × FloatQ) := vec.map (fun v =>
    (fqDiv (some v.1) (some (pnorm lib v)), fqDiv (some v.2) (some (pnorm lib v))))
  let ang : List FloatQ := unit.map (fun u => fqLift2 lib.atan2F u.2 u.1)
  let angDiff := List.zipWith fqSub ang.tail ang
  let wrapped := angDiff.map (wrapAng lib)
  wrapped.foldl fqAdd (some 0)

/-- The merge threshold delta of scenario_tree.py line 449
(torch.pi / 6); the exact rational value of the float is irrelevant to
every claim, so the closest decimal is used. -/
def minTopoChange : Rat := 5235987755982988 / 10000000000000000

/-- One merge candidate: the triple [cur_data, scene_prob, topos]
appended at scenario_tree.py line 445. -/
structure Cand (α : Type) where
  data : α
  prob : Rat
  topos : List FloatQ

/-- Per-agent test of scenario_tree.py lines 456-458: the wrapped
signature difference exceeds the threshold in absolute value (false
whenever a NaN is involved, as in torch). -/
def topoFar (lib : NumLib) (thr : Rat) (x y : FloatQ) : Bool :=
  fqGt (fqSub (fqAbs (wrapAng lib (fqSub x y))) (some thr)) (some 0)

/-- Whether a later candidate is kept when the head candidate is
selected (scenario_tree.py line 458): torch.sum of the per-agent tests
is positive, that is, at least one agent's signature is far. -/
def keepAgainst (lib : NumLib) (thr : Rat) (sel other : Cand α) : Bool :=
  (List.zipWith (topoFar lib thr) sel.topos other.topos).any id

/-- The greedy merge loop of scenario_tree.py lines 450-460: repeatedly
select the first (most probable) remaining candidate and retain only
the later candidates far from it for at least one agent. -/
def mergeLoop (lib : NumLib) (thr : Rat) : List (Cand α) → List (Cand α)
  | [] => []
  | c :: rest => c :: mergeLoop lib thr (rest.filter (keepAgainst lib thr c))
termination_by l => l.length
decreasing_by
  simp only [List.length_cons]
  exact Nat.lt_succ_of_le (List.length_filter_le _ _)

/-- A tree node: key, nullable parent key, ordered children keys, depth
and payload. Modelled from the spec: the Tree and Node classes live in
planners/basic/tree which is not among the given sources; spec section 3
specifies Node = (key, parent_key, children_keys, depth, payload) with
depth = parent.depth + 1 and an insertion-only, append-only children
list. -/
structure TNode (α : Type) where
  key : String
  parentKey : Option String
  childrenKeys : List String
  depth : Nat
  payload : α
deriving DecidableEq

/-- A tree: nodes in insertion order, keyed by their key strings.
Modelled from the spec (section 3): a mapping from node key to Node
supporting insertion, leaf enumeration, lookup and traversal. -/
structure Tree (α : Type) where
  nodes : List (TNode α)
deriving DecidableEq

/-- The empty tree. -/
def Tree.empty {α : Type} : Tree α := ⟨[]⟩

/-- Key lookup (first node carrying the key). -/
def Tree.getNode? {α : Type} (t : Tree α) (k : String) : Option (TNode α) :=
  t.nodes.find? (fun n => n.key == k)

/-- All keys in insertion order. -/
def Tree.keys {α : Type} (t : Tree α) : List String := t.nodes.map (·.key)

/-- The children-list bump applied by insertion to the parent node. -/
def bumpChild {α : Type} (pk key : String) (n : TNode α) : TNode α :=
  if n.key == pk then { n with childrenKeys := n.childrenKeys ++ [key] } else n

/-- Insert a node with the given key, parent and payload; the depth is
parent depth + 1 and the key is appended to the parent's children list.
Modelled from the spec (section 3): every non-root key's parent exists
in the tree before insertion and no key appears twice, so insertion of
an already-present key leaves the tree unchanged. -/
def Tree.addNode {α : Type} (t : Tree α) (key : String) (parentKey : Option String)
    (payload : α) : Tree α :=
  if (t.getNode? key).isSome then t else
  match parentKey with
  | none => ⟨t.nodes ++ [⟨key, none, [], 0, payload⟩]⟩
  | some pk =>
    let d := match t.getNode? pk with
      | some p => p.depth + 1
      | none => 0
    ⟨(t.nodes.map (bumpChild pk key)) ++ [⟨key, some pk, [], d, payload⟩]⟩

/-- Leaf enumeration: nodes with no children, in insertion order. -/
def Tree.getLeafNodes {α : Type} (t : Tree α) : List (TNode α) :=
  t.nodes.filter (fun n => n.childrenKeys.isEmpty)

/-- The root: the unique node with no parent. -/
def Tree.getRoot? {α : Type} (t : Tree α) : Option (TNode α) :=
  t.nodes.find? (fun n => n.parentKey.isNone)

/-- Replace the payload of the node carrying the given key. -/
def Tree.modifyPayload {α : Type} (t : Tree α) (k : String) (f : α → α) : Tree α :=
  ⟨t.nodes.map (fun n => if n.key == k then { n with payload := f n.payload } else n)⟩

/-- Take the last n elements of a list (tensor slice with index -n:). -/
def takeLast {β : Type} (n : Nat) (l : List β) : List β := l.drop (l.length - n)

/-- Per-scenario data dictionary: the dynamically keyed dict that both
the node data payload and the observation payload use in
scenario_tree.py (spec section 3, ScenarioNodePayload). History buffers
are [agent][time]. Fields the code stores only for the neural network
(normalised TRAJS_*_OBS features, PAD_OBS, lane graph, rpe tensors,
TGT_NODES, TGT_ANCH) are consumed solely by the opaque prediction
oracle and are not modelled; agent metadata (type, track id, category)
is the carried-through meta field. The orig, rot, trajsCtrs, trajsVecs
fields are absent (placeholder values) on a freshly predicted child and
are set when update_obser rebuilds an observation window. -/
structure ScenData where
  scenProb : Rat
  curT : Nat
  endT : Nat
  parentId : Option String
  scenId : String
  posHist : List (List Pt)
  covHist : List (List Rat)
  angHist : List (List Rat)
  velHist : List (List Pt)
  orig : Pt
  rot : Mat2
  trajsCtrs : List Pt
  trajsVecs : List Pt
  tgtPts : List Pt
  meta : List String
deriving DecidableEq

/-- The zero matrix, used as the placeholder for the absent ROT key. -/
def mat2Zero : Mat2 := ⟨0, 0, 0, 0⟩

/-- The ScenarioData node payload (scenario_tree.py lines 10-16): node
data, observation data and the three lifecycle flags. -/
structure ScenarioData where
  data : Option ScenData
  obsData : Option ScenData
  branchFlag : Bool
  endFlag : Bool
  terminateFlag : Bool
deriving DecidableEq

/-- Generator configuration: the constructor arguments obs_len and
pred_len, the config fields the generator reads (max_depth,
tar_dist_thres, tar_time_ahead), and the target lane context installed
by set_target_lane (spec section 3: per-instance state set once before
generation, read-only during it); the per-point attribute channels are
rows of rationals. The designated ego index is fixed 0 in the code. -/
structure Config where
  obsLen : Nat
  predLen : Nat
  maxDepth : Nat
  tarDistThres : Rat
  tarTimeAhead : Rat
  targetLane : Option (List Pt)
  targetLaneInfo : List (List Rat)
deriving DecidableEq

/-- The fixed total horizon seq_len = obs_len + pred_len. -/
def Config.seqLen (cfg : Config) : Nat := cfg.obsLen + cfg.predLen

/-- The comparison index of get_branch_time (scenario_tree.py lines
648-651): obs_len + cur_t, plus one when cur_t = 0. -/
def compareIdx (cfg : Config) (curT : Nat) : Nat :=
  cfg.obsLen + curT + (if curT = 0 then 1 else 0)

/-- Trigger test of get_branch_time (scenario_tree.py line 659): some
agent's covariance at history index obs_len + t, divided by its
covariance at the comparison index, exceeds the rate 9
(cov_change_rate, line 644). -/
def covTrigger (cfg : Config) (covHist : List (List Rat)) (compareT t : Nat) : Bool :=
  covHist.any (fun row => decide (9 < row.getD (cfg.obsLen + t) 0 / row.getD compareT 0))

/-- The scan of get_branch_time (scenario_tree.py lines 653-661) over a
list of candidate steps: skip odd steps, return the first even step
whose covariance ratio triggers. -/
def branchScan (cfg : Config) (covHist : List (List Rat)) (compareT : Nat) :
    List Nat → Option Nat
  | [] => none
  | t :: ts =>
    if t % 2 = 1 then branchScan cfg covHist compareT ts
    else if covTrigger cfg covHist compareT t then some t
    else branchScan cfg covHist compareT ts

/-- get_branch_time (scenario_tree.py lines 643-662): scan the steps
range(cur_t + 1, end_t); return the branch time and the data dict,
whose END_T the function overwrites in place when a trigger step is
found (line 660). -/
def getBranchTime (cfg : Config) (d : ScenData) : Nat × ScenData :=
  let compareT := compareIdx cfg d.curT
  match branchScan cfg d.covHist compareT
      (List.range' (d.curT + 1) (d.endT - (d.curT + 1))) with
  | some t => (t, { d with endT := t })
  | none => (d.endT, d)

/-- Index of the minimum element of a list, first occurrence on ties
(torch.argmin semantics for the 1-D distance tensor at line 683). -/
def argminIdxAux : List Rat → Nat → Nat → Rat → Nat
  | [], _, bi, _ => bi
  | x :: xs, i, bi, bv =>
    if x < bv then argminIdxAux xs (i + 1) i x else argminIdxAux xs (i + 1) bi bv

/-- Index of the minimum element of a list (0 on an empty list). -/
def argminIdx : List Rat → Nat
  | [] => 0
  | x :: xs => argminIdxAux xs 1 0 x

/-- The forward walk of get_high_level_command (scenario_tree.py lines
689-691): advance the target index while travel distance remains,
consuming the length of each traversed segment. The fuel is the lane
length, an upper bound on the number of iterations of the while loop. -/
def hlcWalk (lib : NumLib) (lane : List Pt) : Nat → Nat → Rat → Nat
  | 0, ti, _ => ti
  | fuel + 1, ti, travel =>
    if ti < lane.length - 1 ∧ 0 < travel then
      hlcWalk lib lane fuel (ti + 1)
        (travel - pnorm lib (psub (lane.getD (ti + 1) (0, 0)) (lane.getD ti (0, 0))))
    else ti

/-- Result of the High-Level Command Resolver (tgt_pts, tgt_nodes,
tgt_anch of get_high_level_command). Components downstream of the
anchor-direction normalisation are possibly-non-finite, because the
division at scenario_tree.py line 712 is unguarded. -/
structure HLCRes where
  pts : List Pt
  nodes : List (List FloatQ)
  anchPos : Pt
  anchVec : FloatQ × FloatQ
deriving DecidableEq

/-- Multiplication on possibly-non-finite floats. -/
def fqMul : FloatQ → FloatQ → FloatQ := fqLift2 (fun a b => a * b)

/-- The anchor direction of get_high_level_command (scenario_tree.py
line 712): the start-to-end vector of the local-frame window divided by
its norm, with no minimum-norm guard; a zero-length vector yields a
non-finite result. -/
def anchVecOf (lib : NumLib) (ctrln : List Pt) : FloatQ × FloatQ :=
  let dv := psub (ctrln.getLast?.getD (0, 0)) (ctrln.headI)
  let n := pnorm lib dv
  if n = 0 then (none, none) else (some (dv.1 / n), some (dv.2 / n))

/-- The clamped target index of get_high_level_command
(scenario_tree.py lines 681-696): nearest-point argmin, forward travel
walk, end-point backoff, and the clamp max(5, min(idx, len - 6)). -/
def hlcTargetIdx (lib : NumLib) (cfg : Config) (lane : List Pt) (orig : Pt)
    (curVel : Rat) : Nat :=
  let minVel : Rat := 1 / 2
  let dists := lane.map (fun p => pnorm lib (psub p orig))
  let closest := argminIdx dists
  let travel := max curVel minVel * cfg.tarTimeAhead
  let ti0 := hlcWalk lib lane lane.length closest travel
  let ti1 := if ti0 = lane.length - 1 then ti0 - 1 else ti0
  max 5 (min ti1 (lane.length - 6))

/-- Core computation of get_high_level_command (scenario_tree.py lines
664-725) on an explicit target lane. The window extraction keeps the
indices that exist (fancy indexing of a too-short lane would raise in
torch; the wrapper getHighLevelCommand turns the short window into the
fail-fast assertion error of line 704). Values computed on a window
shorter than 11 points are unreachable behind that assertion. -/
def getHLCCore (lib : NumLib) (cfg : Config) (lane : List Pt)
    (laneInfo : List (List Rat)) (orig : Pt) (rot : Mat2) (curVel : Rat) : HLCRes :=
  let ti := hlcTargetIdx lib cfg lane orig curVel
  let selectedIdx := List.range' (ti - 5) 11
  let targetLanePts := selectedIdx.filterMap (fun i => lane[i]?)
  let infoRows := (selectedIdx.filterMap (fun i => laneInfo[i]?)).drop 1
  let ctrln := targetLanePts.map (fun p => rowMul (psub p orig) rot)
  let s := ctrln.foldl padd (0, 0)
  let anchPos : Pt := (s.1 / (ctrln.length : Rat), s.2 / (ctrln.length : Rat))
  let av := anchVecOf lib ctrln
  let ctrln2 : List (FloatQ × FloatQ) := ctrln.map (fun p =>
    let q := psub p anchPos
    (fqAdd (fqMul (some q.1) av.1) (fqMul (some q.2) av.2),
     fqAdd (fqMul (some (-q.1)) av.2) (fqMul (some q.2) av.1)))
  let ctrs := List.zipWith (fun p q =>
    (fqMul (fqAdd p.1 q.1) (some (1 / 2)), fqMul (fqAdd p.2 q.2) (some (1 / 2))))
    ctrln2 ctrln2.tail
  let vecs := List.zipWith (fun p q => (fqSub q.1 p.1, fqSub q.2 p.2)) ctrln2 ctrln2.tail
  let nodes := List.zipWith (fun cv info =>
    [cv.1.1, cv.1.2, cv.2.1, cv.2.2] ++ info.map some) (List.zip ctrs vecs) infoRows
  ⟨targetLanePts, nodes, anchPos, av⟩

/-- Message of the assertion at scenario_tree.py line 704. -/
def hlcAssertMsg : String := "assert len(target_lane_pts) == 11"

/-- Message for a missing target lane context (the Python code would
raise on the attribute access at line 681; spec section 6 requires
set_target_lane before generation). -/
def noLaneMsg : String := "target lane is not set"

/-- get_high_level_command (scenario_tree.py lines 664-725) with its
fail-fast window assertion: error when the extracted source window is
shorter than 11 points. -/
def getHighLevelCommand (lib : NumLib) (cfg : Config) (orig : Pt) (rot : Mat2)
    (curVel : Rat) : Except String HLCRes :=
  match cfg.targetLane with
  | none => .error noLaneMsg
  | some lane =>
    let r := getHLCCore lib cfg lane cfg.targetLaneInfo orig rot curVel
    if r.pts.length = 11 then .ok r else .error hlcAssertMsg

/-- update_obser (scenario_tree.py lines 518-618). The first block
(lines 521-525) truncates the four history buffers of the node data in
place to obs_len + (END_T - CUR_T) steps; the deep copy (lines 527-533)
becomes the fresh observation window: CUR_T advanced to END_T, END_T
reset to pred_len, histories cut to their last obs_len steps. The
scene frame is recomputed from the ego history rows via
get_origin_rotation of planners/mind/utils - modelled from the spec:
Frame Normalizer, spec section 4.1, origin and rotation derived from
the ego agent's most recent pose. Per-agent anchor centers and heading
vectors are recomputed (lines 560-572), the ego speed is the norm of
the ego's last normalised velocity (line 601) and the high-level
command is re-resolved; the run contexts in scope keep the target lane
at least 11 points long, so the line-704 assertion (modelled by
getHighLevelCommand) passes. Normalised per-agent feature tensors, the
lane graph and rpe tensors are consumed only by the prediction oracle
and are not modelled. Returns (observation data, truncated node data)
as the Python function does. -/
def updateObser (lib : NumLib) (cfg : Config) (cur : ScenData) : ScenData × ScenData :=
  let dur := cur.endT - cur.curT
  let keep := cfg.obsLen + dur
  let cur2 := { cur with
    posHist := cur.posHist.map (·.take keep),
    covHist := cur.covHist.map (·.take keep),
    angHist := cur.angHist.map (·.take keep),
    velHist := cur.velHist.map (·.take keep) }
  let posH := cur2.posHist.map (takeLast cfg.obsLen)
  let covH := cur2.covHist.map (takeLast cfg.obsLen)
  let angH := cur2.angHist.map (takeLast cfg.obsLen)
  let velH := cur2.velHist.map (takeLast cfg.obsLen)
  let orig := (posH.getD 0 []).getLast?.getD (0, 0)
  let theta := (angH.getD 0 []).getLast?.getD 0
  let rot := rotOf lib theta
  let angScene := angH.map (List.map (fun a => a - theta))
  let velScene := velH.map (List.map (fun v => rowMul v rot))
  let posScene := posH.map (List.map (fun p => rowMul (psub p orig) rot))
  let ctrs := posScene.map (fun tr => tr.getLast?.getD (0, 0))
  let thetas := angScene.map (fun tr => tr.getLast?.getD 0)
  let vecs := thetas.map (fun th => ((lib.cosF th, lib.sinF th) : Pt))
  let egoVelLast := rowMul ((velScene.getD 0 []).getLast?.getD (0, 0))
    (rotOf lib (thetas.getD 0 0))
  let speed := pnorm lib egoVelLast
  let tgt := getHLCCore lib cfg (cfg.targetLane.getD []) cfg.targetLaneInfo orig rot speed
  let obs := { cur2 with
    curT := cur2.endT,
    endT := cfg.predLen,
    posHist := posH, covHist := covH, angHist := angH, velHist := velH,
    orig := orig, rot := rot, trajsCtrs := ctrs, trajsVecs := vecs,
    tgtPts := tgt.pts }
  (obs, cur2)

/-- One leaf update of decide_branch (scenario_tree.py lines 99-117):
a leaf whose branch_flag is set is terminated without further checks;
otherwise an end-flagged leaf is left alone; otherwise the depth limit
terminates; otherwise the branch time decides between re-observation
plus branch_flag and end_flag. The data payload of every decided leaf
is present in a generator run (fresh children carry their prediction
dict; the none branch is unreachable and leaves the payload
unchanged). -/
def decideOne (lib : NumLib) (cfg : Config) (depth : Nat) (p : ScenarioData) : ScenarioData :=
  if p.branchFlag then
    { p with branchFlag := false, terminateFlag := true }
  else if p.endFlag then p
  else if cfg.maxDepth ≤ depth then { p with terminateFlag := true }
  else
    match p.data with
    | none => p
    | some d =>
      let r := getBranchTime cfg d
      if r.1 < cfg.predLen then
        let ou := updateObser lib cfg r.2
        { p with data := some ou.2, obsData := some ou.1, branchFlag := true }
      else
        { p with data := some r.2, endFlag := true }

/-- decide_branch (scenario_tree.py lines 99-117): update every current
leaf payload. Leaf updates touch only the leaf itself, so the snapshot
iteration of the Python loop is a map over the leaves. -/
def decideBranch (lib : NumLib) (cfg : Config) (t : Tree ScenarioData) : Tree ScenarioData :=
  ⟨t.nodes.map (fun n =>
    if n.childrenKeys.isEmpty then { n with payload := decideOne lib cfg n.depth n.payload }
    else n)⟩

/-- The flagged leaves collected by get_branch_set (scenario_tree.py
lines 119-125), as keys in insertion order; the branch_depth increment
performed by every get_branch_set call is modelled at the call sites in
the controller state. -/
def branchLeafKeys (t : Tree ScenarioData) : List String :=
  (t.getLeafNodes.filter (fun n => n.payload.branchFlag)).map (·.key)

/-- get_end_set (scenario_tree.py lines 309-314): end-flagged leaves in
insertion order. -/
def endLeaves (t : Tree ScenarioData) : List (TNode ScenarioData) :=
  t.getLeafNodes.filter (fun n => n.payload.endFlag)

/-- Per-mode per-agent prediction unpacked from the oracle output: the
predicted local-frame positions res_reg[..., :2], the per-step
uncertainty already reduced to a max-axis scalar (get_max_covariance of
planners/mind/utils, applied at scenario_tree.py line 367 - modelled
from the spec, section 4.4: the uncertainty radius is the maximum-axis
predicted covariance, a conservative scalar bound), and the auxiliary
velocities res_aux[0]. -/
structure ModePred where
  pos : List Pt
  cov : List Rat
  vel : List Pt
deriving DecidableEq

/-- The empty per-mode prediction (placeholder for an absent index). -/
def modePredNil : ModePred := ⟨[], [], []⟩

/-- Oracle output for one batch element: the mode scores res_cls[idx][0]
and the agent-major per-mode predictions (res_reg[idx][:, mode], so
agents outer, modes inner). -/
structure NetOut where
  cls : List Rat
  agents : List (List ModePred)
deriving DecidableEq

/-- The empty oracle output (placeholder for an absent index). -/
def netOutNil : NetOut := ⟨[], []⟩

/-- Insert an index into a list of indices sorted by descending score,
after any index of equal score already present. -/
def insertDesc (v : List Rat) (i : Nat) : List Nat → List Nat
  | [] => [i]
  | j :: js => if v.getD j 0 < v.getD i 0 then i :: j :: js else j :: insertDesc v i js

/-- Stable descending argsort of the mode scores:
torch.argsort(res_cls, dim=1, descending=True)[0] at scenario_tree.py
line 351. -/
def argsortDesc (v : List Rat) : List Nat :=
  (List.range v.length).foldl (fun acc i => insertDesc v i acc) []

/-- One candidate construction of prune_merge (scenario_tree.py lines
357-445) for batch element idx and mode sid, given that element's
observation dict: mint the scenario id from the current branch depth,
re-project the mode's predictions through each agent's instance frame
and the scene frame into the global frame, lift the covariance by the
last observed covariance, extend the four history buffers truncated to
seq_len, and compute the per-exo-agent topology signatures. -/
def buildCandidate (lib : NumLib) (cfg : Config) (branchDepth idx : Nat)
    (obs : ScenData) (net : NetOut) (sid : Nat) : Cand ScenData :=
  let thetaGlobal := lib.atan2F obs.rot.c obs.rot.a
  let agentIdx := List.range net.agents.length
  let posPredG := agentIdx.map (fun i =>
    let mode := (net.agents.getD i []).getD sid modePredNil
    let veci := obs.trajsVecs.getD i (0, 0)
    let rt := rotOf lib (lib.atan2F veci.2 veci.1)
    let ci := obs.trajsCtrs.getD i (0, 0)
    mode.pos.map (fun p => padd (rowMulT (padd (rowMulT p rt) ci) obs.rot) obs.orig))
  let velPredG := agentIdx.map (fun i =>
    let mode := (net.agents.getD i []).getD sid modePredNil
    let veci := obs.trajsVecs.getD i (0, 0)
    let rt := rotOf lib (lib.atan2F veci.2 veci.1)
    mode.vel.map (fun v => rowMulT (rowMulT v rt) obs.rot))
  let angPred := agentIdx.map (fun i =>
    let mode := (net.agents.getD i []).getD sid modePredNil
    let veci := obs.trajsVecs.getD i (0, 0)
    let th := lib.atan2F veci.2 veci.1
    mode.vel.map (fun v => lib.atan2F v.2 v.1 + th + thetaGlobal))
  let covPred := agentIdx.map (fun i =>
    let mode := (net.agents.getD i []).getD sid modePredNil
    let lastCov := (obs.covHist.getD i []).getLast?.getD 0
    mode.cov.map (fun c => c + lastCov))
  let cd : ScenData := {
    scenProb := net.cls.getD sid 0 * obs.scenProb,
    curT := obs.curT,
    endT := obs.endT,
    parentId := some obs.scenId,
    scenId := mkKey branchDepth idx sid,
    posHist := agentIdx.map (fun i =>
      ((obs.posHist.getD i []) ++ posPredG.getD i []).take cfg.seqLen),
    covHist := agentIdx.map (fun i =>
      ((obs.covHist.getD i []) ++ covPred.getD i []).take cfg.seqLen),
    angHist := agentIdx.map (fun i =>
      ((obs.angHist.getD i []) ++ angPred.getD i []).take cfg.seqLen),
    velHist := agentIdx.map (fun i =>
      ((obs.velHist.getD i []) ++ velPredG.getD i []).take cfg.seqLen),
    orig := (0, 0), rot := mat2Zero, trajsCtrs := [], trajsVecs := [],
    tgtPts := obs.tgtPts, meta := obs.meta }
  ⟨cd, net.cls.getD sid 0, (posPredG.drop 1).map (topoSig lib (posPredG.getD 0 []))⟩

/-- The probability prune (scenario_tree.py line 419) and the
target-lane policy prune (lines 423-429); true when the candidate is
kept. The designated ego index is 0 and the policy prune runs exactly
when the target lane is set. -/
def candKept (lib : NumLib) (cfg : Config) (c : Cand ScenData) : Bool :=
  if c.data.scenProb < 1 / 1000 then false
  else
    match cfg.targetLane with
    | none => true
    | some lane =>
      let egoMean := (c.data.posHist.getD 0 []).getLast?.getD (0, 0)
      let egoCov := (c.data.covHist.getD 0 []).getLast?.getD 0
      decide (lib.distToPolyline lane egoMean - egoCov ≤ cfg.tarDistThres)

/-- prune_merge for one batch element (scenario_tree.py lines 321-461):
candidates in descending score order, pruned, then greedily merged with
the pi/6 threshold; returns the surviving child dicts in order. -/
def pruneMergeOne (lib : NumLib) (cfg : Config) (branchDepth idx : Nat)
    (obs : ScenData) (net : NetOut) : List ScenData :=
  let cands := (argsortDesc net.cls).map (buildCandidate lib cfg branchDepth idx obs net)
  (mergeLoop lib minTopoChange (cands.filter (candKept lib cfg))).map (·.data)

/-- prune_merge (scenario_tree.py lines 316-463) over the whole batch:
the concatenation data_interact of the per-element survivors. The
oracle output list is indexed in step with the batch. -/
def pruneMerge (lib : NumLib) (cfg : Config) (branchDepth : Nat)
    (batch : List ScenData) (outs : List NetOut) : List ScenData :=
  batch.enum.flatMap (fun p => pruneMergeOne lib cfg branchDepth p.1 p.2 (outs.getD p.1 netOutNil))

/-- create_nodes (scenario_tree.py lines 90-97): attach each surviving
prediction as a fresh Pending node keyed by its scenario id under its
parent scenario id. -/
def createNodes (t : Tree ScenarioData) (preds : List ScenData) : Tree ScenarioData :=
  preds.foldl (fun tr pred =>
    tr.addNode pred.scenId pred.parentId ⟨some pred, none, false, false, false⟩) t

/-- Controller state of the scenario tree generator: the search tree,
the branch_depth counter, and the keys collected by the latest
get_branch_set call (the branch_nodes list driving the while loop). -/
structure GenState where
  tree : Tree ScenarioData
  branchDepth : Nat
  branchSet : List String
deriving DecidableEq

/-- The prediction oracle: per spec sections 4.3 and 6 a pure function
from the batched per-node observations to the per-node multi-modal
outputs (the composition network.pre_process then network inside
predict_scenes, scenario_tree.py lines 86-88). -/
abbrev Oracle := List ScenData → List NetOut

/-- The batched observation dicts of the current branch set: collate_fn
over node.data.obs_data at line 58, modelled as the list of per-node
observation dicts in branch-set order. -/
def batchOf (st : GenState) : List ScenData :=
  st.branchSet.filterMap (fun k => (st.tree.getNode? k).bind (fun n => n.payload.obsData))

/-- get_branch_set as a state step (scenario_tree.py lines 119-125):
collect the flagged leaf keys and increment branch_depth. -/
def stepBranchSet (st : GenState) : GenState :=
  { st with branchSet := branchLeafKeys st.tree, branchDepth := st.branchDepth + 1 }

/-- The children produced by one round: predict_scenes on the batch
followed by prune_merge (scenario_tree.py lines 58-62). -/
def roundChildren (net : Oracle) (lib : NumLib) (cfg : Config) (st : GenState) :
    List ScenData :=
  pruneMerge lib cfg st.branchDepth (batchOf st) (net (batchOf st))

/-- One iteration of the AIME while loop (scenario_tree.py lines
56-71): batch prediction, prune and merge, node creation, the branch
decision pass, and the branch-set update for the next round. -/
def roundStep (net : Oracle) (lib : NumLib) (cfg : Config) (st : GenState) : GenState :=
  let t1 := createNodes st.tree (roundChildren net lib cfg st)
  stepBranchSet { st with tree := decideBranch lib cfg t1 }

/-- The guarded while loop of branch_aime run for at most n iterations:
it stops as soon as the branch set handed to it is empty, exactly like
the Python while over branch_nodes. -/
def runLoop (net : Oracle) (lib : NumLib) (cfg : Config) : Nat → GenState → GenState
  | 0, st => st
  | n + 1, st =>
    if st.branchSet.isEmpty then st
    else runLoop net lib cfg n (roundStep net lib cfg st)

/-- The search tree after the root insertion and its single expansion
(init_scenario_tree, scenario_tree.py lines 77-83, before the branch
decision pass): the root is branch-ready with the prepared observation
as its pending payload and its children come from prune_merge at branch
depth 0. -/
def initTree (net : Oracle) (lib : NumLib) (cfg : Config) (rootData : ScenData) :
    Tree ScenarioData :=
  createNodes (Tree.empty.addNode "root" none ⟨none, some rootData, true, false, false⟩)
    (pruneMerge lib cfg 0 [rootData] (net [rootData]))

/-- init_scenario_tree (scenario_tree.py lines 77-84) followed by the
first get_branch_set call of branch_aime (line 55): insert the root
node branch-ready, expand it once at branch depth 0, run the branch
decision, then collect the first branch set (incrementing branch_depth
to 1). -/
def initState (net : Oracle) (lib : NumLib) (cfg : Config) (rootData : ScenData) :
    GenState :=
  stepBranchSet ⟨decideBranch lib cfg (initTree net lib cfg rootData), 0, []⟩

/-- The fruitfulness of one branching round: every member of the branch
set still owns at least one child after node creation (that is, its
expansion produced at least one surviving child scenario). This is the
proviso under which the claimed depth bound on the loop holds. -/
def Fruitful (net : Oracle) (lib : NumLib) (cfg : Config) (st : GenState) : Prop :=
  ∀ k ∈ st.branchSet, ∃ n,
    (createNodes st.tree (roundChildren net lib cfg st)).getNode? k = some n ∧
    n.childrenKeys ≠ []

/-- prepare_root_data (scenario_tree.py lines 465-516) for the
batch-of-one produced by process_data: the observation histories are
re-projected through each agent's instance frame and the scene frame
into the global frame, the covariance history is the constant 1e-5 bed
of line 498, the heading history recovers angles from the stacked
cos/sin observation (get_angle of utils at line 485, modelled from the
spec as the angle kernel), and the root bookkeeping fields
SCEN_PROB = 1, SCEN_ID = root, PARENT_ID = none, CUR_T = 0,
END_T = pred_len are installed (lines 471-475). -/
structure RawData where
  orig : Pt
  rot : Mat2
  trajsPosObs : List (List Pt)
  trajsAngObs : List (List Pt)
  trajsVelObs : List (List Pt)
  trajsCtrs : List Pt
  trajsVecs : List Pt
  tgtPts : List Pt
  meta : List String
deriving DecidableEq

/-- The root data dict built by prepare_root_data; see RawData. -/
def prepareRootData (lib : NumLib) (cfg : Config) (raw : RawData) : ScenData :=
  let thetaGlobal := lib.atan2F raw.rot.c raw.rot.a
  let idxs := List.range raw.trajsPosObs.length
  { scenProb := 1,
    curT := 0,
    endT := cfg.predLen,
    parentId := none,
    scenId := "root",
    posHist := idxs.map (fun i =>
      let veci := raw.trajsVecs.getD i (0, 0)
      let rt := rotOf lib (lib.atan2F veci.2 veci.1)
      let ci := raw.trajsCtrs.getD i (0, 0)
      (raw.trajsPosObs.getD i []).map (fun p =>
        padd (rowMulT (padd (rowMulT p rt) ci) raw.rot) raw.orig)),
    covHist := idxs.map (fun i =>
      List.replicate (raw.trajsPosObs.getD i []).length (1 / 100000)),
    angHist := idxs.map (fun i =>
      let veci := raw.trajsVecs.getD i (0, 0)
      let th := lib.atan2F veci.2 veci.1
      (raw.trajsAngObs.getD i []).map (fun cs => lib.atan2F cs.2 cs.1 + th + thetaGlobal)),
    velHist := idxs.map (fun i =>
      let veci := raw.trajsVecs.getD i (0, 0)
      let rt := rotOf lib (lib.atan2F veci.2 veci.1)
      (raw.trajsVelObs.getD i []).map (fun v => rowMulT (rowMulT v rt) raw.rot)),
    orig := raw.orig,
    rot := raw.rot,
    trajsCtrs := raw.trajsCtrs,
    trajsVecs := raw.trajsVecs,
    tgtPts := raw.tgtPts,
    meta := raw.meta }

/-- Message of the no-end-node assertion at scenario_tree.py line 74. -/
def noEndMsg : String := "No end node found in the scenario tree."

/-- The extraction payload of the exported data tree: the normalised
probability data[0] and, once attached (scenario_tree.py lines
283-287), the node's own position and covariance history slices and
its goal points. -/
structure DTP where
  prob : Rat
  extra : Option (List (List Pt) × List (List Rat) × List Pt)
deriving DecidableEq

/-- Set the end flag of one node payload. -/
def setEndFlag (p : ScenarioData) : ScenarioData := { p with endFlag := true }

/-- One ancestor-chain walk of the end-flag back-propagation
(scenario_tree.py lines 250-252): while the node has a parent, set its
end flag and move to the parent. The fuel, at least the node count,
bounds the chain length of a well-formed tree. -/
def markChain (t : Tree ScenarioData) : Nat → String → Tree ScenarioData
  | 0, _ => t
  | fuel + 1, k =>
    match t.getNode? k with
    | none => t
    | some n =>
      match n.parentKey with
      | none => t
      | some pk => markChain (t.modifyPayload k setEndFlag) fuel pk

/-- The end-flag back-propagation over every end leaf (scenario_tree.py
lines 249-252). Back-propagation flags only ancestors, which are not
leaves, so the end-leaf set is stable during the fold. -/
def backProp (t : Tree ScenarioData) : Tree ScenarioData :=
  (endLeaves t).foldl (fun tr n => markChain tr (tr.nodes.length + 1) n.key) t

/-- The end-flagged children of a search node, in children-keys order
(scenario_tree.py lines 265-268). -/
def endChildren (t : Tree ScenarioData) (n : TNode ScenarioData) :
    List (TNode ScenarioData) :=
  (n.childrenKeys.filterMap t.getNode?).filter (fun c => c.payload.endFlag)

/-- The joint scenario probability stored in a node's data dict
(SCEN_PROB; 0 as placeholder for the absent root dict). -/
def scenProbOf (n : TNode ScenarioData) : Rat :=
  (n.payload.data.map (·.scenProb)).getD 0

/-- Processing of one queue node of the data-tree construction
(scenario_tree.py lines 262-276): read the parent's already-normalised
probability from the data tree, total the end-flagged children's joint
probabilities, then add each end-flagged child with its renormalised
probability and return them for the queue. -/
def buildStep (t : Tree ScenarioData) (dt : Tree DTP) (cur : TNode ScenarioData) :
    Tree DTP × List (TNode ScenarioData) :=
  let parentProb := ((dt.getNode? cur.key).map (·.payload.prob)).getD 0
  let cs := endChildren t cur
  let total := (cs.map scenProbOf).sum
  (cs.foldl (fun d c =>
      d.addNode c.key (some cur.key) ⟨scenProbOf c / total * parentProb, none⟩) dt,
   cs)

/-- The queue-driven construction loop (scenario_tree.py lines
261-276), fuel-bounded. -/
def buildBFS (t : Tree ScenarioData) :
    Nat → List (TNode ScenarioData) → Tree DTP → Tree DTP
  | 0, _, dt => dt
  | _ + 1, [], dt => dt
  | fuel + 1, cur :: rest, dt =>
    let s := buildStep t dt cur
    buildBFS t fuel (rest ++ s.2) s.1

/-- Construction of the data tree (scenario_tree.py lines 243-276): a
root carrying probability 1 and, for every end-flagged child of the
search root, a probability-1 top-level node whose subtree the BFS fills
with renormalised probabilities. -/
def buildDataTree (t : Tree ScenarioData) : Tree DTP :=
  match t.getRoot? with
  | none => Tree.empty
  | some root =>
    let dt0 := Tree.empty.addNode root.key none ⟨1, none⟩
    root.childrenKeys.foldl (fun dt key =>
      match t.getNode? key with
      | none => dt
      | some node =>
        if node.payload.endFlag then
          buildBFS t (t.nodes.length + 1) [node]
            (dt.addNode node.key (some root.key) ⟨1, none⟩)
        else dt) dt0

/-- The per-node slice attachment walk (scenario_tree.py lines
280-288): climb an end leaf's ancestor chain; each non-root chain node
whose data-tree entry still has the bare one-element payload receives
its own predicted segment (history columns obs_len up to
obs_len + END_T - CUR_T) and its goal points. -/
def attachExtra (cfg : Config) (t : Tree ScenarioData) (dt : Tree DTP) :
    Nat → String → Tree DTP
  | 0, _ => dt
  | fuel + 1, k =>
    match t.getNode? k with
    | none => dt
    | some n =>
      match n.parentKey with
      | none => dt
      | some pk =>
        let dt2 := match n.payload.data with
          | none => dt
          | some d =>
            dt.modifyPayload k (fun p =>
              match p.extra with
              | some _ => p
              | none =>
                let ex := (d.posHist.map (fun row => (row.drop cfg.obsLen).take (d.endT - d.curT)),
                  d.covHist.map (fun row => (row.drop cfg.obsLen).take (d.endT - d.curT)),
                  d.tgtPts)
                { p with extra := some ex })
        attachExtra cfg t dt2 fuel pk

/-- The slice attachment over every end leaf (scenario_tree.py lines
279-288). -/
def attachAll (cfg : Config) (t : Tree ScenarioData) (dt : Tree DTP) : Tree DTP :=
  (endLeaves t).foldl (fun d n => attachExtra cfg t d (t.nodes.length + 1) n.key) dt

/-- The copy of one scenario tree out of the data tree from a top-level
child (scenario_tree.py lines 293-305), fuel-bounded BFS copying every
child payload. -/
def copyBFS (dt : Tree DTP) : Nat → List (TNode DTP) → Tree DTP → Tree DTP
  | 0, _, out => out
  | _ + 1, [], out => out
  | fuel + 1, cur :: rest, out =>
    let cs := cur.childrenKeys.filterMap dt.getNode?
    let out2 := cs.foldl (fun o c => o.addNode c.key (some cur.key) c.payload) out
    copyBFS dt fuel (rest ++ cs) out2

/-- get_scenario_tree (scenario_tree.py lines 243-307): back-propagate
end flags through the search tree, build the data tree with normalised
probabilities, attach the per-node slices, then split the data tree
into one output tree per top-level child of its root. -/
def getScenarioTree (cfg : Config) (t : Tree ScenarioData) : List (Tree DTP) :=
  let t1 := backProp t
  let dt := attachAll cfg t1 (buildDataTree t1)
  match dt.getRoot? with
  | none => []
  | some dtRoot =>
    dtRoot.childrenKeys.filterMap (fun key =>
      (dt.getNode? key).map (fun node =>
        copyBFS dt (dt.nodes.length + 1) [node]
          (Tree.empty.addNode node.key none node.payload)))

/-- branch_aime (scenario_tree.py lines 38-75) from the processed
input: initialise the tree, run the AIME loop (fuel-bounded: none when
the fuel is exhausted before the branch set empties, so the result is
defined exactly when the while loop exits), then the no-end-node
assertion of line 74 and the extraction of line 75. -/
def branchAime (net : Oracle) (lib : NumLib) (cfg : Config) (raw : RawData)
    (fuel : Nat) : Option (Except String (List (Tree DTP))) :=
  let st := runLoop net lib cfg fuel (initState net lib cfg (prepareRootData lib cfg raw))
  if st.branchSet.isEmpty then
    some (if 0 < (endLeaves st.tree).length then .ok (getScenarioTree cfg st.tree)
          else .error noEndMsg)
  else none

/- Concrete instances for witnesses and counterexamples. -/

/-- Concrete numeric kernels for witnesses and counterexamples: the
identity as square root (faithful where it matters below, in particular
at 0 and 1), identity trigonometric kernels, the first argument as the
angle, and the zero polyline distance. The claims never depend on the
kernel values, so any pure instance is admissible. -/
def libW : NumLib := ⟨fun q => q, fun q => q, fun q => q, fun y _ => y, fun _ _ => 0⟩

/-- An 11-point straight target lane for concrete runs. -/
def laneW : List Pt := (List.range 11).map (fun i => ((i : Rat), 0))

/-- Constant per-point attribute rows matching laneW. -/
def laneInfoW : List (List Rat) := List.replicate 11 [0]

/-- Concrete configuration for witness runs: obs_len 1, pred_len 6,
max_depth 3, unit thresholds, the straight lane installed. -/
def cfgW : Config := ⟨1, 6, 3, 1, 1, some laneW, laneInfoW⟩

/-- A one-agent processed input for concrete runs (one observed step). -/
def rawW1 : RawData :=
  ⟨(0, 0), ⟨1, 0, 0, 1⟩, [[((0 : Rat), (0 : Rat))]], [[((1 : Rat), (0 : Rat))]],
   [[((0 : Rat), (0 : Rat))]], [(0, 0)], [(1, 0)], laneW, []⟩

/-- The empty oracle: no modes at all (empty res_cls), so every
expansion is pruned to nothing. -/
def netW0 : Oracle := fun _ => []

/-- The root data dict of the concrete witness runs. -/
def sdW : ScenData := prepareRootData libW cfgW rawW1

/-- A tiny concrete search tree: a root and one branch-flagged leaf. -/
def tW1 : Tree ScenarioData :=
  (Tree.empty.addNode "root" none ⟨none, some sdW, false, false, false⟩).addNode
    "c" (some "root") ⟨some sdW, none, true, false, false⟩

/-- The flagged leaf of tW1 as a node record. -/
def nW1 : TNode ScenarioData :=
  ⟨"c", some "root", [], 1, ⟨some sdW, none, true, false, false⟩⟩

/-- The trigger property of claim C6, in the claim's product phrasing:
an even step strictly inside (CUR_T, END_T) at which some agent's
covariance exceeds 9 times its covariance at the comparison step. -/
def trigP (cfg : Config) (d : ScenData) (t : Nat) : Prop :=
  t % 2 = 0 ∧ d.curT < t ∧ t < d.endT ∧
    ∃ row ∈ d.covHist, 9 * row.getD (compareIdx cfg d.curT) 0 < row.getD (cfg.obsLen + t) 0

/-- A concrete predicted payload whose covariance bursts at step 2:
three quiet steps of 1e-5 followed by four steps at 1. -/
def sdC6 : ScenData :=
  { sdW with covHist := [List.replicate 3 (1 / 100000) ++ List.replicate 4 1] }

/-- Two-agent processed input for the counterexample runs: trivial
anchors (unit heading vectors, zero centers, identity scene rotation). -/
def rawW2 : RawData :=
  ⟨(0, 0), ⟨1, 0, 0, 1⟩,
   [[((0 : Rat), (0 : Rat))], [((1 : Rat), (0 : Rat))]],
   [[((1 : Rat), (0 : Rat))], [((1 : Rat), (0 : Rat))]],
   [[((0 : Rat), (0 : Rat))], [((0 : Rat), (0 : Rat))]],
   [(0, 0), (0, 0)], [(1, 0), (1, 0)], laneW, []⟩

/-- Kernels for the counterexample run: identity square root and sine,
constant-one cosine, first-argument atan2, zero lane distance. All
instance rotations are then built from angle 0 and equal the identity,
and a wrapped angle difference equals the difference itself. -/
def libCE : NumLib := ⟨fun q => q, fun q => q, fun _ => 1, fun y _ => y, fun _ _ => 0⟩

/-- Ego mode at the root: stationary, covariance bursting at step 3 of
the 6-step prediction. -/
def mpEgoRoot : ModePred :=
  ⟨List.replicate 6 ((0 : Rat), (0 : Rat)), [0, 0, 1, 1, 1, 1],
   List.replicate 6 ((0 : Rat), (0 : Rat))⟩

/-- First exo mode at the root: constant bearing from the ego. -/
def mpExoRootA : ModePred :=
  ⟨List.replicate 6 ((1 : Rat), (0 : Rat)), [0, 0, 1, 1, 1, 1],
   List.replicate 6 ((0 : Rat), (0 : Rat))⟩

/-- Second exo mode at the root: bearing jump after the first step, so
its topology signature differs from the first mode beyond pi/6. -/
def mpExoRootB : ModePred :=
  ⟨((1 : Rat), (0 : Rat)) :: List.replicate 5 ((0 : Rat), (1 : Rat)), [0, 0, 1, 1, 1, 1],
   List.replicate 6 ((0 : Rat), (0 : Rat))⟩

/-- Ego and exo mode under the surviving root child: covariance burst
at prediction step 4, even step relative to the advanced CUR_T = 2. -/
def mpEgoB : ModePred :=
  ⟨List.replicate 6 ((0 : Rat), (0 : Rat)), [0, 0, 0, 1, 1, 1],
   List.replicate 6 ((0 : Rat), (0 : Rat))⟩

/-- Exo mode under the surviving root child; see mpEgoB. -/
def mpExoB : ModePred :=
  ⟨List.replicate 6 ((1 : Rat), (0 : Rat)), [0, 0, 0, 1, 1, 1],
   List.replicate 6 ((0 : Rat), (0 : Rat))⟩

/-- Root oracle output: two equally probable, topologically distant
modes, both surviving prune and merge. -/
def netRootOut : NetOut := ⟨[1 / 2, 1 / 2], [[mpEgoRoot, mpEgoRoot], [mpExoRootA, mpExoRootB]]⟩

/-- Oracle output with a single surviving mode. -/
def netOneOut : NetOut := ⟨[1], [[mpEgoB], [mpExoB]]⟩

/-- Oracle output whose only mode is pruned by the probability prune
(joint probability below 0.001). -/
def netWeakOut : NetOut := ⟨[1 / 2000], []⟩

/-- The oracle of the C1 counterexample run, keyed on the observation
scenario id: two surviving modes at the root, exactly one surviving
child under the second root child, and an always-pruned prediction
everywhere else, so branch-ready leaves repeatedly expand to no
surviving children. -/
def netCE : Oracle := fun batch => batch.map (fun obs =>
  if obs.scenId = "root" then netRootOut
  else if obs.scenId = "0_0_1" then netOneOut
  else netWeakOut)

/-- Executable fruitfulness check of one branching round: every key of
the branch set still owns at least one child after node creation, that
is, its expansion produced at least one surviving child scenario. This
is the proviso under which the amended depth bound on the loop holds. -/
def fruitfulB (net : Oracle) (lib : NumLib) (cfg : Config) (st : GenState) : Bool :=
  st.branchSet.all (fun k =>
    match (createNodes st.tree (roundChildren net lib cfg st)).getNode? k with
    | some n => !n.childrenKeys.isEmpty
    | none => false)

/-- The generator state just before the root expansion: the tree holds
only the branch-ready root, the branch set is the root key and the
branch depth is 0. One roundStep from this state is exactly
init_scenario_tree followed by the first get_branch_set call. -/
def initPre (rootData : ScenData) : GenState :=
  ⟨Tree.empty.addNode "root" none ⟨none, some rootData, true, false, false⟩, 0, ["root"]⟩

/-- The controller-state invariant of the branching loop: the tree keys
are unique; the branch set is exactly the flagged-leaf key list; every
data dict and observation dict stored at a node carries the node's own
key as its scenario id; every flagged leaf sits exactly at the current
branch depth, strictly below the depth limit; and every unflagged leaf
is either end-flagged or at the depth limit. -/
def LoopInv (cfg : Config) (st : GenState) : Prop :=
  st.tree.keys.Nodup ∧
  st.branchSet = branchLeafKeys st.tree ∧
  (∀ n ∈ st.tree.nodes,
    (∀ d, n.payload.data = some d → d.scenId = n.key) ∧
    (∀ o, n.payload.obsData = some o → o.scenId = n.key)) ∧
  (∀ n ∈ st.tree.nodes, n.childrenKeys = [] →
    (n.payload.branchFlag = true →
      n.depth = st.branchDepth ∧ n.depth < cfg.maxDepth) ∧
    (n.payload.branchFlag = false →
      n.payload.endFlag = true ∨ cfg.maxDepth ≤ n.depth))

/-- The key-shape invariant of the search tree: every key is either the
distinguished root key or a child key minted at a strictly earlier
branch depth. -/
def KeyShape (st : GenState) : Prop :=
  ∀ k ∈ st.tree.keys, k = "root" ∨ ∃ d i s, d < st.branchDepth ∧ k = mkKey d i s

/-- The everywhere-fruitful oracle of the amended-C1 witness run: a
single surviving mode at every node. -/
def netF : Oracle := fun batch => batch.map (fun _ => netOneOut)

/-- Executable well-formedness of a search tree handed to extraction,
the properties the Tree class of planners/basic/tree maintains by
construction (spec section 3): unique keys, duplicate-free children
lists, every listed child present with back-pointing parent key and
depth one below its parent, and a positive joint probability on every
non-root node (true of every generated node, whose SCEN_PROB survived
the 1e-3 probability prune). -/
def treeWF (t : Tree ScenarioData) : Bool :=
  decide t.keys.Nodup &&
  t.nodes.all (fun n => decide n.childrenKeys.Nodup) &&
  t.nodes.all (fun n => n.childrenKeys.all (fun k =>
    match t.getNode? k with
    | some c => c.parentKey == some n.key && c.depth == n.depth + 1
    | none => false)) &&
  t.nodes.all (fun n => !n.parentKey.isSome || decide (0 < scenProbOf n))

/-- The sum of the probabilities attached to the childless nodes of a
data tree: the left side of the probability-conservation claim. -/
def leafProbSum (dt : Tree DTP) : Rat :=
  ((dt.nodes.filter (fun n => n.childrenKeys.isEmpty)).map (fun n => n.payload.prob)).sum

/-- Pointwise structural agreement of two trees up to a payload
projection: same length, and node for node the same key, parent key,
children list and depth, with equal projected payloads. The payload
rewrites of back-propagation (end_flag only) and slice attachment
(extra only) are shape-preserving in this sense. -/
def SameShapeBy {α γ : Type} (f : α → γ) (t t' : Tree α) : Prop :=
  List.Forall₂ (fun n n' => n'.key = n.key ∧ n'.parentKey = n.parentKey ∧
    n'.childrenKeys = n.childrenKeys ∧ n'.depth = n.depth ∧
    f n'.payload = f n.payload) t.nodes t'.nodes

/-- The invariant of the copy loop of get_scenario_tree (copyBFS)
relative to a source data tree and the top-level node being copied:
queue elements are source nodes below the top node with a parent; queue
keys are distinct; every queued node is already present in the copy,
childless, with its payload; children of queued nodes are not yet
copied; the copy's keys are distinct; the childless-node probability
mass of the copy equals the top node's probability; every copied key is
the top key or a child of an already processed source parent; the copy
lists the parentless top node first; and every copied node agrees in
key, payload and (below the top) parent with a source node. -/
def CopyInv (dt : Tree DTP) (node : TNode DTP) (Q : List (TNode DTP))
    (out : Tree DTP) : Prop :=
  (∀ q ∈ Q, q ∈ dt.nodes ∧ node.depth ≤ q.depth ∧ q.parentKey ≠ none) ∧
  (Q.map (·.key)).Nodup ∧
  (∀ q ∈ Q, ∃ oq, out.getNode? q.key = some oq ∧ oq.childrenKeys = [] ∧
    oq.payload = q.payload) ∧
  (∀ q ∈ Q, ∀ k ∈ q.childrenKeys, k ∉ out.keys) ∧
  out.keys.Nodup ∧
  leafProbSum out = node.payload.prob ∧
  (∀ ko ∈ out.keys, ko = node.key ∨ ∃ p ∈ dt.nodes, ko ∈ p.childrenKeys ∧
    p.parentKey ≠ none ∧ p.key ∈ out.keys ∧ p.key ∉ Q.map (·.key)) ∧
  (∃ r rest, out.nodes = r :: rest ∧ r.key = node.key ∧ r.parentKey = none ∧
    r.payload = node.payload ∧ ∀ n ∈ rest, n.parentKey ≠ none) ∧
  (∀ nd ∈ out.nodes, ∃ dn ∈ dt.nodes, dn.key = nd.key ∧ dn.payload = nd.payload ∧
    (nd.parentKey ≠ none → nd.parentKey = dn.parentKey))

/-- The renormalisation law of the data tree built by get_scenario_tree
(scenario_tree.py lines 262-276), below the top level: every data node
with a parent either hangs off the parentless data root (the top-level
scenario roots, installed with probability 1), or carries exactly its
end-flagged search sibling share - its joint probability over the sum
of the joint probabilities of its parent's end-flagged children - times
the parent's already renormalised probability. -/
def DtFormula (t1 : Tree ScenarioData) (dt : Tree DTP) : Prop :=
  ∀ dn ∈ dt.nodes, ∀ pk, dn.parentKey = some pk →
    ∃ dp, dt.getNode? pk = some dp ∧ (dp.parentKey = none ∨
      ∃ sp sc, t1.getNode? pk = some sp ∧ t1.getNode? dn.key = some sc ∧
        sc ∈ endChildren t1 sp ∧
        dn.payload.prob = scenProbOf sc / ((endChildren t1 sp).map scenProbOf).sum *
          dp.payload.prob)

/-- The invariant of the data-tree construction loop (buildBFS)
relative to the back-propagated search tree t1, its root, and the list
of already processed top-level child keys: queue elements are search
nodes; queue keys are distinct; every queued node has a childless
parented data-tree entry; children of queued nodes are not yet in the
data tree; the data tree has distinct keys, coherent child links,
duplicate-free children lists, children probabilities summing to the
parent's below the top level, and the renormalisation law; every data
key is the root key, a processed top-level child or a child of an
already processed parented search node; the parentless root record is
listed first; and the root's direct data children carry probability 1. -/
def BuildInv (t1 : Tree ScenarioData) (root : TNode ScenarioData)
    (done : List String) (Q : List (TNode ScenarioData)) (dt : Tree DTP) : Prop :=
  (∀ q ∈ Q, q ∈ t1.nodes ∧ q.parentKey ≠ none) ∧
  (Q.map (·.key)).Nodup ∧
  (∀ q ∈ Q, ∃ dq, dt.getNode? q.key = some dq ∧ dq.childrenKeys = [] ∧
    dq.parentKey ≠ none) ∧
  (∀ q ∈ Q, ∀ k ∈ q.childrenKeys, k ∉ dt.keys) ∧
  dt.keys.Nodup ∧
  (∀ dn ∈ dt.nodes, ∀ k ∈ dn.childrenKeys, ∃ c, dt.getNode? k = some c ∧
    c.parentKey = some dn.key ∧ c.depth = dn.depth + 1) ∧
  (∀ dn ∈ dt.nodes, dn.childrenKeys.Nodup) ∧
  (∀ dn ∈ dt.nodes, dn.parentKey ≠ none → dn.childrenKeys ≠ [] →
    ((dn.childrenKeys.filterMap dt.getNode?).map (fun c => c.payload.prob)).sum =
      dn.payload.prob) ∧
  DtFormula t1 dt ∧
  (∀ ko ∈ dt.keys, ko = root.key ∨ ko ∈ done ∨ ∃ p ∈ t1.nodes,
    ko ∈ p.childrenKeys ∧ p.parentKey ≠ none ∧ p.key ∈ dt.keys ∧
    p.key ∉ Q.map (·.key)) ∧
  (∃ rr rest0, dt.nodes = rr :: rest0 ∧ rr.key = root.key ∧ rr.parentKey = none ∧
    ∀ o ∈ rest0, o.parentKey ≠ none) ∧
  (∀ dn ∈ dt.nodes, dn.parentKey = some root.key → dn.payload.prob = 1)

/-- The structural well-formedness facts of the back-propagated search
tree used by the data-tree construction: duplicate-free keys, coherent
child links, duplicate-free children lists, and positive joint
probabilities on parented nodes. -/
def SearchWF (t1 : Tree ScenarioData) : Prop :=
  t1.keys.Nodup ∧
  (∀ n ∈ t1.nodes, ∀ k ∈ n.childrenKeys, ∃ c, t1.getNode? k = some c ∧
    c.parentKey = some n.key ∧ c.depth = n.depth + 1) ∧
  (∀ n ∈ t1.nodes, n.childrenKeys.Nodup) ∧
  (∀ n ∈ t1.nodes, n.parentKey ≠ none → 0 < scenProbOf n)

/-- A root dict with the given joint probability, for concrete
extraction runs. -/
def sdP (q : Rat) : ScenData := { sdW with scenProb := q }

/-- An end-flagged Predicted payload with the given joint probability. -/
def plE (q : Rat) : ScenarioData := ⟨some (sdP q), none, false, true, false⟩

/-- A concrete search tree for the extraction witness: two end-flagged
top-level scenarios a and b, scenario a refined by two end-flagged
children of joint probabilities 2/5 and 3/5. -/
def tC2 : Tree ScenarioData :=
  ((((Tree.empty.addNode "root" none ⟨none, some sdW, false, false, false⟩).addNode
    "a" (some "root") (plE (1 / 2))).addNode
    "b" (some "root") (plE (1 / 2))).addNode
    "c" (some "a") (plE (2 / 5))).addNode
    "d" (some "a") (plE (3 / 5))

/- ===================== THEOREMS: numerals and keys ===================== -/

theorem digitVal_digitChar {d : Nat} (h : d < 10) : digitVal (Nat.digitChar d) = d := by
  interval_cases d <;> rfl

theorem digitChar_ne_underscore (d : Nat) : Nat.digitChar d ≠ '_' := by
  match d with
  | 0 => decide
  | 1 => decide
  | 2 => decide
  | 3 => decide
  | 4 => decide
  | 5 => decide
  | 6 => decide
  | 7 => decide
  | 8 => decide
  | 9 => decide
  | 10 => decide
  | 11 => decide
  | 12 => decide
  | 13 => decide
  | 14 => decide
  | 15 => decide
  | n + 16 =>
    have h : Nat.digitChar (n + 16) = '*' := rfl
    rw [h]
    decide

theorem strVal_append_digit (cs : List Char) (c : Char) :
    strVal (cs ++ [c]) = 10 * strVal cs + digitVal c := by
  unfold strVal
  rw [List.foldl_append]
  rfl

theorem strVal_natChars (n : Nat) : strVal (natChars n) = n := by
  induction n using Nat.strong_induction_on with
  | _ n ih =>
    unfold natChars
    split
    · next h =>
      show strVal [Nat.digitChar n] = n
      unfold strVal
      simp [digitVal_digitChar h]
    · next h =>
      rw [strVal_append_digit, ih (n / 10) (Nat.div_lt_self (by omega) (by omega)),
        digitVal_digitChar (Nat.mod_lt _ (by omega))]
      omega

theorem natChars_injective : Function.Injective natChars := by
  intro a b h
  have := strVal_natChars a
  rw [h, strVal_natChars] at this
  omega

theorem natChars_no_underscore (n : Nat) : '_' ∉ natChars n := by
  induction n using Nat.strong_induction_on with
  | _ n ih =>
    unfold natChars
    split
    · simp
      exact fun h => digitChar_ne_underscore n h.symm
    · intro hmem
      rcases List.mem_append.mp hmem with h1 | h1
      · exact ih (n / 10) (Nat.div_lt_self (by omega) (by omega)) h1
      · simp at h1
        exact digitChar_ne_underscore (n % 10) h1.symm

theorem append_underscore_inj {a a' b b' : List Char}
    (ha : '_' ∉ a) (ha' : '_' ∉ a')
    (h : a ++ '_' :: b = a' ++ '_' :: b') : a = a' ∧ b = b' := by
  induction a generalizing a' with
  | nil =>
    cases a' with
    | nil => simpa using h
    | cons x xs =>
      simp at h
      exact absurd (h.1 ▸ List.mem_cons_self x xs) ha'
  | cons x xs ih =>
    cases a' with
    | nil =>
      simp at h
      exact absurd (h.1 ▸ List.mem_cons_self x xs) ha
    | cons y ys =>
      simp at h
      obtain ⟨hx, hrest⟩ := h
      have := ih (fun hm => ha (List.mem_cons_of_mem x hm))
        (fun hm => ha' (hx ▸ List.mem_cons_of_mem y hm)) hrest
      exact ⟨by rw [hx, this.1], this.2⟩

theorem mkKeyChars_inj {d i s d' i' s' : Nat}
    (h : mkKeyChars d i s = mkKeyChars d' i' s') : d = d' ∧ i = i' ∧ s = s' := by
  unfold mkKeyChars at h
  obtain ⟨h1, h2⟩ := append_underscore_inj (natChars_no_underscore d)
    (natChars_no_underscore d') h
  obtain ⟨h3, h4⟩ := append_underscore_inj (natChars_no_underscore i)
    (natChars_no_underscore i') h2
  exact ⟨natChars_injective h1, natChars_injective h3, natChars_injective h4⟩

theorem mkKey_inj {d i s d' i' s' : Nat}
    (h : mkKey d i s = mkKey d' i' s') : d = d' ∧ i = i' ∧ s = s' := by
  unfold mkKey at h
  exact mkKeyChars_inj (congrArg String.data h)

theorem mkKey_ne_root (d i s : Nat) : mkKey d i s ≠ "root" := by
  intro h
  have hdata : mkKeyChars d i s = "root".data := congrArg String.data h
  have hu : '_' ∈ mkKeyChars d i s := by
    unfold mkKeyChars
    exact List.mem_append.mpr (Or.inr (List.mem_cons_self _ _))
  rw [hdata] at hu
  simp at hu

/- ===================== THEOREMS: merge loop ===================== -/

theorem mergeLoop_subset {α : Type} (lib : NumLib) (thr : Rat) (l : List (Cand α))
    {x : Cand α} (hx : x ∈ mergeLoop lib thr l) : x ∈ l := by
  induction l using mergeLoop.induct lib thr with
  | case1 => simp [mergeLoop] at hx
  | case2 c rest ih =>
    rw [mergeLoop] at hx
    rcases List.mem_cons.mp hx with h | h
    · exact h ▸ List.mem_cons_self _ _
    · exact List.mem_cons_of_mem _ (List.mem_of_mem_filter (ih h))

theorem mergeLoop_of_all_keep {α : Type} (lib : NumLib) (thr : Rat) (c : Cand α)
    (l : List (Cand α)) (h : ∀ x ∈ l, keepAgainst lib thr c x = true) :
    l.filter (keepAgainst lib thr c) = l :=
  List.filter_eq_self.mpr (fun x hx => h x hx)

theorem mergeLoop_pairwise {α : Type} (lib : NumLib) (thr : Rat) (l : List (Cand α)) :
    (mergeLoop lib thr l).Pairwise (fun a b => keepAgainst lib thr a b = true) := by
  induction l using mergeLoop.induct lib thr with
  | case1 => simp [mergeLoop]
  | case2 c rest ih =>
    rw [mergeLoop]
    refine List.pairwise_cons.mpr ⟨?_, ih⟩
    intro x hx
    exact List.of_mem_filter (mergeLoop_subset lib thr _ hx)

/-- C3: the top-level generation (branch_aime) fails with the fatal
no-end-node assertion exactly when, at exit of the expansion loop, no
leaf of the search tree has end_flag set; whenever at least one
end-flagged leaf exists it returns the extracted list of scenario trees
normally, with no retry or degraded result. -/
theorem claim_C3_assert_iff_no_end (net : Oracle) (lib : NumLib) (cfg : Config)
    (raw : RawData) (fuel : Nat)
    (hexit : (runLoop net lib cfg fuel
      (initState net lib cfg (prepareRootData lib cfg raw))).branchSet.isEmpty = true) :
    (branchAime net lib cfg raw fuel = some (.error noEndMsg) ↔
      endLeaves (runLoop net lib cfg fuel
        (initState net lib cfg (prepareRootData lib cfg raw))).tree = []) ∧
    (endLeaves (runLoop net lib cfg fuel
        (initState net lib cfg (prepareRootData lib cfg raw))).tree ≠ [] →
      branchAime net lib cfg raw fuel = some (.ok (getScenarioTree cfg
        (runLoop net lib cfg fuel
          (initState net lib cfg (prepareRootData lib cfg raw))).tree))) := by
  simp only [branchAime, hexit, if_true]
  constructor
  · constructor
    · intro h
      split at h
      · simp at h
      · next hlen => exact List.length_eq_zero.mp (by omega)
    · intro h
      rw [h]
      simp
  · intro h
    rw [if_pos (List.length_pos.mpr h)]

/-- Witness for C3 at a concrete run: under the empty oracle the root
expansion is pruned to nothing, the loop exits immediately with no end
leaf, and branch_aime takes the fatal-assertion branch. -/
theorem claim_C3_witness :
    (runLoop netW0 libW cfgW 0
      (initState netW0 libW cfgW (prepareRootData libW cfgW rawW1))).branchSet.isEmpty = true ∧
    ((branchAime netW0 libW cfgW rawW1 0 = some (.error noEndMsg) ↔
      endLeaves (runLoop netW0 libW cfgW 0
        (initState netW0 libW cfgW (prepareRootData libW cfgW rawW1))).tree = []) ∧
    (endLeaves (runLoop netW0 libW cfgW 0
        (initState netW0 libW cfgW (prepareRootData libW cfgW rawW1))).tree ≠ [] →
      branchAime netW0 libW cfgW rawW1 0 = some (.ok (getScenarioTree cfgW
        (runLoop netW0 libW cfgW 0
          (initState netW0 libW cfgW (prepareRootData libW cfgW rawW1))).tree)))) :=
  ⟨by with_unfolding_all rfl,
   claim_C3_assert_iff_no_end netW0 libW cfgW rawW1 0 (by with_unfolding_all rfl)⟩

theorem getNode?_decideBranch (lib : NumLib) (cfg : Config) (t : Tree ScenarioData)
    (k : String) :
    (decideBranch lib cfg t).getNode? k = (t.getNode? k).map (fun n =>
      if n.childrenKeys.isEmpty then
        { n with payload := decideOne lib cfg n.depth n.payload }
      else n) := by
  unfold decideBranch Tree.getNode?
  rw [List.find?_map]
  have hp : ((fun n : TNode ScenarioData => n.key == k) ∘ (fun n =>
      if n.childrenKeys.isEmpty then
        { n with payload := decideOne lib cfg n.depth n.payload }
      else n)) = (fun n : TNode ScenarioData => n.key == k) := by
    funext n
    by_cases h : n.childrenKeys.isEmpty = true <;> simp [Function.comp, h]
  rw [hp]

/-- C5: in one branch-decision pass, every leaf with branch_flag true
at the start of the pass has branch_flag cleared and terminate_flag
set, while its data, its observation window and its end flag stay
untouched (no depth check, no covariance check, no re-observation); the
end-flag, depth-limit and branch-time checks run only for leaves whose
branch_flag was false. -/
theorem claim_C5_first_touch (lib : NumLib) (cfg : Config) (t : Tree ScenarioData)
    (k : String) (n : TNode ScenarioData)
    (hfind : t.getNode? k = some n) (hleaf : n.childrenKeys.isEmpty = true) :
    ((decideBranch lib cfg t).getNode? k =
      some { n with payload := decideOne lib cfg n.depth n.payload }) ∧
    (n.payload.branchFlag = true →
      (decideOne lib cfg n.depth n.payload).branchFlag = false ∧
      (decideOne lib cfg n.depth n.payload).terminateFlag = true ∧
      (decideOne lib cfg n.depth n.payload).data = n.payload.data ∧
      (decideOne lib cfg n.depth n.payload).obsData = n.payload.obsData ∧
      (decideOne lib cfg n.depth n.payload).endFlag = n.payload.endFlag) ∧
    (n.payload.branchFlag = false → n.payload.endFlag = true →
      decideOne lib cfg n.depth n.payload = n.payload) ∧
    (n.payload.branchFlag = false → n.payload.endFlag = false →
      cfg.maxDepth ≤ n.depth →
      decideOne lib cfg n.depth n.payload = { n.payload with terminateFlag := true }) ∧
    (n.payload.branchFlag = false → n.payload.endFlag = false →
      n.depth < cfg.maxDepth → ∀ d, n.payload.data = some d →
      decideOne lib cfg n.depth n.payload =
        (if (getBranchTime cfg d).1 < cfg.predLen then
          { n.payload with
            data := some (updateObser lib cfg (getBranchTime cfg d).2).2,
            obsData := some (updateObser lib cfg (getBranchTime cfg d).2).1,
            branchFlag := true }
        else { n.payload with data := some (getBranchTime cfg d).2, endFlag := true })) := by
  refine ⟨?_, ?_, ?_, ?_, ?_⟩
  · rw [getNode?_decideBranch, hfind]
    simp only [Option.map_some']
    rw [if_pos hleaf]
  · intro hb
    unfold decideOne
    rw [hb]
    simp
  · intro hb he
    unfold decideOne
    rw [hb, he]
    simp
  · intro hb he hd
    unfold decideOne
    rw [hb, he]
    simp only [Bool.false_eq_true, if_false, if_pos hd]
    simp [hb, he]
  · intro hb he hd d hdata
    unfold decideOne
    rw [hb, he, hdata]
    simp only [Bool.false_eq_true, if_false, if_neg (Nat.not_le.mpr hd)]
    split <;> simp [hb, he]

/-- Witness for C5 at a concrete flagged leaf. -/
theorem claim_C5_witness :
    (tW1.getNode? "c" = some nW1 ∧ nW1.childrenKeys.isEmpty = true) ∧
    ((decideBranch libW cfgW tW1).getNode? "c" =
      some { nW1 with payload := decideOne libW cfgW nW1.depth nW1.payload }) ∧
    (nW1.payload.branchFlag = true →
      (decideOne libW cfgW nW1.depth nW1.payload).branchFlag = false ∧
      (decideOne libW cfgW nW1.depth nW1.payload).terminateFlag = true ∧
      (decideOne libW cfgW nW1.depth nW1.payload).data = nW1.payload.data ∧
      (decideOne libW cfgW nW1.depth nW1.payload).obsData = nW1.payload.obsData ∧
      (decideOne libW cfgW nW1.depth nW1.payload).endFlag = nW1.payload.endFlag) ∧
    (nW1.payload.branchFlag = false → nW1.payload.endFlag = true →
      decideOne libW cfgW nW1.depth nW1.payload = nW1.payload) ∧
    (nW1.payload.branchFlag = false → nW1.payload.endFlag = false →
      cfgW.maxDepth ≤ nW1.depth →
      decideOne libW cfgW nW1.depth nW1.payload =
        { nW1.payload with terminateFlag := true }) ∧
    (nW1.payload.branchFlag = false → nW1.payload.endFlag = false →
      nW1.depth < cfgW.maxDepth → ∀ d, nW1.payload.data = some d →
      decideOne libW cfgW nW1.depth nW1.payload =
        (if (getBranchTime cfgW d).1 < cfgW.predLen then
          { nW1.payload with
            data := some (updateObser libW cfgW (getBranchTime cfgW d).2).2,
            obsData := some (updateObser libW cfgW (getBranchTime cfgW d).2).1,
            branchFlag := true }
        else { nW1.payload with data := some (getBranchTime cfgW d).2, endFlag := true })) :=
  ⟨⟨by with_unfolding_all rfl, rfl⟩,
   claim_C5_first_touch libW cfgW tW1 "c" nW1 (by with_unfolding_all rfl) rfl⟩

theorem branchScan_spec (cfg : Config) (cov : List (List Rat)) (cT : Nat) :
    ∀ (n s : Nat),
      (∀ t, branchScan cfg cov cT (List.range' s n) = some t →
        s ≤ t ∧ t < s + n ∧ t % 2 = 0 ∧ covTrigger cfg cov cT t = true ∧
        ∀ u, s ≤ u → u < t → u % 2 = 0 → covTrigger cfg cov cT u = false) ∧
      (branchScan cfg cov cT (List.range' s n) = none →
        ∀ u, s ≤ u → u < s + n → u % 2 = 0 → covTrigger cfg cov cT u = false) := by
  intro n
  induction n with
  | zero =>
    intro s
    refine ⟨fun t h => by simp [List.range', branchScan] at h, fun _ u hsu hlt => by omega⟩
  | succ n ih =>
    intro s
    rw [List.range'_succ]
    constructor
    · intro t h
      rw [branchScan] at h
      split at h
      · next hodd =>
        obtain ⟨h1, h2, h3, h4, h5⟩ := (ih (s + 1)).1 t h
        refine ⟨by omega, by omega, h3, h4, ?_⟩
        intro u hsu hut hue
        rcases Nat.eq_or_lt_of_le hsu with hEq | hlt
        · omega
        · exact h5 u (by omega) hut hue
      · split at h
        · next hev htr =>
          cases h
          exact ⟨Nat.le_refl _, by omega, by omega, htr, fun u hsu hut _ => by omega⟩
        · next hev htr =>
          obtain ⟨h1, h2, h3, h4, h5⟩ := (ih (s + 1)).1 t h
          refine ⟨by omega, by omega, h3, h4, ?_⟩
          intro u hsu hut hue
          rcases Nat.eq_or_lt_of_le hsu with hEq | hlt
          · subst hEq
            simpa using htr
          · exact h5 u (by omega) hut hue
    · intro h u hsu hub hue
      rw [branchScan] at h
      split at h
      · next hodd =>
        rcases Nat.eq_or_lt_of_le hsu with hEq | hlt
        · omega
        · exact (ih (s + 1)).2 h u (by omega) (by omega) hue
      · split at h
        · cases h
        · next hev htr =>
          rcases Nat.eq_or_lt_of_le hsu with hEq | hlt
          · subst hEq
            simpa using htr
          · exact (ih (s + 1)).2 h u (by omega) (by omega) hue

/-- The code-level ratio trigger coincides with the product form used
in the claims when the comparison covariances are positive. -/
theorem covTrigger_iff (cfg : Config) (cov : List (List Rat)) (cT t : Nat)
    (hpos : ∀ row ∈ cov, 0 < row.getD cT 0) :
    (covTrigger cfg cov cT t = true ↔
      ∃ row ∈ cov, 9 * row.getD cT 0 < row.getD (cfg.obsLen + t) 0) := by
  unfold covTrigger
  rw [List.any_eq_true]
  constructor
  · rintro ⟨row, hrow, hq⟩
    exact ⟨row, hrow, (lt_div_iff₀ (hpos row hrow)).mp (of_decide_eq_true hq)⟩
  · rintro ⟨row, hrow, hq⟩
    exact ⟨row, hrow, decide_eq_true ((lt_div_iff₀ (hpos row hrow)).mpr hq)⟩

/-- C6: get_branch_time returns the earliest even time step in
(CUR_T, END_T) at which some agent's covariance exceeds 9 times its
covariance at the fixed comparison step - index obs_len + cur_t, one
step further when this is the first round (cur_t = 0) - and returns
END_T when no such step exists; in decide_branch, a returned branch
time below the prediction horizon truncates the leaf's history,
rebuilds a fresh observation window (CUR_T advanced to the branch
point, END_T reset to the prediction horizon, last obs_len steps kept) and sets
branch_flag, and otherwise sets end_flag. -/
theorem claim_C6_branch_time (lib : NumLib) (cfg : Config) (d : ScenData)
    (hpos : ∀ row ∈ d.covHist, 0 < row.getD (compareIdx cfg d.curT) 0) :
    (compareIdx cfg d.curT = cfg.obsLen + d.curT + (if d.curT = 0 then 1 else 0)) ∧
    ((∃ t, trigP cfg d t) →
      trigP cfg d (getBranchTime cfg d).1 ∧
      (∀ s, trigP cfg d s → (getBranchTime cfg d).1 ≤ s)) ∧
    ((¬ ∃ t, trigP cfg d t) → (getBranchTime cfg d).1 = d.endT) ∧
    (∀ (p : ScenarioData) (depth : Nat),
      p.branchFlag = false → p.endFlag = false → depth < cfg.maxDepth →
      p.data = some d →
      ((getBranchTime cfg d).1 < cfg.predLen →
        (decideOne lib cfg depth p).branchFlag = true ∧
        (decideOne lib cfg depth p).data =
          some (updateObser lib cfg (getBranchTime cfg d).2).2 ∧
        (decideOne lib cfg depth p).obsData =
          some (updateObser lib cfg (getBranchTime cfg d).2).1 ∧
        (updateObser lib cfg (getBranchTime cfg d).2).2.posHist =
          (getBranchTime cfg d).2.posHist.map
            (·.take (cfg.obsLen +
              ((getBranchTime cfg d).2.endT - (getBranchTime cfg d).2.curT))) ∧
        (updateObser lib cfg (getBranchTime cfg d).2).2.covHist =
          (getBranchTime cfg d).2.covHist.map
            (·.take (cfg.obsLen +
              ((getBranchTime cfg d).2.endT - (getBranchTime cfg d).2.curT))) ∧
        (updateObser lib cfg (getBranchTime cfg d).2).1.curT =
          (getBranchTime cfg d).2.endT ∧
        (updateObser lib cfg (getBranchTime cfg d).2).1.endT = cfg.predLen) ∧
      (cfg.predLen ≤ (getBranchTime cfg d).1 →
        (decideOne lib cfg depth p).endFlag = true ∧
        (decideOne lib cfg depth p).branchFlag = false)) := by
  have hspec := branchScan_spec cfg d.covHist (compareIdx cfg d.curT)
    (d.endT - (d.curT + 1)) (d.curT + 1)
  have hgbtEq : getBranchTime cfg d =
      (match branchScan cfg d.covHist (compareIdx cfg d.curT)
          (List.range' (d.curT + 1) (d.endT - (d.curT + 1))) with
        | some t => (t, { d with endT := t })
        | none => (d.endT, d)) := rfl
  refine ⟨rfl, ?_, ?_, ?_⟩
  · intro hex
    cases hscan : branchScan cfg d.covHist (compareIdx cfg d.curT)
        (List.range' (d.curT + 1) (d.endT - (d.curT + 1))) with
    | none =>
      obtain ⟨t0, ht0a, ht0b, ht0c, ht0d⟩ := hex
      have h6 := hspec.2 hscan t0 (by omega) (by omega) ht0a
      have h7 := (covTrigger_iff cfg d.covHist _ t0 hpos).mpr ht0d
      rw [h6] at h7
      cases h7
    | some t =>
      have hgbt : getBranchTime cfg d = (t, { d with endT := t }) := by
        rw [hgbtEq, hscan]
      obtain ⟨h1, h2, h3, h4, h5⟩ := hspec.1 t hscan
      have htr : trigP cfg d t := by
        refine ⟨h3, by omega, by omega, ?_⟩
        exact (covTrigger_iff cfg d.covHist _ t hpos).mp h4
      rw [hgbt]
      refine ⟨htr, ?_⟩
      intro s hs
      obtain ⟨hsa, hsb, hsc, hsd⟩ := hs
      by_contra hlt
      have h6 := h5 s (by omega) (by omega) hsa
      have h7 := (covTrigger_iff cfg d.covHist _ s hpos).mpr hsd
      rw [h6] at h7
      cases h7
  · intro hnex
    cases hscan : branchScan cfg d.covHist (compareIdx cfg d.curT)
        (List.range' (d.curT + 1) (d.endT - (d.curT + 1))) with
    | none =>
      rw [hgbtEq, hscan]
    | some t =>
      obtain ⟨h1, h2, h3, h4, h5⟩ := hspec.1 t hscan
      exact absurd ⟨t, h3, by omega, by omega,
        (covTrigger_iff cfg d.covHist _ t hpos).mp h4⟩ hnex
  · intro p depth hb he hd hdata
    constructor
    · intro hlt
      unfold decideOne
      rw [hb, he, hdata]
      simp only [Bool.false_eq_true, if_false, if_neg (Nat.not_le.mpr hd)]
      rw [if_pos hlt]
      exact ⟨rfl, rfl, rfl, rfl, rfl, rfl, rfl⟩
    · intro hge
      unfold decideOne
      rw [hb, he, hdata]
      simp only [Bool.false_eq_true, if_false, if_neg (Nat.not_le.mpr hd)]
      rw [if_neg (Nat.not_lt.mpr hge)]
      exact ⟨rfl, hb ▸ rfl⟩

/-- Witness for C6: the concrete payload sdC6 has positive comparison
covariances, its covariance bursts at the even step 2, and the theorem
pins get_branch_time to that earliest step. -/
theorem claim_C6_witness :
    (∀ row ∈ sdC6.covHist, 0 < row.getD (compareIdx cfgW sdC6.curT) 0) ∧
    trigP cfgW sdC6 (getBranchTime cfgW sdC6).1 ∧
    (getBranchTime cfgW sdC6).1 ≤ 2 := by
  have hpos : ∀ row ∈ sdC6.covHist, 0 < row.getD (compareIdx cfgW sdC6.curT) 0 := by
    with_unfolding_all decide
  have htr2 : trigP cfgW sdC6 2 := by
    unfold trigP
    with_unfolding_all decide
  obtain ⟨ha, hb⟩ := (claim_C6_branch_time libW cfgW sdC6 hpos).2.1 ⟨2, htr2⟩
  exact ⟨hpos, ha, hb 2 htr2⟩

/-- Counterexample to C7 as stated: the Predicted payload is mutated
after creation. get_branch_time overwrites its END_T with the found
branch time (scenario_tree.py line 660): on the concrete payload sdC6
END_T changes from 6 to 2; and update_obser truncates the history
buffers in place (lines 522-525): the covariance row shrinks from 7 to
3 entries. -/
theorem claim_C7_counterexample :
    (getBranchTime cfgW sdC6).2.endT = 2 ∧ sdC6.endT = 6 ∧
    ((updateObser libW cfgW (getBranchTime cfgW sdC6).2).2.covHist.getD 0 []).length = 3 ∧
    (sdC6.covHist.getD 0 []).length = 7 := by
  with_unfolding_all decide

/-- C7 amended: after the Prune and Merge Engine produces a Predicted
payload, later rounds mutate it only in two ways - get_branch_time
overwrites END_T with the found branch time (leaving every other field,
including CUR_T and the four history buffers, unchanged; END_T is also
unchanged when no trigger step exists), and update_obser truncates the
four history buffers in place to prefixes of length
obs_len + (END_T - CUR_T) (leaving every other field, including CUR_T
and END_T, unchanged) - besides the end_flag back-propagation during
extraction; decide_branch touches payload data only through these two
operations. -/
theorem claim_C7_amended (lib : NumLib) (cfg : Config) (d : ScenData) :
    ((getBranchTime cfg d).2.curT = d.curT ∧
     (getBranchTime cfg d).2.posHist = d.posHist ∧
     (getBranchTime cfg d).2.covHist = d.covHist ∧
     (getBranchTime cfg d).2.angHist = d.angHist ∧
     (getBranchTime cfg d).2.velHist = d.velHist ∧
     (getBranchTime cfg d).2.scenProb = d.scenProb ∧
     (getBranchTime cfg d).2.scenId = d.scenId ∧
     (getBranchTime cfg d).2.parentId = d.parentId ∧
     ((getBranchTime cfg d).2.endT = d.endT ∨
      (getBranchTime cfg d).2.endT = (getBranchTime cfg d).1)) ∧
    ((updateObser lib cfg d).2.curT = d.curT ∧
     (updateObser lib cfg d).2.endT = d.endT ∧
     (updateObser lib cfg d).2.scenProb = d.scenProb ∧
     (updateObser lib cfg d).2.scenId = d.scenId ∧
     (updateObser lib cfg d).2.parentId = d.parentId ∧
     (updateObser lib cfg d).2.posHist =
       d.posHist.map (·.take (cfg.obsLen + (d.endT - d.curT))) ∧
     (updateObser lib cfg d).2.covHist =
       d.covHist.map (·.take (cfg.obsLen + (d.endT - d.curT))) ∧
     (updateObser lib cfg d).2.angHist =
       d.angHist.map (·.take (cfg.obsLen + (d.endT - d.curT))) ∧
     (updateObser lib cfg d).2.velHist =
       d.velHist.map (·.take (cfg.obsLen + (d.endT - d.curT)))) := by
  constructor
  · have hgbtEq : getBranchTime cfg d =
        (match branchScan cfg d.covHist (compareIdx cfg d.curT)
            (List.range' (d.curT + 1) (d.endT - (d.curT + 1))) with
          | some t => (t, { d with endT := t })
          | none => (d.endT, d)) := rfl
    cases hscan : branchScan cfg d.covHist (compareIdx cfg d.curT)
        (List.range' (d.curT + 1) (d.endT - (d.curT + 1))) with
    | none =>
      rw [hgbtEq, hscan]
      exact ⟨rfl, rfl, rfl, rfl, rfl, rfl, rfl, rfl, Or.inl rfl⟩
    | some t =>
      rw [hgbtEq, hscan]
      exact ⟨rfl, rfl, rfl, rfl, rfl, rfl, rfl, rfl, Or.inr rfl⟩
  · exact ⟨rfl, rfl, rfl, rfl, rfl, rfl, rfl, rfl, rfl⟩

theorem filterMap_getElem?_range' {β : Type} (l : List β) :
    ∀ (n s : Nat), (List.range' s n).filterMap (fun i => l[i]?) = (l.drop s).take n := by
  intro n
  induction n with
  | zero => intro s; simp
  | succ n ih =>
    intro s
    rw [List.range'_succ]
    simp only [List.filterMap_cons]
    by_cases hs : s < l.length
    · rw [List.getElem?_eq_getElem hs, ih (s + 1), List.drop_eq_getElem_cons hs,
        List.take_succ_cons]
    · have hle : l.length ≤ s := Nat.not_lt.mp hs
      rw [List.getElem?_eq_none hle, ih (s + 1), List.drop_eq_nil_of_le hle,
        List.drop_eq_nil_of_le (by omega)]
      simp

/-- C4: with the target lane set, the high-level command resolver
returns - for every origin, rotation, current speed and numeric kernel
instance - exactly 11 target-lane points and a goal feature built from
exactly 10 segment rows whenever the lane has at least 11 points; the
walked index is clamped into [5, len - 6], so the window exists even
when the nearest point lies at either end of the polyline; and when the
extractable window is shorter than 11 points the call fails fast with
the line-704 assertion error. -/
theorem claim_C4_window (lib : NumLib) (cfg : Config) (lane : List Pt)
    (hset : cfg.targetLane = some lane)
    (hinfo : cfg.targetLaneInfo.length = lane.length)
    (orig : Pt) (rot : Mat2) (curVel : Rat) :
    (11 ≤ lane.length →
      5 ≤ hlcTargetIdx lib cfg lane orig curVel ∧
      hlcTargetIdx lib cfg lane orig curVel ≤ lane.length - 6 ∧
      ∃ r, getHighLevelCommand lib cfg orig rot curVel = .ok r ∧
        r.pts.length = 11 ∧ r.nodes.length = 10) ∧
    (lane.length < 11 →
      getHighLevelCommand lib cfg orig rot curVel = .error hlcAssertMsg) := by
  have hpts : (getHLCCore lib cfg lane cfg.targetLaneInfo orig rot curVel).pts =
      (List.range' (hlcTargetIdx lib cfg lane orig curVel - 5) 11).filterMap
        (fun i => lane[i]?) := rfl
  have hptsLen : (getHLCCore lib cfg lane cfg.targetLaneInfo orig rot curVel).pts.length =
      ((lane.drop (hlcTargetIdx lib cfg lane orig curVel - 5)).take 11).length := by
    rw [hpts, filterMap_getElem?_range' lane 11 _]
  constructor
  · intro hlen
    have h5 : 5 ≤ hlcTargetIdx lib cfg lane orig curVel := Nat.le_max_left _ _
    have h6 : hlcTargetIdx lib cfg lane orig curVel ≤ lane.length - 6 := by
      unfold hlcTargetIdx
      exact Nat.max_le.mpr ⟨by omega, Nat.min_le_right _ _⟩
    have hc11 : (getHLCCore lib cfg lane cfg.targetLaneInfo orig rot curVel).pts.length
        = 11 := by
      rw [hptsLen, List.length_take, List.length_drop]
      omega
    have hilen : (((List.range' (hlcTargetIdx lib cfg lane orig curVel - 5) 11).filterMap
        (fun i => cfg.targetLaneInfo[i]?)).drop 1).length = 10 := by
      rw [filterMap_getElem?_range' cfg.targetLaneInfo 11 _,
        List.length_drop, List.length_take, List.length_drop, hinfo]
      omega
    have hnodes : (getHLCCore lib cfg lane cfg.targetLaneInfo orig rot curVel).nodes.length
        = 10 := by
      show (List.zipWith _ (List.zip _ _) _).length = 10
      rw [List.length_zipWith, List.length_zip]
      have hcl : ((List.range' (hlcTargetIdx lib cfg lane orig curVel - 5) 11).filterMap
          (fun i => lane[i]?)).length = 11 := hpts ▸ hc11
      simp only [List.length_zipWith, List.length_map, List.length_tail, hcl, hilen]
      omega
    refine ⟨h5, h6, getHLCCore lib cfg lane cfg.targetLaneInfo orig rot curVel, ?_,
      hc11, hnodes⟩
    unfold getHighLevelCommand
    rw [hset]
    simp only [hc11, if_true]
  · intro hlen
    have hc : (getHLCCore lib cfg lane cfg.targetLaneInfo orig rot curVel).pts.length
        ≠ 11 := by
      rw [hptsLen, List.length_take, List.length_drop]
      omega
    unfold getHighLevelCommand
    rw [hset]
    simp only [hc, if_false]

/-- Witness for C4 at the concrete 11-point lane. -/
theorem claim_C4_witness :
    (cfgW.targetLane = some laneW ∧ cfgW.targetLaneInfo.length = laneW.length) ∧
    ((11 ≤ laneW.length →
      5 ≤ hlcTargetIdx libW cfgW laneW (0, 0) 0 ∧
      hlcTargetIdx libW cfgW laneW (0, 0) 0 ≤ laneW.length - 6 ∧
      ∃ r, getHighLevelCommand libW cfgW (0, 0) ⟨1, 0, 0, 1⟩ 0 = .ok r ∧
        r.pts.length = 11 ∧ r.nodes.length = 10) ∧
    (laneW.length < 11 →
      getHighLevelCommand libW cfgW (0, 0) ⟨1, 0, 0, 1⟩ 0 = .error hlcAssertMsg)) :=
  ⟨⟨rfl, by with_unfolding_all rfl⟩,
   claim_C4_window libW cfgW laneW rfl (by with_unfolding_all rfl) (0, 0) ⟨1, 0, 0, 1⟩ 0⟩

theorem fqAdd_none_right (x : FloatQ) : fqAdd x none = none := by
  cases x <;> rfl

theorem fqSub_none_right (x : FloatQ) : fqSub x none = none := by
  cases x <;> rfl

theorem fqLift2_none_right (f : Rat → Rat → Rat) (x : FloatQ) :
    fqLift2 f x none = none := by
  cases x <;> rfl

theorem foldl_fqAdd_none_acc : ∀ l : List FloatQ, l.foldl fqAdd none = none := by
  intro l
  induction l with
  | nil => rfl
  | cons x xs ih =>
    show xs.foldl fqAdd (fqAdd none x) = none
    exact ih

theorem foldl_fqAdd_of_none_mem :
    ∀ (l : List FloatQ) (a : FloatQ), none ∈ l → l.foldl fqAdd a = none := by
  intro l
  induction l with
  | nil => intro a h; simp at h
  | cons x xs ih =>
    intro a h
    rcases List.mem_cons.mp h with h1 | h1
    · show xs.foldl fqAdd (fqAdd a x) = none
      rw [← h1, fqAdd_none_right]
      exact foldl_fqAdd_none_acc xs
    · exact ih (fqAdd a x) h1

theorem topoSig_none_of_zero_vec (lib : NumLib) (hsqrt : lib.sqrtF 0 = 0)
    (ego exo : List Pt) (i : Nat)
    (hlen : 2 ≤ (List.zipWith psub exo ego).length)
    (hi : i < (List.zipWith psub exo ego).length)
    (hz : (List.zipWith psub exo ego).get ⟨i, hi⟩ = (0, 0)) :
    topoSig lib ego exo = none := by
  have key : ∀ (vec : List Pt), 2 ≤ vec.length → ∀ (j : Nat) (hj : j < vec.length),
      vec.get ⟨j, hj⟩ = (0, 0) →
      ((List.zipWith fqSub
          ((vec.map (fun v => (fqDiv (some v.1) (some (pnorm lib v)),
            fqDiv (some v.2) (some (pnorm lib v))))).map
              (fun u => fqLift2 lib.atan2F u.2 u.1)).tail
          ((vec.map (fun v => (fqDiv (some v.1) (some (pnorm lib v)),
            fqDiv (some v.2) (some (pnorm lib v))))).map
              (fun u => fqLift2 lib.atan2F u.2 u.1))).map (wrapAng lib)).foldl
        fqAdd (some 0) = none := by
    intro vec h2 j hj hzj
    have hpn : pnorm lib ((0 : Rat), (0 : Rat)) = 0 := by
      unfold pnorm normSq
      rw [show ((0 : Rat) * 0 + 0 * 0) = 0 by norm_num]
      exact hsqrt
    have hvj : vec[j]? = some ((0 : Rat), (0 : Rat)) := by
      rw [List.getElem?_eq_getElem hj]
      rw [List.get_eq_getElem] at hzj
      rw [hzj]
    generalize hangDef : (vec.map (fun v => (fqDiv (some v.1) (some (pnorm lib v)),
      fqDiv (some v.2) (some (pnorm lib v))))).map
        (fun u => fqLift2 lib.atan2F u.2 u.1) = ang
    have hangLen : ang.length = vec.length := by
      rw [← hangDef, List.length_map, List.length_map]
    have hangj : ang[j]? = some none := by
      rw [← hangDef, List.getElem?_map, List.getElem?_map, hvj]
      show some (fqLift2 lib.atan2F (fqDiv (some 0) (some (pnorm lib (0, 0))))
        (fqDiv (some 0) (some (pnorm lib (0, 0))))) = some none
      rw [hpn]
      simp [fqDiv, fqLift2]
    have hmem : (none : FloatQ) ∈ List.zipWith fqSub ang.tail ang := by
      by_cases hc : j + 1 < ang.length
      · apply List.getElem?_mem (n := j)
        rw [List.getElem?_zipWith, List.getElem?_tail, hangj,
          List.getElem?_eq_getElem (by omega : j + 1 < ang.length)]
        exact congrArg some (fqSub_none_right _)
      · apply List.getElem?_mem (n := j - 1)
        rw [List.getElem?_zipWith, List.getElem?_tail, show j - 1 + 1 = j by omega,
          hangj, List.getElem?_eq_getElem (by omega : j - 1 < ang.length)]
        rfl
    apply foldl_fqAdd_of_none_mem
    exact List.mem_map.mpr ⟨none, hmem, rfl⟩
  exact key (List.zipWith psub exo ego) hlen i hi hz

/-- Counterexample to C8 as stated: the normalisation divisions in the
topology-signature computation of prune_merge and the anchor-direction
computation of get_high_level_command carry no minimum-norm floor. With
the ego and an agent coincident at the first predicted step the
topology signature is non-finite (NaN, modelled none), with a window
whose start and end coincide the anchor direction is non-finite, and a
non-finite signature difference compares false in the merge test. -/
theorem claim_C8_counterexample :
    topoSig libW [(0, 0), (0, 0)] [(0, 0), (1, 0)] = none ∧
    anchVecOf libW [(0, 0), (1, 0), (0, 0)] = (none, none) ∧
    topoFar libW minTopoChange (topoSig libW [(0, 0), (0, 0)] [(0, 0), (1, 0)])
      (some 0) = false := by
  with_unfolding_all decide

/-- C8 amended: the divisions are not guarded. Whenever the ego-to-agent
difference vector is zero at some step of a trajectory at least two
steps long (and the square root kernel sends 0 to 0, as the float sqrt
does), the topology signature of prune_merge is non-finite; whenever
the local window's start and end coincide, the anchor direction of
get_high_level_command is non-finite; and a non-finite signature never
counts as topologically distant in the merge comparison (NaN
comparisons are false). -/
theorem claim_C8_amended (lib : NumLib) (hsqrt : lib.sqrtF 0 = 0)
    (ego exo : List Pt) (i : Nat)
    (hlen : 2 ≤ (List.zipWith psub exo ego).length)
    (hi : i < (List.zipWith psub exo ego).length)
    (hz : (List.zipWith psub exo ego).get ⟨i, hi⟩ = (0, 0)) :
    topoSig lib ego exo = none ∧
    (∀ ctrln : List Pt, ctrln.getLast?.getD (0, 0) = ctrln.headI →
      anchVecOf lib ctrln = (none, none)) ∧
    (∀ (thr : Rat) (y : FloatQ), topoFar lib thr none y = false) := by
  refine ⟨topoSig_none_of_zero_vec lib hsqrt ego exo i hlen hi hz, ?_, ?_⟩
  · intro ctrln hdeg
    unfold anchVecOf
    rw [hdeg]
    have hz2 : psub ctrln.headI ctrln.headI = ((0 : Rat), (0 : Rat)) := by
      unfold psub
      norm_num
    rw [hz2]
    have hpn : pnorm lib ((0 : Rat), (0 : Rat)) = 0 := by
      unfold pnorm normSq
      rw [show ((0 : Rat) * 0 + 0 * 0) = 0 by norm_num]
      exact hsqrt
    simp [hpn]
    exact hpn
  · intro thr y
    unfold topoFar
    rw [show fqSub none y = none from rfl]
    rfl

/-- Witness for the amended C8 at the concrete coincident input. -/
theorem claim_C8_amended_witness :
    libW.sqrtF 0 = 0 ∧
    (topoSig libW [(0, 0), (0, 0)] [(0, 0), (1, 0)] = none ∧
     (∀ ctrln : List Pt, ctrln.getLast?.getD (0, 0) = ctrln.headI →
       anchVecOf libW ctrln = (none, none)) ∧
     (∀ (thr : Rat) (y : FloatQ), topoFar libW thr none y = false)) :=
  ⟨rfl, claim_C8_amended libW rfl [(0, 0), (0, 0)] [(0, 0), (1, 0)] 0
    (by with_unfolding_all decide) (by with_unfolding_all decide)
    (by with_unfolding_all decide)⟩

/-- Counterexample to C1 as stated: with max_depth = 3 there is an
oracle output sequence - one with rounds in which a branch-ready leaf
yields no surviving children - for which the while loop of branch_aime
is still not finished after 3 branching rounds. A fruitlessly expanded
leaf is first-touch terminated, but the next decide_branch pass
re-flags it (terminate_flag is never consulted), and two such leaves
keep the loop alive indefinitely. -/
theorem claim_C1_counterexample :
    (runLoop netCE libCE cfgW 3
      (initState netCE libCE cfgW (prepareRootData libCE cfgW rawW2))).branchSet ≠ [] := by
  with_unfolding_all decide

/- ===================== THEOREMS: tree operations ===================== -/

theorem Tree.getNode?_mem {α : Type} {t : Tree α} {k : String} {n : TNode α}
    (h : t.getNode? k = some n) : n ∈ t.nodes ∧ n.key = k := by
  unfold Tree.getNode? at h
  refine ⟨List.mem_of_find?_eq_some h, ?_⟩
  have := List.find?_some h
  simpa using this

theorem Tree.mem_keys_of_mem {α : Type} {t : Tree α} {n : TNode α} (h : n ∈ t.nodes) :
    n.key ∈ t.keys := List.mem_map.mpr ⟨n, h, rfl⟩

theorem Tree.getNode?_eq_none_iff {α : Type} {t : Tree α} {k : String} :
    t.getNode? k = none ↔ k ∉ t.keys := by
  unfold Tree.getNode? Tree.keys
  rw [List.find?_eq_none]
  simp only [List.mem_map, beq_iff_eq]
  constructor
  · rintro h ⟨n, hn, hk⟩
    exact h n hn hk
  · intro h n hn hk
    exact h ⟨n, hn, hk⟩

theorem find?_key_of_mem_nodup {α : Type} :
    ∀ (l : List (TNode α)) (n : TNode α), (l.map (·.key)).Nodup → n ∈ l →
      l.find? (fun x => x.key == n.key) = some n := by
  intro l
  induction l with
  | nil => intro n _ h; simp at h
  | cons x xs ih =>
    intro n hnd h
    rw [List.map_cons, List.nodup_cons] at hnd
    rcases List.mem_cons.mp h with h1 | h1
    · subst h1
      simp
    · have hx : ¬(x.key == n.key) = true := by
        simp only [beq_iff_eq]
        intro hEq
        exact hnd.1 (hEq ▸ List.mem_map.mpr ⟨n, h1, rfl⟩)
      rw [@List.find?_cons_of_neg _ (fun x => x.key == n.key) x xs hx]
      exact ih n hnd.2 h1

theorem Tree.getNode?_of_mem_nodup {α : Type} {t : Tree α} {n : TNode α}
    (hnd : t.keys.Nodup) (h : n ∈ t.nodes) : t.getNode? n.key = some n :=
  find?_key_of_mem_nodup t.nodes n hnd h

theorem bumpChild_key {α : Type} (pk key : String) (n : TNode α) :
    (bumpChild pk key n).key = n.key := by
  unfold bumpChild
  split <;> rfl

theorem bumpChild_payload {α : Type} (pk key : String) (n : TNode α) :
    (bumpChild pk key n).payload = n.payload := by
  unfold bumpChild
  split <;> rfl

theorem bumpChild_depth {α : Type} (pk key : String) (n : TNode α) :
    (bumpChild pk key n).depth = n.depth := by
  unfold bumpChild
  split <;> rfl

theorem bumpChild_parentKey {α : Type} (pk key : String) (n : TNode α) :
    (bumpChild pk key n).parentKey = n.parentKey := by
  unfold bumpChild
  split <;> rfl

theorem bumpChild_children {α : Type} (pk key : String) (n : TNode α) :
    ∃ ext, (bumpChild pk key n).childrenKeys = n.childrenKeys ++ ext := by
  unfold bumpChild
  split
  · exact ⟨[key], rfl⟩
  · exact ⟨[], by simp⟩

theorem Tree.addNode_stale {α : Type} {t : Tree α} {k : String} {pk : Option String}
    {payload : α} (h : (t.getNode? k).isSome) : t.addNode k pk payload = t := by
  unfold Tree.addNode
  rw [if_pos h]

theorem Tree.addNode_nodes_some {α : Type} {t : Tree α} {k pk : String} {payload : α}
    (h : t.getNode? k = none) :
    (t.addNode k (some pk) payload).nodes =
      t.nodes.map (bumpChild pk k) ++
        [⟨k, some pk, [],
          (match t.getNode? pk with | some p => p.depth + 1 | none => 0), payload⟩] := by
  unfold Tree.addNode
  rw [h]
  rfl

theorem Tree.keys_addNode_some {α : Type} {t : Tree α} {k pk : String} {payload : α}
    (h : t.getNode? k = none) :
    (t.addNode k (some pk) payload).keys = t.keys ++ [k] := by
  unfold Tree.keys
  rw [Tree.addNode_nodes_some h, List.map_append, List.map_map]
  congr 1
  apply List.map_congr_left
  intro n _
  exact bumpChild_key pk k n

theorem Tree.getNode?_addNode_some_ne {α : Type} {t : Tree α} {k pk k' : String}
    {payload : α} (h : t.getNode? k = none) (hne : k' ≠ k) :
    (t.addNode k (some pk) payload).getNode? k' =
      (t.getNode? k').map (bumpChild pk k) := by
  unfold Tree.getNode?
  rw [show (t.addNode k (some pk) payload).nodes =
    t.nodes.map (bumpChild pk k) ++ [⟨k, some pk, [],
      (match t.getNode? pk with | some p => p.depth + 1 | none => 0), payload⟩]
    from Tree.addNode_nodes_some h]
  rw [List.find?_append, List.find?_map]
  have hp : ((fun n : TNode α => n.key == k') ∘ bumpChild pk k) =
      (fun n : TNode α => n.key == k') := by
    funext n
    simp [Function.comp, bumpChild_key]
  rw [hp]
  have hsingle : (List.find? (fun n : TNode α => n.key == k')
      [⟨k, some pk, [],
        (match t.getNode? pk with | some p => p.depth + 1 | none => 0), payload⟩]) = none := by
    rw [List.find?_eq_none]
    intro x hx
    simp at hx
    subst hx
    simpa using fun hEq => hne hEq.symm
  rw [hsingle]
  cases t.nodes.find? (fun n : TNode α => n.key == k') <;> rfl

theorem Tree.getNode?_addNode_some_self {α : Type} {t : Tree α} {k pk : String}
    {payload : α} (h : t.getNode? k = none) :
    (t.addNode k (some pk) payload).getNode? k =
      some ⟨k, some pk, [],
        (match t.getNode? pk with | some p => p.depth + 1 | none => 0), payload⟩ := by
  unfold Tree.getNode?
  rw [show (t.addNode k (some pk) payload).nodes =
    t.nodes.map (bumpChild pk k) ++ [⟨k, some pk, [],
      (match t.getNode? pk with | some p => p.depth + 1 | none => 0), payload⟩]
    from Tree.addNode_nodes_some h]
  rw [List.find?_append, List.find?_map]
  have hp : ((fun n : TNode α => n.key == k) ∘ bumpChild pk k) =
      (fun n : TNode α => n.key == k) := by
    funext n
    simp [Function.comp, bumpChild_key]
  rw [hp]
  rw [Tree.getNode?_eq_none_iff] at h
  have hnone : t.nodes.find? (fun n : TNode α => n.key == k) = none := by
    rw [List.find?_eq_none]
    intro x hx
    simp only [beq_iff_eq]
    intro hEq
    exact h (hEq ▸ Tree.mem_keys_of_mem hx)
  rw [hnone]
  rw [List.find?_cons_of_pos _ (by simp)]
  rfl

theorem Tree.nodup_addNode {α : Type} {t : Tree α} {k : String} {pk : Option String}
    {payload : α} (hnd : t.keys.Nodup) : (t.addNode k pk payload).keys.Nodup := by
  by_cases h : (t.getNode? k).isSome
  · rw [Tree.addNode_stale h]
    exact hnd
  · have hfresh : t.getNode? k = none := by
      cases hEq : t.getNode? k with
      | none => rfl
      | some v => rw [hEq] at h; simp at h
    have hk : k ∉ t.keys := Tree.getNode?_eq_none_iff.mp hfresh
    cases pk with
    | none =>
      have : (t.addNode k none payload).keys = t.keys ++ [k] := by
        unfold Tree.addNode Tree.keys
        rw [hfresh]
        simp
      rw [this]
      simpa [List.nodup_append] using ⟨hnd, hk⟩
    | some pk =>
      rw [Tree.keys_addNode_some hfresh]
      simpa [List.nodup_append] using ⟨hnd, hk⟩

theorem Tree.keys_decideBranch (lib : NumLib) (cfg : Config) (t : Tree ScenarioData) :
    (decideBranch lib cfg t).keys = t.keys := by
  unfold decideBranch Tree.keys
  simp only [List.map_map]
  apply List.map_congr_left
  intro n _
  by_cases h : n.childrenKeys.isEmpty = true <;> simp [Function.comp, h]

theorem decideBranch_mem {lib : NumLib} {cfg : Config} {t : Tree ScenarioData}
    {n : TNode ScenarioData} (h : n ∈ (decideBranch lib cfg t).nodes) :
    ∃ m ∈ t.nodes, n = (if m.childrenKeys.isEmpty then
      { m with payload := decideOne lib cfg m.depth m.payload } else m) := by
  unfold decideBranch at h
  obtain ⟨m, hm, hEq⟩ := List.mem_map.mp h
  exact ⟨m, hm, hEq.symm⟩

theorem createNodes_cons (t : Tree ScenarioData) (c : ScenData) (cs : List ScenData) :
    createNodes t (c :: cs) =
      createNodes (t.addNode c.scenId c.parentId ⟨some c, none, false, false, false⟩) cs :=
  rfl

theorem Tree.getNode?_isSome_of_mem_keys {α : Type} {t : Tree α} {k : String}
    (h : k ∈ t.keys) : ∃ n, t.getNode? k = some n := by
  cases hEq : t.getNode? k with
  | none => exact absurd h (Tree.getNode?_eq_none_iff.mp hEq)
  | some n => exact ⟨n, rfl⟩

theorem createNodes_master :
    ∀ (children : List ScenData) (t : Tree ScenarioData) (bd : Nat),
      t.keys.Nodup →
      (∀ c ∈ children, ∃ pk, c.parentId = some pk ∧
        ∃ m, t.getNode? pk = some m ∧ m.depth = bd) →
      (createNodes t children).keys.Nodup ∧
      (∀ k, k ∈ t.keys → ∀ n, t.getNode? k = some n →
        ∃ m ext, (createNodes t children).getNode? k = some m ∧
          m.payload = n.payload ∧ m.depth = n.depth ∧ m.parentKey = n.parentKey ∧
          m.childrenKeys = n.childrenKeys ++ ext) ∧
      (∀ n ∈ (createNodes t children).nodes, n.key ∉ t.keys →
        ∃ pred, pred ∈ children ∧ n.key = pred.scenId ∧
          n.payload = ⟨some pred, none, false, false, false⟩ ∧ n.depth = bd + 1) := by
  intro children
  induction children with
  | nil =>
    intro t bd hnd hpar
    refine ⟨hnd, ?_, ?_⟩
    · intro k hk n hn
      exact ⟨n, [], hn, rfl, rfl, rfl, by simp⟩
    · intro n hmem hnot
      exact absurd (Tree.mem_keys_of_mem hmem) hnot
  | cons c cs ih =>
    intro t bd hnd hpar
    obtain ⟨pk, hpid, m, hm, hdep⟩ := hpar c (List.mem_cons_self c cs)
    rw [createNodes_cons]
    by_cases hstale : (t.getNode? c.scenId).isSome
    · rw [Tree.addNode_stale hstale]
      obtain ⟨h1, h2, h3⟩ := ih t bd hnd
        (fun c' hc' => hpar c' (List.mem_cons_of_mem c hc'))
      refine ⟨h1, h2, ?_⟩
      intro n hmem hnot
      obtain ⟨pred, hpc, hrest⟩ := h3 n hmem hnot
      exact ⟨pred, List.mem_cons_of_mem c hpc, hrest⟩
    · have hfresh : t.getNode? c.scenId = none := by
        cases hEq : t.getNode? c.scenId with
        | none => rfl
        | some v => rw [hEq] at hstale; simp at hstale
      have hknotin : c.scenId ∉ t.keys := Tree.getNode?_eq_none_iff.mp hfresh
      rw [hpid]
      have hkeys' : (t.addNode c.scenId (some pk)
          ⟨some c, none, false, false, false⟩).keys = t.keys ++ [c.scenId] :=
        Tree.keys_addNode_some hfresh
      have hnd' : (t.addNode c.scenId (some pk)
          ⟨some c, none, false, false, false⟩).keys.Nodup := Tree.nodup_addNode hnd
      have hpar' : ∀ c' ∈ cs, ∃ pk', c'.parentId = some pk' ∧
          ∃ m', (t.addNode c.scenId (some pk)
            ⟨some c, none, false, false, false⟩).getNode? pk' = some m' ∧
            m'.depth = bd := by
        intro c' hc'
        obtain ⟨pk', hpid', m', hm', hdep'⟩ := hpar c' (List.mem_cons_of_mem c hc')
        have hpkmem : pk' ∈ t.keys := by
          have hx := Tree.getNode?_mem hm'
          exact hx.2 ▸ Tree.mem_keys_of_mem hx.1
        have hne : pk' ≠ c.scenId := fun hEq => hknotin (hEq ▸ hpkmem)
        refine ⟨pk', hpid', bumpChild pk c.scenId m', ?_, ?_⟩
        · rw [Tree.getNode?_addNode_some_ne hfresh hne, hm']
          rfl
        · rw [bumpChild_depth]
          exact hdep'
      obtain ⟨h1, h2, h3⟩ := ih (t.addNode c.scenId (some pk)
        ⟨some c, none, false, false, false⟩) bd hnd' hpar'
      refine ⟨h1, ?_, ?_⟩
      · intro k hk n hn
        have hne : k ≠ c.scenId := fun hEq => hknotin (hEq ▸ hk)
        have hget' : (t.addNode c.scenId (some pk)
            ⟨some c, none, false, false, false⟩).getNode? k =
            some (bumpChild pk c.scenId n) := by
          rw [Tree.getNode?_addNode_some_ne hfresh hne, hn]
          rfl
        obtain ⟨mm, ext, hmm, hpl, hdp, hpar2, hch⟩ := h2 k
          (hkeys' ▸ List.mem_append_left _ hk) (bumpChild pk c.scenId n) hget'
        obtain ⟨ext0, hext0⟩ := bumpChild_children pk c.scenId n
        refine ⟨mm, ext0 ++ ext, hmm, ?_, ?_, ?_, ?_⟩
        · rw [hpl, bumpChild_payload]
        · rw [hdp, bumpChild_depth]
        · rw [hpar2, bumpChild_parentKey]
        · rw [hch, hext0, List.append_assoc]
      · intro n hmem hnot
        by_cases hkey : n.key = c.scenId
        · have hself := @Tree.getNode?_addNode_some_self ScenarioData t c.scenId pk
            ⟨some c, none, false, false, false⟩ hfresh
          obtain ⟨mm, ext, hmm, hpl, hdp, hpar2, hch⟩ := h2 c.scenId
            (hkeys' ▸ List.mem_append_right _ (by simp)) _ hself
          have hnn : (createNodes (t.addNode c.scenId (some pk)
              ⟨some c, none, false, false, false⟩) cs).getNode? n.key = some n :=
            Tree.getNode?_of_mem_nodup h1 hmem
          rw [hkey] at hnn
          rw [hnn] at hmm
          cases hmm
          refine ⟨c, List.mem_cons_self c cs, hkey, hpl, ?_⟩
          rw [hdp, hm, ← hdep]
        · have : n.key ∉ (t.addNode c.scenId (some pk)
              ⟨some c, none, false, false, false⟩).keys := by
            rw [hkeys']
            intro hmem2
            rcases List.mem_append.mp hmem2 with hx | hx
            · exact hnot hx
            · simp at hx
              exact hkey hx
          obtain ⟨pred, hpc, hrest⟩ := h3 n hmem this
          exact ⟨pred, List.mem_cons_of_mem c hpc, hrest⟩

theorem mergeLoop_fixed {α : Type} (lib : NumLib) (thr : Rat) (l : List (Cand α))
    (h : l.Pairwise (fun a b => keepAgainst lib thr a b = true)) :
    mergeLoop lib thr l = l := by
  induction l with
  | nil => rw [mergeLoop]
  | cons c rest ih =>
    obtain ⟨hc, hrest⟩ := List.pairwise_cons.mp h
    rw [mergeLoop, mergeLoop_of_all_keep lib thr c rest hc, ih hrest]

/-- C9: the greedy merge step of prune_merge is idempotent: for every
list of candidates that is the output of one run of the merge loop (with
the same topology threshold, pi/6 in the code), running the merge loop
again returns exactly the same candidates in the same order, with none
discarded. -/
theorem claim_C9_merge_idempotent {α : Type} (lib : NumLib) (thr : Rat)
    (cands : List (Cand α)) :
    mergeLoop lib thr (mergeLoop lib thr cands) = mergeLoop lib thr cands :=
  mergeLoop_fixed lib thr _ (mergeLoop_pairwise lib thr cands)

/- ===================== THEOREMS: round structure ===================== -/

theorem getBranchTime_scenId (cfg : Config) (d : ScenData) :
    (getBranchTime cfg d).2.scenId = d.scenId := by
  unfold getBranchTime
  cases h : branchScan cfg d.covHist (compareIdx cfg d.curT)
      (List.range' (d.curT + 1) (d.endT - (d.curT + 1))) with
  | none => simp [h]
  | some t => simp [h]

theorem updateObser_obs_scenId (lib : NumLib) (cfg : Config) (d : ScenData) :
    (updateObser lib cfg d).1.scenId = d.scenId := rfl

theorem updateObser_data_scenId (lib : NumLib) (cfg : Config) (d : ScenData) :
    (updateObser lib cfg d).2.scenId = d.scenId := rfl

theorem mergeLoop_sublist {α : Type} (lib : NumLib) (thr : Rat) (l : List (Cand α)) :
    (mergeLoop lib thr l).Sublist l := by
  induction l using mergeLoop.induct lib thr with
  | case1 => simp [mergeLoop]
  | case2 c rest ih =>
    rw [mergeLoop]
    exact (ih.trans (List.filter_sublist _)).cons₂ c

theorem mem_pruneMergeOne {lib : NumLib} {cfg : Config} {bd idx : Nat}
    {obs : ScenData} {net : NetOut} {c : ScenData}
    (h : c ∈ pruneMergeOne lib cfg bd idx obs net) :
    c.parentId = some obs.scenId ∧ ∃ s, c.scenId = mkKey bd idx s := by
  unfold pruneMergeOne at h
  obtain ⟨cand, hcand, hEq⟩ := List.mem_map.mp h
  have hsub : cand ∈ (argsortDesc net.cls).map (buildCandidate lib cfg bd idx obs net) :=
    List.mem_of_mem_filter (mergeLoop_subset lib minTopoChange _ hcand)
  obtain ⟨sid, hsid, hbc⟩ := List.mem_map.mp hsub
  subst hEq
  subst hbc
  exact ⟨rfl, sid, rfl⟩

theorem mem_pruneMerge {lib : NumLib} {cfg : Config} {bd : Nat}
    {batch : List ScenData} {outs : List NetOut} {c : ScenData}
    (h : c ∈ pruneMerge lib cfg bd batch outs) :
    ∃ idx obs, (idx, obs) ∈ batch.enum ∧
      c.parentId = some obs.scenId ∧ ∃ s, c.scenId = mkKey bd idx s := by
  unfold pruneMerge at h
  obtain ⟨p, hp, hc⟩ := List.mem_flatMap.mp h
  obtain ⟨hpid, s, hsid⟩ := mem_pruneMergeOne hc
  exact ⟨p.1, p.2, hp, hpid, s, hsid⟩

theorem mem_batchOf {st : GenState} {obs : ScenData} (h : obs ∈ batchOf st) :
    ∃ k ∈ st.branchSet, ∃ n, st.tree.getNode? k = some n ∧
      n.payload.obsData = some obs := by
  unfold batchOf at h
  obtain ⟨k, hk, hbind⟩ := List.mem_filterMap.mp h
  cases hn : st.tree.getNode? k with
  | none => rw [hn] at hbind; simp at hbind
  | some n =>
    rw [hn] at hbind
    exact ⟨k, hk, n, hn, hbind⟩

theorem initState_eq (net : Oracle) (lib : NumLib) (cfg : Config) (rootData : ScenData) :
    initState net lib cfg rootData = roundStep net lib cfg (initPre rootData) := by
  with_unfolding_all rfl

theorem mem_insertDesc (v : List Rat) (i : Nat) (j : Nat) : ∀ (acc : List Nat),
    j ∈ insertDesc v i acc ↔ j = i ∨ j ∈ acc := by
  intro acc
  induction acc with
  | nil => simp [insertDesc]
  | cons a as ih =>
    rw [insertDesc]
    split_ifs with h
    · simp
    · simp only [List.mem_cons, ih]
      tauto

theorem nodup_insertDesc (v : List Rat) (i : Nat) : ∀ (acc : List Nat),
    i ∉ acc → acc.Nodup → (insertDesc v i acc).Nodup := by
  intro acc
  induction acc with
  | nil => intro _ _; simp [insertDesc]
  | cons a as ih =>
    intro hi h
    rw [insertDesc]
    split_ifs with hlt
    · exact List.nodup_cons.mpr ⟨hi, h⟩
    · obtain ⟨ha, has⟩ := List.nodup_cons.mp h
      refine List.nodup_cons.mpr ⟨?_, ih (fun hmem => hi (List.mem_cons_of_mem a hmem)) has⟩
      intro hmem
      rcases (mem_insertDesc v i a as).mp hmem with hEq | hmem'
      · exact hi (hEq ▸ List.mem_cons_self a as)
      · exact ha hmem'

theorem foldl_insertDesc_nodup (v : List Rat) :
    ∀ (l acc : List Nat), acc.Nodup → (∀ j ∈ l, j ∉ acc) → l.Nodup →
      (l.foldl (fun a i => insertDesc v i a) acc).Nodup := by
  intro l
  induction l with
  | nil => intro acc h _ _; simpa using h
  | cons i is ih =>
    intro acc hacc hdis hnd
    rw [List.foldl_cons]
    obtain ⟨hhd, htl⟩ := List.nodup_cons.mp hnd
    apply ih
    · exact nodup_insertDesc v i acc (hdis i (List.mem_cons_self i is)) hacc
    · intro j hj hmem
      rcases (mem_insertDesc v i j acc).mp hmem with rfl | hmem'
      · exact hhd hj
      · exact hdis j (List.mem_cons_of_mem i hj) hmem'
    · exact htl

theorem argsortDesc_nodup (v : List Rat) : (argsortDesc v).Nodup := by
  unfold argsortDesc
  exact foldl_insertDesc_nodup v (List.range v.length) [] List.nodup_nil
    (by simp) (List.nodup_range _)

theorem pruneMergeOne_keys_nodup (lib : NumLib) (cfg : Config) (bd idx : Nat)
    (obs : ScenData) (net : NetOut) :
    ((pruneMergeOne lib cfg bd idx obs net).map (·.scenId)).Nodup := by
  have hsub : (mergeLoop lib minTopoChange
      (((argsortDesc net.cls).map (buildCandidate lib cfg bd idx obs net)).filter
        (candKept lib cfg))).Sublist
      ((argsortDesc net.cls).map (buildCandidate lib cfg bd idx obs net)) :=
    (mergeLoop_sublist lib minTopoChange _).trans (List.filter_sublist _)
  have hmapsub := hsub.map (fun c => c.data.scenId)
  have hcomp : ((argsortDesc net.cls).map (buildCandidate lib cfg bd idx obs net)).map
      (fun c => c.data.scenId) = (argsortDesc net.cls).map (fun sid => mkKey bd idx sid) := by
    rw [List.map_map]
    rfl
  rw [hcomp] at hmapsub
  have hnd : ((argsortDesc net.cls).map (fun sid => mkKey bd idx sid)).Nodup :=
    (argsortDesc_nodup net.cls).map (fun a b hEq => (mkKey_inj hEq).2.2)
  have hgoal : (pruneMergeOne lib cfg bd idx obs net).map (·.scenId) =
      (mergeLoop lib minTopoChange
        (((argsortDesc net.cls).map (buildCandidate lib cfg bd idx obs net)).filter
          (candKept lib cfg))).map (fun c => c.data.scenId) := by
    simp only [pruneMergeOne, List.map_map]
    rfl
  rw [hgoal]
  exact hnd.sublist hmapsub

theorem flatMap_keys_nodup (lib : NumLib) (cfg : Config) (bd : Nat) (outs : List NetOut) :
    ∀ (ps : List (Nat × ScenData)), (ps.map Prod.fst).Nodup →
      ((ps.flatMap (fun p => pruneMergeOne lib cfg bd p.1 p.2 (outs.getD p.1 netOutNil))).map
        (·.scenId)).Nodup := by
  intro ps
  induction ps with
  | nil => intro _; simp
  | cons p ps ih =>
    intro hnd
    rw [List.map_cons] at hnd
    obtain ⟨hhd, htl⟩ := List.nodup_cons.mp hnd
    rw [List.flatMap_cons, List.map_append]
    refine List.nodup_append.mpr
      ⟨pruneMergeOne_keys_nodup lib cfg bd p.1 p.2 (outs.getD p.1 netOutNil), ih htl, ?_⟩
    intro a ha hb
    obtain ⟨c, hc, hac⟩ := List.mem_map.mp ha
    obtain ⟨c', hc', hac'⟩ := List.mem_map.mp hb
    obtain ⟨q, hq, hcq⟩ := List.mem_flatMap.mp hc'
    obtain ⟨_, s, hs⟩ := mem_pruneMergeOne hc
    obtain ⟨_, s', hs'⟩ := mem_pruneMergeOne hcq
    have hkeq : mkKey bd p.1 s = mkKey bd q.1 s' :=
      hs.symm.trans (hac.trans hac'.symm) |>.trans hs'
    have hfst := (mkKey_inj hkeq).2.1
    exact hhd (hfst ▸ List.mem_map_of_mem Prod.fst hq)

theorem pruneMerge_keys_nodup (lib : NumLib) (cfg : Config) (bd : Nat)
    (batch : List ScenData) (outs : List NetOut) :
    ((pruneMerge lib cfg bd batch outs).map (·.scenId)).Nodup := by
  unfold pruneMerge
  refine flatMap_keys_nodup lib cfg bd outs batch.enum ?_
  rw [List.enum_map_fst]
  exact List.nodup_range _

theorem createNodes_keys_fresh :
    ∀ (preds : List ScenData) (t : Tree ScenarioData),
      (∀ c ∈ preds, c.scenId ∉ t.keys ∧ ∃ pk, c.parentId = some pk) →
      (preds.map (·.scenId)).Nodup →
      (createNodes t preds).keys = t.keys ++ preds.map (·.scenId) := by
  intro preds
  induction preds with
  | nil => intro t _ _; simp [createNodes]
  | cons c cs ih =>
    intro t h hnd
    obtain ⟨hfreshk, pk, hpk⟩ := h c (List.mem_cons_self c cs)
    have hfresh : t.getNode? c.scenId = none := Tree.getNode?_eq_none_iff.mpr hfreshk
    rw [List.map_cons] at hnd
    obtain ⟨hhd, htl⟩ := List.nodup_cons.mp hnd
    have h2 : ∀ c' ∈ cs, c'.scenId ∉ (t.addNode c.scenId (some pk)
        ⟨some c, none, false, false, false⟩).keys ∧ ∃ pk', c'.parentId = some pk' := by
      intro c' hc'
      obtain ⟨hf', hp'⟩ := h c' (List.mem_cons_of_mem c hc')
      refine ⟨?_, hp'⟩
      rw [Tree.keys_addNode_some hfresh]
      intro hmem
      rcases List.mem_append.mp hmem with hx | hx
      · exact hf' hx
      · simp at hx
        exact hhd (hx ▸ List.mem_map_of_mem (·.scenId) hc')
    rw [createNodes_cons, hpk,
      ih (t.addNode c.scenId (some pk) ⟨some c, none, false, false, false⟩) h2 htl,
      Tree.keys_addNode_some hfresh, List.append_assoc]
    rfl

theorem roundChildren_keys (net : Oracle) (lib : NumLib) (cfg : Config) (st : GenState)
    (hshape : KeyShape st) :
    ((roundChildren net lib cfg st).map (·.scenId)).Nodup ∧
    (∀ c ∈ roundChildren net lib cfg st, c.scenId ∉ st.tree.keys) ∧
    (createNodes st.tree (roundChildren net lib cfg st)).keys =
      st.tree.keys ++ (roundChildren net lib cfg st).map (·.scenId) := by
  have hnd : ((roundChildren net lib cfg st).map (·.scenId)).Nodup :=
    pruneMerge_keys_nodup lib cfg st.branchDepth (batchOf st) (net (batchOf st))
  have hfresh : ∀ c ∈ roundChildren net lib cfg st, c.scenId ∉ st.tree.keys := by
    intro c hc hmem
    obtain ⟨idx, obs, _, _, s, hsid⟩ := mem_pruneMerge hc
    rcases hshape c.scenId hmem with hr | ⟨d, i, s', hd, hk⟩
    · exact mkKey_ne_root st.branchDepth idx s (hsid.symm.trans hr)
    · obtain ⟨hdd, _, _⟩ := mkKey_inj (hsid.symm.trans hk)
      omega
  refine ⟨hnd, hfresh, createNodes_keys_fresh _ st.tree ?_ hnd⟩
  intro c hc
  obtain ⟨idx, obs, _, hpid, _⟩ := mem_pruneMerge hc
  exact ⟨hfresh c hc, obs.scenId, hpid⟩

theorem roundStep_tree (net : Oracle) (lib : NumLib) (cfg : Config) (st : GenState) :
    (roundStep net lib cfg st).tree =
      decideBranch lib cfg (createNodes st.tree (roundChildren net lib cfg st)) := rfl

theorem roundStep_branchDepth (net : Oracle) (lib : NumLib) (cfg : Config) (st : GenState) :
    (roundStep net lib cfg st).branchDepth = st.branchDepth + 1 := rfl

theorem roundStep_branchSet (net : Oracle) (lib : NumLib) (cfg : Config) (st : GenState) :
    (roundStep net lib cfg st).branchSet =
      branchLeafKeys (decideBranch lib cfg
        (createNodes st.tree (roundChildren net lib cfg st))) := rfl

theorem keyShape_roundStep (net : Oracle) (lib : NumLib) (cfg : Config) (st : GenState)
    (hshape : KeyShape st) : KeyShape (roundStep net lib cfg st) := by
  intro k hk
  rw [roundStep_tree, Tree.keys_decideBranch,
    (roundChildren_keys net lib cfg st hshape).2.2] at hk
  rw [roundStep_branchDepth]
  rcases List.mem_append.mp hk with hx | hx
  · rcases hshape k hx with hr | ⟨d, i, s, hd, hkk⟩
    · exact Or.inl hr
    · exact Or.inr ⟨d, i, s, Nat.lt_succ_of_lt hd, hkk⟩
  · obtain ⟨c, hc, hck⟩ := List.mem_map.mp hx
    obtain ⟨idx, obs, _, _, s, hsid⟩ := mem_pruneMerge hc
    exact Or.inr ⟨st.branchDepth, idx, s, Nat.lt_succ_self _, hck.symm.trans hsid⟩

theorem nodup_roundStep (net : Oracle) (lib : NumLib) (cfg : Config) (st : GenState)
    (hshape : KeyShape st) (hnd : st.tree.keys.Nodup) :
    (roundStep net lib cfg st).tree.keys.Nodup := by
  obtain ⟨hknd, hfresh, happ⟩ := roundChildren_keys net lib cfg st hshape
  rw [roundStep_tree, Tree.keys_decideBranch, happ]
  refine List.nodup_append.mpr ⟨hnd, hknd, ?_⟩
  intro a ha hb
  obtain ⟨c, hc, hck⟩ := List.mem_map.mp hb
  exact hfresh c hc (hck.symm ▸ ha)

theorem keysInv_runLoop (net : Oracle) (lib : NumLib) (cfg : Config) :
    ∀ (n : Nat) (st : GenState), KeyShape st → st.tree.keys.Nodup →
      KeyShape (runLoop net lib cfg n st) ∧
      (runLoop net lib cfg n st).tree.keys.Nodup := by
  intro n
  induction n with
  | zero => intro st hs hn; exact ⟨hs, hn⟩
  | succ n ih =>
    intro st hs hn
    rw [runLoop]
    by_cases hE : st.branchSet.isEmpty
    · rw [if_pos hE]; exact ⟨hs, hn⟩
    · rw [if_neg hE]
      exact ih (roundStep net lib cfg st) (keyShape_roundStep net lib cfg st hs)
        (nodup_roundStep net lib cfg st hs hn)

theorem keyShape_initPre (rootData : ScenData) : KeyShape (initPre rootData) := by
  intro k hk
  left
  simpa [initPre, Tree.addNode, Tree.empty, Tree.getNode?, Tree.keys] using hk

theorem nodup_initPre (rootData : ScenData) : (initPre rootData).tree.keys.Nodup := by
  simp [initPre, Tree.addNode, Tree.empty, Tree.getNode?, Tree.keys]

theorem decideOne_flagged (lib : NumLib) (cfg : Config) (depth : Nat) (p : ScenarioData)
    (h : p.branchFlag = true) :
    decideOne lib cfg depth p = { p with branchFlag := false, terminateFlag := true } := by
  simp [decideOne, h]

theorem decideOne_end (lib : NumLib) (cfg : Config) (depth : Nat) (p : ScenarioData)
    (h1 : p.branchFlag = false) (h2 : p.endFlag = true) :
    decideOne lib cfg depth p = p := by
  simp [decideOne, h1, h2]

theorem decideOne_depthCap (lib : NumLib) (cfg : Config) (depth : Nat) (p : ScenarioData)
    (h1 : p.branchFlag = false) (h2 : p.endFlag = false) (h3 : cfg.maxDepth ≤ depth) :
    decideOne lib cfg depth p = { p with terminateFlag := true } := by
  simp [decideOne, h1, h2, h3]

theorem decideOne_noData (lib : NumLib) (cfg : Config) (depth : Nat) (p : ScenarioData)
    (h1 : p.branchFlag = false) (h2 : p.endFlag = false) (h3 : ¬ cfg.maxDepth ≤ depth)
    (h4 : p.data = none) :
    decideOne lib cfg depth p = p := by
  simp [decideOne, h1, h2, h3, h4]

theorem decideOne_branch_eq (lib : NumLib) (cfg : Config) (depth : Nat) (p : ScenarioData)
    (d : ScenData) (h1 : p.branchFlag = false) (h2 : p.endFlag = false)
    (h3 : ¬ cfg.maxDepth ≤ depth) (h4 : p.data = some d)
    (h5 : (getBranchTime cfg d).1 < cfg.predLen) :
    decideOne lib cfg depth p =
      { p with
        data := some (updateObser lib cfg (getBranchTime cfg d).2).2
        obsData := some (updateObser lib cfg (getBranchTime cfg d).2).1
        branchFlag := true } := by
  simp [decideOne, h1, h2, h3, h4, h5]

theorem decideOne_endTime_eq (lib : NumLib) (cfg : Config) (depth : Nat) (p : ScenarioData)
    (d : ScenData) (h1 : p.branchFlag = false) (h2 : p.endFlag = false)
    (h3 : ¬ cfg.maxDepth ≤ depth) (h4 : p.data = some d)
    (h5 : ¬ (getBranchTime cfg d).1 < cfg.predLen) :
    decideOne lib cfg depth p =
      { p with data := some (getBranchTime cfg d).2, endFlag := true } := by
  simp [decideOne, h1, h2, h3, h4, h5]

theorem bool_not_true {b : Bool} (h : ¬ b = true) : b = false := by
  revert h
  cases b <;> simp

theorem decideOne_ids (lib : NumLib) (cfg : Config) (depth : Nat) (p : ScenarioData)
    (k : String) (hd : ∀ d, p.data = some d → d.scenId = k)
    (ho : ∀ o, p.obsData = some o → o.scenId = k) :
    (∀ d, (decideOne lib cfg depth p).data = some d → d.scenId = k) ∧
    (∀ o, (decideOne lib cfg depth p).obsData = some o → o.scenId = k) := by
  by_cases h1 : p.branchFlag = true
  · rw [decideOne_flagged lib cfg depth p h1]
    exact ⟨hd, ho⟩
  · have h1' := bool_not_true h1
    by_cases h2 : p.endFlag = true
    · rw [decideOne_end lib cfg depth p h1' h2]
      exact ⟨hd, ho⟩
    · have h2' := bool_not_true h2
      by_cases h3 : cfg.maxDepth ≤ depth
      · rw [decideOne_depthCap lib cfg depth p h1' h2' h3]
        exact ⟨hd, ho⟩
      · cases h4 : p.data with
        | none =>
          rw [decideOne_noData lib cfg depth p h1' h2' h3 h4]
          exact ⟨hd, ho⟩
        | some d =>
          have hdk := hd d h4
          by_cases h5 : (getBranchTime cfg d).1 < cfg.predLen
          · rw [decideOne_branch_eq lib cfg depth p d h1' h2' h3 h4 h5]
            constructor
            · intro d' hd'
              have hinj : some (updateObser lib cfg (getBranchTime cfg d).2).2 = some d' := hd'
              rw [← Option.some.inj hinj, updateObser_data_scenId, getBranchTime_scenId]
              exact hdk
            · intro o ho'
              have hinj : some (updateObser lib cfg (getBranchTime cfg d).2).1 = some o := ho'
              rw [← Option.some.inj hinj, updateObser_obs_scenId, getBranchTime_scenId]
              exact hdk
          · rw [decideOne_endTime_eq lib cfg depth p d h1' h2' h3 h4 h5]
            constructor
            · intro d' hd'
              have hinj : some (getBranchTime cfg d).2 = some d' := hd'
              rw [← Option.some.inj hinj, getBranchTime_scenId]
              exact hdk
            · intro o ho'
              exact ho o ho'

theorem decideOne_old_unflagged (lib : NumLib) (cfg : Config) (depth : Nat)
    (p : ScenarioData) (h1 : p.branchFlag = false)
    (h2 : p.endFlag = true ∨ cfg.maxDepth ≤ depth) :
    (decideOne lib cfg depth p).branchFlag = false ∧
    ((decideOne lib cfg depth p).endFlag = true ∨ cfg.maxDepth ≤ depth) := by
  by_cases hef : p.endFlag = true
  · rw [decideOne_end lib cfg depth p h1 hef]
    exact ⟨h1, Or.inl hef⟩
  · have hdep : cfg.maxDepth ≤ depth := h2.resolve_left hef
    rw [decideOne_depthCap lib cfg depth p h1 (bool_not_true hef) hdep]
    exact ⟨h1, Or.inr hdep⟩

theorem fruitfulB_spec {net : Oracle} {lib : NumLib} {cfg : Config} {st : GenState}
    (h : fruitfulB net lib cfg st = true) :
    ∀ k ∈ st.branchSet, ∀ nn,
      (createNodes st.tree (roundChildren net lib cfg st)).getNode? k = some nn →
      nn.childrenKeys ≠ [] := by
  intro k hk nn hnn hEq
  have hall := (List.all_eq_true.mp h) k hk
  have h2 : (!nn.childrenKeys.isEmpty) = true := by
    rw [hnn] at hall
    exact hall
  rw [hEq] at h2
  simp at h2

theorem mem_branchLeafKeys {t : Tree ScenarioData} {k : String}
    (h : k ∈ branchLeafKeys t) :
    ∃ m ∈ t.nodes, m.key = k ∧ m.childrenKeys = [] ∧ m.payload.branchFlag = true := by
  unfold branchLeafKeys Tree.getLeafNodes at h
  obtain ⟨m, hm, hk⟩ := List.mem_map.mp h
  have hm2 := List.mem_filter.mp hm
  have hm3 := List.mem_filter.mp hm2.1
  refine ⟨m, hm3.1, hk, ?_, hm2.2⟩
  simpa using hm3.2

theorem branchLeafKeys_mem {t : Tree ScenarioData} {m : TNode ScenarioData}
    (hm : m ∈ t.nodes) (hleaf : m.childrenKeys = []) (hflag : m.payload.branchFlag = true) :
    m.key ∈ branchLeafKeys t := by
  unfold branchLeafKeys Tree.getLeafNodes
  have hmem : m ∈ List.filter (fun n => n.payload.branchFlag)
      (List.filter (fun n => n.childrenKeys.isEmpty) t.nodes) :=
    List.mem_filter.mpr ⟨List.mem_filter.mpr ⟨hm, by rw [hleaf]; rfl⟩, hflag⟩
  exact List.mem_map_of_mem (fun n => n.key) hmem

theorem loopInv_roundStep (net : Oracle) (lib : NumLib) (cfg : Config) (st : GenState)
    (hinv : LoopInv cfg st) (hfruit : fruitfulB net lib cfg st = true) :
    LoopInv cfg (roundStep net lib cfg st) := by
  obtain ⟨hnd, hbs, hid, hleaf⟩ := hinv
  have hpar : ∀ c ∈ roundChildren net lib cfg st, ∃ pk, c.parentId = some pk ∧
      ∃ m, st.tree.getNode? pk = some m ∧ m.depth = st.branchDepth := by
    intro c hc
    obtain ⟨idx, obs, henum, hpid, _⟩ := mem_pruneMerge hc
    have hobs : obs ∈ batchOf st :=
      List.getElem?_mem (List.mem_enum_iff_getElem?.mp henum)
    obtain ⟨k, hk, nn, hget, hob⟩ := mem_batchOf hobs
    have hnnmem := Tree.getNode?_mem hget
    have hkey : obs.scenId = nn.key := (hid nn hnnmem.1).2 obs hob
    refine ⟨k, by rw [hpid, hkey, hnnmem.2], nn, hget, ?_⟩
    rw [hbs] at hk
    obtain ⟨m, hmem, hmk, hml, hmf⟩ := mem_branchLeafKeys hk
    have hgm : st.tree.getNode? m.key = some m := Tree.getNode?_of_mem_nodup hnd hmem
    rw [hmk] at hgm
    have hnm : nn = m := by
      rw [hget] at hgm
      exact Option.some.inj hgm
    rw [hnm]
    exact ((hleaf m hmem hml).1 hmf).1
  obtain ⟨h1, h2, h3⟩ := createNodes_master (roundChildren net lib cfg st) st.tree
    st.branchDepth hnd hpar
  have hfru := fruitfulB_spec hfruit
  refine ⟨?_, rfl, ?_, ?_⟩
  · rw [roundStep_tree, Tree.keys_decideBranch]
    exact h1
  · intro n hn
    rw [roundStep_tree] at hn
    obtain ⟨m, hm, hnEq⟩ := decideBranch_mem hn
    have hmids : (∀ d, m.payload.data = some d → d.scenId = m.key) ∧
        (∀ o, m.payload.obsData = some o → o.scenId = m.key) := by
      by_cases hold : m.key ∈ st.tree.keys
      · obtain ⟨nOld, hgOld⟩ := Tree.getNode?_isSome_of_mem_keys hold
        obtain ⟨mm, ext, hmm, hpl, hdp, hpk2, hck⟩ := h2 m.key hold nOld hgOld
        have hgm : (createNodes st.tree (roundChildren net lib cfg st)).getNode? m.key =
            some m := Tree.getNode?_of_mem_nodup h1 hm
        have hmmEq : mm = m := by
          rw [hgm] at hmm
          exact (Option.some.inj hmm).symm
        rw [hmmEq] at hpl
        rw [hpl]
        have hOldMem := Tree.getNode?_mem hgOld
        have hids := hid nOld hOldMem.1
        rw [hOldMem.2] at hids
        exact hids
      · obtain ⟨pred, hpc, hkeyEq, hplEq, hdepEq⟩ := h3 m hm hold
        rw [hplEq]
        constructor
        · intro d hdEq
          have hinj : some pred = some d := hdEq
          rw [← Option.some.inj hinj, hkeyEq]
        · intro o hoEq
          exact absurd hoEq (by simp)
    subst hnEq
    by_cases hle : m.childrenKeys.isEmpty
    · rw [if_pos hle]
      exact decideOne_ids lib cfg m.depth m.payload m.key hmids.1 hmids.2
    · rw [if_neg hle]
      exact hmids
  · intro n hn hleafn
    rw [roundStep_tree] at hn
    obtain ⟨m, hm, hnEq⟩ := decideBranch_mem hn
    subst hnEq
    by_cases hle : m.childrenKeys.isEmpty
    case neg =>
      rw [if_neg hle] at hleafn ⊢
      exact absurd (by rw [hleafn]; rfl) hle
    case pos =>
      rw [if_pos hle] at hleafn ⊢
      have hmleaf : m.childrenKeys = [] := hleafn
      have hgm : (createNodes st.tree (roundChildren net lib cfg st)).getNode? m.key =
          some m := Tree.getNode?_of_mem_nodup h1 hm
      by_cases hold : m.key ∈ st.tree.keys
      · obtain ⟨nOld, hgOld⟩ := Tree.getNode?_isSome_of_mem_keys hold
        obtain ⟨mm, ext, hmm, hpl, hdp, hpk2, hck⟩ := h2 m.key hold nOld hgOld
        have hmmEq : mm = m := by
          rw [hgm] at hmm
          exact (Option.some.inj hmm).symm
        rw [hmmEq] at hpl hdp hck
        obtain ⟨hOldNil, hExtNil⟩ := List.append_eq_nil.mp (hck.symm.trans hmleaf)
        have hOldMem := Tree.getNode?_mem hgOld
        by_cases hbf : nOld.payload.branchFlag = true
        · exfalso
          have hkmem : m.key ∈ st.branchSet := by
            rw [hbs, ← hOldMem.2]
            exact branchLeafKeys_mem hOldMem.1 hOldNil hbf
          exact hfru m.key hkmem m hgm hmleaf
        · have hbf' := bool_not_true hbf
          have hdisj := (hleaf nOld hOldMem.1 hOldNil).2 hbf'
          have hclauses := decideOne_old_unflagged lib cfg m.depth m.payload
            (by rw [hpl]; exact hbf') (by rw [hpl, hdp]; exact hdisj)
          constructor
          · intro hbt
            have hbt' : (decideOne lib cfg m.depth m.payload).branchFlag = true := hbt
            exact Bool.noConfusion (hclauses.1.symm.trans hbt')
          · intro _
            exact hclauses.2
      · obtain ⟨pred, hpc, hkeyEq, hplEq, hdepEq⟩ := h3 m hm hold
        by_cases h3d : cfg.maxDepth ≤ m.depth
        · have hq := decideOne_depthCap lib cfg m.depth m.payload
            (by rw [hplEq]) (by rw [hplEq]) h3d
          constructor
          · intro hbt
            have hbt' : (decideOne lib cfg m.depth m.payload).branchFlag = true := hbt
            rw [hq] at hbt'
            have hbt2 : m.payload.branchFlag = true := hbt'
            rw [hplEq] at hbt2
            exact Bool.noConfusion hbt2
          · intro _
            exact Or.inr h3d
        · by_cases h5 : (getBranchTime cfg pred).1 < cfg.predLen
          · have hq := decideOne_branch_eq lib cfg m.depth m.payload pred
              (by rw [hplEq]) (by rw [hplEq]) h3d (by rw [hplEq]) h5
            constructor
            · intro _
              constructor
              · show m.depth = (roundStep net lib cfg st).branchDepth
                rw [hdepEq, roundStep_branchDepth]
              · show m.depth < cfg.maxDepth
                omega
            · intro hbf
              have hbf' : (decideOne lib cfg m.depth m.payload).branchFlag = false := hbf
              rw [hq] at hbf'
              exact Bool.noConfusion hbf'
          · have hq := decideOne_endTime_eq lib cfg m.depth m.payload pred
              (by rw [hplEq]) (by rw [hplEq]) h3d (by rw [hplEq]) h5
            constructor
            · intro hbt
              have hbt' : (decideOne lib cfg m.depth m.payload).branchFlag = true := hbt
              rw [hq] at hbt'
              have hbt2 : m.payload.branchFlag = true := hbt'
              rw [hplEq] at hbt2
              exact Bool.noConfusion hbt2
            · intro _
              left
              show (decideOne lib cfg m.depth m.payload).endFlag = true
              rw [hq]

theorem loopInv_depth_lt (cfg : Config) (st : GenState) (hinv : LoopInv cfg st)
    (hne : st.branchSet ≠ []) : st.branchDepth < cfg.maxDepth := by
  obtain ⟨hnd, hbs, hid, hleaf⟩ := hinv
  obtain ⟨k, hk⟩ := List.exists_mem_of_ne_nil st.branchSet hne
  rw [hbs] at hk
  obtain ⟨m, hmem, hmk, hml, hmf⟩ := mem_branchLeafKeys hk
  have := (hleaf m hmem hml).1 hmf
  omega

theorem loopInv_runLoop_empty (net : Oracle) (lib : NumLib) (cfg : Config) :
    ∀ (f : Nat) (st : GenState), LoopInv cfg st → cfg.maxDepth ≤ st.branchDepth + f →
      (∀ j, j < f → fruitfulB net lib cfg (runLoop net lib cfg j st) = true) →
      (runLoop net lib cfg f st).branchSet = [] := by
  intro f
  induction f with
  | zero =>
    intro st hinv hle _
    by_contra hne
    have := loopInv_depth_lt cfg st hinv hne
    omega
  | succ f ih =>
    intro st hinv hle hfr
    rw [runLoop]
    by_cases hE : st.branchSet.isEmpty
    · rw [if_pos hE]
      exact List.isEmpty_iff.mp hE
    · rw [if_neg hE]
      have hfru0 : fruitfulB net lib cfg st = true := hfr 0 (Nat.succ_pos f)
      have hinv' := loopInv_roundStep net lib cfg st hinv hfru0
      refine ih (roundStep net lib cfg st) hinv' ?_ ?_
      · rw [roundStep_branchDepth]
        omega
      · intro j hj
        have hthis := hfr (j + 1) (Nat.succ_lt_succ hj)
        rw [runLoop, if_neg hE] at hthis
        exact hthis

/-- C1 (amended): for a configuration with max_depth = D > 0 and a
root-keyed input dict, the generator loop of branch_aime terminates
within D branching rounds - after D iterations the branch set is empty -
provided every executed round is fruitful, that is, every expanded
branch-ready leaf retains at least one surviving child after prune and
merge. (The unconditional original claim is refuted by the fruitless
ping-pong run of the recorded counterexample: decide_branch never
consults terminate_flag, so a leaf whose expansion lost all children is
re-flagged by a later pass.) -/
theorem claim_C1_amended (net : Oracle) (lib : NumLib) (cfg : Config)
    (rootData : ScenData) (hroot : rootData.scenId = "root")
    (hD : 0 < cfg.maxDepth)
    (hinit : fruitfulB net lib cfg (initPre rootData) = true)
    (hfruit : ∀ j, j < cfg.maxDepth →
      fruitfulB net lib cfg (runLoop net lib cfg j (initState net lib cfg rootData)) = true) :
    (runLoop net lib cfg cfg.maxDepth (initState net lib cfg rootData)).branchSet = [] := by
  have hinv0 : LoopInv cfg (initPre rootData) := by
    refine ⟨nodup_initPre rootData, by with_unfolding_all rfl, ?_, ?_⟩
    · intro n hn
      have hn' : n = ⟨"root", none, [], 0, ⟨none, some rootData, true, false, false⟩⟩ := by
        simpa [initPre, Tree.addNode, Tree.empty, Tree.getNode?] using hn
      subst hn'
      constructor
      · intro d hd
        exact absurd hd (by simp)
      · intro o ho
        have hor : rootData = o := Option.some.inj ho
        rw [← hor, hroot]
    · intro n hn hleafn
      have hn' : n = ⟨"root", none, [], 0, ⟨none, some rootData, true, false, false⟩⟩ := by
        simpa [initPre, Tree.addNode, Tree.empty, Tree.getNode?] using hn
      subst hn'
      constructor
      · intro _
        exact ⟨rfl, hD⟩
      · intro hbf
        exact Bool.noConfusion hbf
  have hinv1 : LoopInv cfg (initState net lib cfg rootData) := by
    rw [initState_eq]
    exact loopInv_roundStep net lib cfg _ hinv0 hinit
  refine loopInv_runLoop_empty net lib cfg cfg.maxDepth _ hinv1 ?_ hfruit
  have hbd : (initState net lib cfg rootData).branchDepth = 1 := rfl
  omega

/-- Witness for the amended C1 claim: the concrete two-agent run with
the everywhere-fruitful single-mode oracle, depth limit 3. Every round
is fruitful (the single mode always survives prune and merge), and
after three rounds the branch set is empty. -/
theorem claim_C1_amended_witness :
    (runLoop netF libCE cfgW cfgW.maxDepth
      (initState netF libCE cfgW (prepareRootData libCE cfgW rawW2))).branchSet = [] :=
  claim_C1_amended netF libCE cfgW (prepareRootData libCE cfgW rawW2)
    (by with_unfolding_all rfl) (by decide)
    (by with_unfolding_all decide) (by with_unfolding_all decide)

/-- C10: in every generator run, the keys inserted into the search tree
are globally unique across the entire run: after any number of loop
rounds, the surviving children of the next round carry pairwise
distinct keys minted from (branch_depth, batch index, mode index), none
of which collides with any key already present in the tree (including
the distinguished key root), so create_nodes inserts every one of them
and the tree's key list stays duplicate free. -/
theorem claim_C10_key_uniqueness (net : Oracle) (lib : NumLib) (cfg : Config)
    (rootData : ScenData) (n : Nat) :
    (runLoop net lib cfg n (initState net lib cfg rootData)).tree.keys.Nodup ∧
    ((roundChildren net lib cfg (runLoop net lib cfg n (initState net lib cfg rootData))).map
      (·.scenId)).Nodup ∧
    (∀ c ∈ roundChildren net lib cfg (runLoop net lib cfg n (initState net lib cfg rootData)),
      c.scenId ∉ (runLoop net lib cfg n (initState net lib cfg rootData)).tree.keys) ∧
    (createNodes (runLoop net lib cfg n (initState net lib cfg rootData)).tree
        (roundChildren net lib cfg
          (runLoop net lib cfg n (initState net lib cfg rootData)))).keys =
      (runLoop net lib cfg n (initState net lib cfg rootData)).tree.keys ++
        (roundChildren net lib cfg
          (runLoop net lib cfg n (initState net lib cfg rootData))).map (·.scenId) := by
  have hinit : KeyShape (initState net lib cfg rootData) ∧
      (initState net lib cfg rootData).tree.keys.Nodup := by
    rw [initState_eq]
    exact ⟨keyShape_roundStep net lib cfg _ (keyShape_initPre rootData),
      nodup_roundStep net lib cfg _ (keyShape_initPre rootData) (nodup_initPre rootData)⟩
  obtain ⟨hs, hn⟩ := keysInv_runLoop net lib cfg n _ hinit.1 hinit.2
  obtain ⟨hknd, hfresh, happ⟩ := roundChildren_keys net lib cfg _ hs
  exact ⟨hn, hknd, hfresh, happ⟩

/- ===================== THEOREMS: shape preservation ===================== -/

theorem sameShapeBy_refl {α γ : Type} (f : α → γ) (t : Tree α) : SameShapeBy f t t := by
  unfold SameShapeBy
  induction t.nodes with
  | nil => exact List.Forall₂.nil
  | cons a l ih => exact List.Forall₂.cons ⟨rfl, rfl, rfl, rfl, rfl⟩ ih

theorem shapeRel_trans {α γ : Type} {f : α → γ} :
    ∀ {l1 l2 l3 : List (TNode α)},
      List.Forall₂ (fun n n' => n'.key = n.key ∧ n'.parentKey = n.parentKey ∧
        n'.childrenKeys = n.childrenKeys ∧ n'.depth = n.depth ∧
        f n'.payload = f n.payload) l1 l2 →
      List.Forall₂ (fun n n' => n'.key = n.key ∧ n'.parentKey = n.parentKey ∧
        n'.childrenKeys = n.childrenKeys ∧ n'.depth = n.depth ∧
        f n'.payload = f n.payload) l2 l3 →
      List.Forall₂ (fun n n' => n'.key = n.key ∧ n'.parentKey = n.parentKey ∧
        n'.childrenKeys = n.childrenKeys ∧ n'.depth = n.depth ∧
        f n'.payload = f n.payload) l1 l3 := by
  intro l1 l2 l3 h12 h23
  induction h12 generalizing l3 with
  | nil =>
    cases h23
    exact List.Forall₂.nil
  | cons h hs ih =>
    cases h23 with
    | cons h' hs' =>
      exact List.Forall₂.cons ⟨h'.1.trans h.1, h'.2.1.trans h.2.1, h'.2.2.1.trans h.2.2.1,
        h'.2.2.2.1.trans h.2.2.2.1, h'.2.2.2.2.trans h.2.2.2.2⟩ (ih hs')

theorem sameShapeBy_trans {α γ : Type} {f : α → γ} {t1 t2 t3 : Tree α}
    (h12 : SameShapeBy f t1 t2) (h23 : SameShapeBy f t2 t3) : SameShapeBy f t1 t3 :=
  shapeRel_trans h12 h23

theorem sameShapeBy_modifyPayload {α γ : Type} (f : α → γ) (t : Tree α) (k : String)
    (g : α → α) (hg : ∀ a, f (g a) = f a) :
    SameShapeBy f t (t.modifyPayload k g) := by
  unfold SameShapeBy Tree.modifyPayload
  show List.Forall₂ _ t.nodes (t.nodes.map _)
  induction t.nodes with
  | nil => exact List.Forall₂.nil
  | cons a l ih =>
    rw [List.map_cons]
    refine List.Forall₂.cons ?_ ih
    by_cases h : a.key == k
    · rw [if_pos h]
      exact ⟨rfl, rfl, rfl, rfl, hg a.payload⟩
    · rw [if_neg h]
      exact ⟨rfl, rfl, rfl, rfl, rfl⟩

theorem keys_rel_of_shape {α γ : Type} {f : α → γ} :
    ∀ {l l' : List (TNode α)},
      List.Forall₂ (fun n n' => n'.key = n.key ∧ n'.parentKey = n.parentKey ∧
        n'.childrenKeys = n.childrenKeys ∧ n'.depth = n.depth ∧
        f n'.payload = f n.payload) l l' →
      l'.map (·.key) = l.map (·.key) := by
  intro l l' h
  induction h with
  | nil => rfl
  | cons hab hs ih =>
    simp only [List.map_cons, ih]
    rw [hab.1]

theorem keys_of_shape {α γ : Type} {f : α → γ} {t t' : Tree α}
    (h : SameShapeBy f t t') : t'.keys = t.keys :=
  keys_rel_of_shape h

theorem find?_forall₂ {β : Type} {R : β → β → Prop} (p : β → Bool)
    (hp : ∀ a b, R a b → p b = p a) :
    ∀ {l l' : List β}, List.Forall₂ R l l' →
      ((l.find? p = none → l'.find? p = none) ∧
       (∀ n, l.find? p = some n → ∃ n', l'.find? p = some n' ∧ R n n')) := by
  intro l l' h
  induction h with
  | nil => exact ⟨fun _ => rfl, fun n hn => by simp at hn⟩
  | @cons a b l2 l2' hab hs ih =>
    by_cases hpa : p a = true
    · constructor
      · intro hnone
        rw [List.find?_cons_of_pos _ hpa] at hnone
        exact absurd hnone (by simp)
      · intro n hn
        rw [List.find?_cons_of_pos _ hpa] at hn
        refine ⟨b, ?_, ?_⟩
        · rw [List.find?_cons_of_pos _ ((hp a b hab).trans hpa)]
        · rw [← Option.some.inj hn]
          exact hab
    · have hpb : ¬ p b = true := by
        rw [hp a b hab]
        exact hpa
      constructor
      · intro hnone
        rw [List.find?_cons_of_neg _ hpa] at hnone
        rw [List.find?_cons_of_neg _ hpb]
        exact ih.1 hnone
      · intro n hn
        rw [List.find?_cons_of_neg _ hpa] at hn
        obtain ⟨n', hn', hr⟩ := ih.2 n hn
        refine ⟨n', ?_, hr⟩
        rw [List.find?_cons_of_neg _ hpb]
        exact hn'

theorem getNode?_of_shape {α γ : Type} {f : α → γ} {t t' : Tree α}
    (h : SameShapeBy f t t') (k : String) :
    (t.getNode? k = none → t'.getNode? k = none) ∧
    (∀ n, t.getNode? k = some n → ∃ n', t'.getNode? k = some n' ∧
      n'.key = n.key ∧ n'.parentKey = n.parentKey ∧ n'.childrenKeys = n.childrenKeys ∧
      n'.depth = n.depth ∧ f n'.payload = f n.payload) := by
  unfold Tree.getNode?
  refine find?_forall₂ (fun n => n.key == k) (fun a b hab => ?_) h
  show (b.key == k) = (a.key == k)
  rw [hab.1]

theorem getRoot?_of_shape {α γ : Type} {f : α → γ} {t t' : Tree α}
    (h : SameShapeBy f t t') :
    (t.getRoot? = none → t'.getRoot? = none) ∧
    (∀ n, t.getRoot? = some n → ∃ n', t'.getRoot? = some n' ∧
      n'.key = n.key ∧ n'.parentKey = n.parentKey ∧ n'.childrenKeys = n.childrenKeys ∧
      n'.depth = n.depth ∧ f n'.payload = f n.payload) := by
  unfold Tree.getRoot?
  refine find?_forall₂ (fun n => n.parentKey.isNone) (fun a b hab => ?_) h
  show b.parentKey.isNone = a.parentKey.isNone
  rw [hab.2.1]

theorem mem_rel_of_shape {α γ : Type} {f : α → γ} :
    ∀ {l l' : List (TNode α)},
      List.Forall₂ (fun n n' => n'.key = n.key ∧ n'.parentKey = n.parentKey ∧
        n'.childrenKeys = n.childrenKeys ∧ n'.depth = n.depth ∧
        f n'.payload = f n.payload) l l' →
      ∀ n' ∈ l', ∃ n ∈ l, n'.key = n.key ∧ n'.parentKey = n.parentKey ∧
        n'.childrenKeys = n.childrenKeys ∧ n'.depth = n.depth ∧
        f n'.payload = f n.payload := by
  intro l l' h
  induction h with
  | nil => intro n' hmem; simp at hmem
  | @cons a b l2 l2' hab hs ih =>
    intro n' hmem
    rcases List.mem_cons.mp hmem with hEq | hmem'
    · subst hEq
      exact ⟨a, List.mem_cons_self _ _, hab⟩
    · obtain ⟨n, hn, hr⟩ := ih n' hmem'
      exact ⟨n, List.mem_cons_of_mem _ hn, hr⟩

theorem mem_of_shape {α γ : Type} {f : α → γ} {t t' : Tree α}
    (h : SameShapeBy f t t') {n' : TNode α} (hmem : n' ∈ t'.nodes) :
    ∃ n ∈ t.nodes, n'.key = n.key ∧ n'.parentKey = n.parentKey ∧
      n'.childrenKeys = n.childrenKeys ∧ n'.depth = n.depth ∧
      f n'.payload = f n.payload :=
  mem_rel_of_shape h n' hmem

theorem markChain_shape (t0 : Tree ScenarioData) :
    ∀ (fuel : Nat) (t : Tree ScenarioData) (k : String),
      SameShapeBy (fun p => p.data) t0 t →
      SameShapeBy (fun p => p.data) t0 (markChain t fuel k) := by
  intro fuel
  induction fuel with
  | zero => intro t k h; exact h
  | succ fuel ih =>
    intro t k h
    rw [markChain]
    cases hg : t.getNode? k with
    | none => exact h
    | some n =>
      simp only []
      cases hp : n.parentKey with
      | none => exact h
      | some pk =>
        exact ih _ pk (sameShapeBy_trans h
          (sameShapeBy_modifyPayload _ t k setEndFlag (fun a => rfl)))

theorem backProp_shape (t : Tree ScenarioData) :
    SameShapeBy (fun p => p.data) t (backProp t) := by
  unfold backProp
  have hfold : ∀ (l : List (TNode ScenarioData)) (tr : Tree ScenarioData),
      SameShapeBy (fun p => p.data) t tr →
      SameShapeBy (fun p => p.data) t
        (l.foldl (fun tr' n => markChain tr' (tr'.nodes.length + 1) n.key) tr) := by
    intro l
    induction l with
    | nil => intro tr h; exact h
    | cons a l ih =>
      intro tr h
      rw [List.foldl_cons]
      exact ih _ (markChain_shape t _ tr a.key h)
  exact hfold (endLeaves t) t (sameShapeBy_refl _ t)

theorem attachExtra_shape (cfg : Config) (t : Tree ScenarioData) (dt0 : Tree DTP) :
    ∀ (fuel : Nat) (dt : Tree DTP) (k : String),
      SameShapeBy (fun p => p.prob) dt0 dt →
      SameShapeBy (fun p => p.prob) dt0 (attachExtra cfg t dt fuel k) := by
  intro fuel
  induction fuel with
  | zero => intro dt k h; exact h
  | succ fuel ih =>
    intro dt k h
    rw [attachExtra]
    cases hg : t.getNode? k with
    | none => exact h
    | some n =>
      simp only []
      cases hp : n.parentKey with
      | none => exact h
      | some pk =>
        simp only []
        cases hd : n.payload.data with
        | none => exact ih dt pk h
        | some d =>
          apply ih
          exact sameShapeBy_trans h (sameShapeBy_modifyPayload _ dt k _
            (fun a => by cases ha : a.extra <;> rfl))

theorem attachAll_shape (cfg : Config) (t : Tree ScenarioData) (dt : Tree DTP) :
    SameShapeBy (fun p => p.prob) dt (attachAll cfg t dt) := by
  unfold attachAll
  have hfold : ∀ (l : List (TNode ScenarioData)) (d : Tree DTP),
      SameShapeBy (fun p => p.prob) dt d →
      SameShapeBy (fun p => p.prob) dt
        (l.foldl (fun d' n => attachExtra cfg t d' (t.nodes.length + 1) n.key) d) := by
    intro l
    induction l with
    | nil => intro d h; exact h
    | cons a l ih =>
      intro d h
      rw [List.foldl_cons]
      exact ih _ (attachExtra_shape cfg t dt _ d a.key h)
  exact hfold (endLeaves t) dt (sameShapeBy_refl _ dt)

/- ===================== THEOREMS: batched child insertion ===================== -/

theorem Tree.addNode_nodes_some_at {α : Type} {t : Tree α} {k pk : String} {payload : α}
    {pnode : TNode α} (h : t.getNode? k = none) (hp : t.getNode? pk = some pnode) :
    (t.addNode k (some pk) payload).nodes =
      t.nodes.map (bumpChild pk k) ++ [⟨k, some pk, [], pnode.depth + 1, payload⟩] := by
  rw [Tree.addNode_nodes_some h, hp]

theorem find?_map_pres {β : Type} (G : β → β) (p : β → Bool) (hpG : ∀ n, p (G n) = p n) :
    ∀ l : List β, (l.map G).find? p = (l.find? p).map G := by
  intro l
  induction l with
  | nil => rfl
  | cons a l ihl =>
    rw [List.map_cons]
    by_cases hpa : p a = true
    · rw [List.find?_cons_of_pos _ ((hpG a).trans hpa), List.find?_cons_of_pos _ hpa]
      rfl
    · rw [List.find?_cons_of_neg _ (by rw [hpG a]; exact hpa),
        List.find?_cons_of_neg _ hpa, ihl]

theorem find?_append_some {β : Type} (p : β → Bool) :
    ∀ {l1 : List β} {x : β}, l1.find? p = some x → ∀ l2, (l1 ++ l2).find? p = some x := by
  intro l1
  induction l1 with
  | nil => intro x h; simp at h
  | cons a l ihl =>
    intro x h l2
    by_cases hpa : p a = true
    · rw [List.find?_cons_of_pos _ hpa] at h
      rw [List.cons_append, List.find?_cons_of_pos _ hpa]
      exact h
    · rw [List.find?_cons_of_neg _ hpa] at h
      rw [List.cons_append, List.find?_cons_of_neg _ hpa]
      exact ihl h l2

theorem find?_append_none {β : Type} (p : β → Bool) :
    ∀ {l1 : List β}, l1.find? p = none → ∀ l2, (l1 ++ l2).find? p = l2.find? p := by
  intro l1
  induction l1 with
  | nil => intro _ l2; rfl
  | cons a l ihl =>
    intro h l2
    by_cases hpa : p a = true
    · rw [List.find?_cons_of_pos _ hpa] at h
      exact absurd h (by simp)
    · rw [List.find?_cons_of_neg _ hpa] at h
      rw [List.cons_append, List.find?_cons_of_neg _ hpa]
      exact ihl h l2

theorem foldl_addNode_nodes {α β : Type} (keyOf : β → String) (payOf : β → α) (pk : String) :
    ∀ (cs : List β) (t : Tree α) (pnode : TNode α),
      t.getNode? pk = some pnode →
      (cs.map keyOf).Nodup → (∀ c ∈ cs, keyOf c ∉ t.keys) →
      (cs.foldl (fun o c => o.addNode (keyOf c) (some pk) (payOf c)) t).nodes =
        t.nodes.map (fun n => if n.key == pk then
          { n with childrenKeys := n.childrenKeys ++ cs.map keyOf } else n) ++
        cs.map (fun c => ⟨keyOf c, some pk, [], pnode.depth + 1, payOf c⟩) := by
  intro cs
  induction cs with
  | nil =>
    intro t pnode hp _ _
    rw [List.foldl_nil]
    have hid : ∀ ns : List (TNode α), ns.map (fun n => if n.key == pk then
        { n with childrenKeys := n.childrenKeys ++ List.map keyOf [] } else n) = ns := by
      intro ns
      induction ns with
      | nil => rfl
      | cons a l ihl =>
        rw [List.map_cons, ihl]
        split_ifs
        · rw [List.map_nil, List.append_nil]
        · rfl
    rw [hid, List.map_nil, List.append_nil]
  | cons c cs ih =>
    intro t pnode hp hnd hfresh
    rw [List.foldl_cons]
    have hfreshc : t.getNode? (keyOf c) = none :=
      Tree.getNode?_eq_none_iff.mpr (hfresh c (List.mem_cons_self c cs))
    have hpkmem : pk ∈ t.keys := by
      have hx := Tree.getNode?_mem hp
      exact hx.2 ▸ Tree.mem_keys_of_mem hx.1
    have hne : pk ≠ keyOf c := fun hEq => hfresh c (List.mem_cons_self c cs) (hEq ▸ hpkmem)
    have hp' : (t.addNode (keyOf c) (some pk) (payOf c)).getNode? pk =
        some (bumpChild pk (keyOf c) pnode) := by
      rw [Tree.getNode?_addNode_some_ne hfreshc hne, hp]
      rfl
    rw [List.map_cons] at hnd
    obtain ⟨hhd, htl⟩ := List.nodup_cons.mp hnd
    have hfresh' : ∀ c' ∈ cs, keyOf c' ∉ (t.addNode (keyOf c) (some pk) (payOf c)).keys := by
      intro c' hc' hmem
      rw [Tree.keys_addNode_some hfreshc] at hmem
      rcases List.mem_append.mp hmem with hx | hx
      · exact hfresh c' (List.mem_cons_of_mem c hc') hx
      · simp at hx
        exact hhd (hx ▸ List.mem_map_of_mem keyOf hc')
    rw [ih (t.addNode (keyOf c) (some pk) (payOf c)) (bumpChild pk (keyOf c) pnode)
      hp' htl hfresh']
    rw [Tree.addNode_nodes_some_at hfreshc hp]
    rw [bumpChild_depth]
    rw [List.map_append, List.map_map]
    have hFG : ∀ n ∈ t.nodes,
        ((fun n => if n.key == pk then
          { n with childrenKeys := n.childrenKeys ++ cs.map keyOf } else n) ∘
          bumpChild pk (keyOf c)) n =
        (if n.key == pk then
          { n with childrenKeys := n.childrenKeys ++ List.map keyOf (c :: cs) } else n) := by
      intro n _
      simp only [Function.comp_apply]
      rw [List.map_cons]
      by_cases hk : (n.key == pk) = true
      · rw [show bumpChild pk (keyOf c) n =
            { n with childrenKeys := n.childrenKeys ++ [keyOf c] } from by
          unfold bumpChild
          rw [if_pos hk]]
        rw [if_pos hk, if_pos hk, List.append_assoc, List.singleton_append]
      · rw [show bumpChild pk (keyOf c) n = n from by
          unfold bumpChild
          rw [if_neg hk]]
        rw [if_neg hk, if_neg hk]
    rw [List.map_congr_left hFG]
    have hFnew : List.map (fun n => if n.key == pk then
        { n with childrenKeys := n.childrenKeys ++ cs.map keyOf } else n)
        [(⟨keyOf c, some pk, [], pnode.depth + 1, payOf c⟩ : TNode α)] =
        [⟨keyOf c, some pk, [], pnode.depth + 1, payOf c⟩] := by
      rw [List.map_cons, List.map_nil]
      rw [if_neg (by simp [Ne.symm hne])]
    rw [hFnew, List.append_assoc, List.singleton_append, List.map_cons, List.map_cons]

theorem foldl_addNode_keys {α β : Type} (keyOf : β → String) (payOf : β → α) (pk : String)
    (cs : List β) (t : Tree α) (pnode : TNode α) (hp : t.getNode? pk = some pnode)
    (hnd : (cs.map keyOf).Nodup) (hfresh : ∀ c ∈ cs, keyOf c ∉ t.keys) :
    (cs.foldl (fun o c => o.addNode (keyOf c) (some pk) (payOf c)) t).keys =
      t.keys ++ cs.map keyOf := by
  unfold Tree.keys
  rw [foldl_addNode_nodes keyOf payOf pk cs t pnode hp hnd hfresh,
    List.map_append, List.map_map, List.map_map]
  congr 1
  · refine List.map_congr_left (fun n _ => ?_)
    simp only [Function.comp_apply]
    by_cases hk : (n.key == pk) = true
    · rw [if_pos hk]
    · rw [if_neg hk]

theorem foldl_addNode_getNode_parent {α β : Type} (keyOf : β → String) (payOf : β → α)
    (pk : String) (cs : List β) (t : Tree α) (pnode : TNode α)
    (hp : t.getNode? pk = some pnode) (hnd : (cs.map keyOf).Nodup)
    (hfresh : ∀ c ∈ cs, keyOf c ∉ t.keys) :
    (cs.foldl (fun o c => o.addNode (keyOf c) (some pk) (payOf c)) t).getNode? pk =
      some { pnode with childrenKeys := pnode.childrenKeys ++ cs.map keyOf } := by
  unfold Tree.getNode?
  rw [foldl_addNode_nodes keyOf payOf pk cs t pnode hp hnd hfresh]
  have hmid : (t.nodes.map (fun n => if n.key == pk then
      { n with childrenKeys := n.childrenKeys ++ cs.map keyOf } else n)).find?
      (fun x => x.key == pk) =
      some { pnode with childrenKeys := pnode.childrenKeys ++ cs.map keyOf } := by
    rw [find?_map_pres _ _ (fun n => by
      by_cases hk : (n.key == pk) = true
      · rw [if_pos hk]
      · rw [if_neg hk])]
    have hfind : t.nodes.find? (fun x => x.key == pk) = some pnode := hp
    rw [hfind]
    have hkeq : (pnode.key == pk) = true := by
      have := (Tree.getNode?_mem hp).2
      simp [this]
    exact congrArg some (if_pos hkeq)
  exact find?_append_some _ hmid _

theorem foldl_addNode_getNode_child {α β : Type} (keyOf : β → String) (payOf : β → α)
    (pk : String) (cs : List β) (t : Tree α) (pnode : TNode α)
    (hp : t.getNode? pk = some pnode) (hnd : (cs.map keyOf).Nodup)
    (hfresh : ∀ c ∈ cs, keyOf c ∉ t.keys) {c : β} (hc : c ∈ cs) :
    (cs.foldl (fun o c => o.addNode (keyOf c) (some pk) (payOf c)) t).getNode? (keyOf c) =
      some ⟨keyOf c, some pk, [], pnode.depth + 1, payOf c⟩ := by
  unfold Tree.getNode?
  rw [foldl_addNode_nodes keyOf payOf pk cs t pnode hp hnd hfresh]
  have hmid : (t.nodes.map (fun n => if n.key == pk then
      { n with childrenKeys := n.childrenKeys ++ cs.map keyOf } else n)).find?
      (fun x => x.key == keyOf c) = none := by
    rw [find?_map_pres _ _ (fun n => by
      by_cases hk : (n.key == pk) = true
      · rw [if_pos hk]
      · rw [if_neg hk])]
    have hnone : t.nodes.find? (fun x => x.key == keyOf c) = none :=
      Tree.getNode?_eq_none_iff.mpr (hfresh c hc)
    rw [hnone]
    rfl
  rw [find?_append_none _ hmid]
  have hkeys : (cs.map (fun c => (⟨keyOf c, some pk, [], pnode.depth + 1,
      payOf c⟩ : TNode α))).map (·.key) = cs.map keyOf := by
    rw [List.map_map]
    exact List.map_congr_left (fun c _ => rfl)
  have := find?_key_of_mem_nodup
    (cs.map (fun c => (⟨keyOf c, some pk, [], pnode.depth + 1, payOf c⟩ : TNode α)))
    ⟨keyOf c, some pk, [], pnode.depth + 1, payOf c⟩
    (by rw [hkeys]; exact hnd)
    (List.mem_map_of_mem _ hc)
  exact this

theorem foldl_addNode_getNode_other {α β : Type} (keyOf : β → String) (payOf : β → α)
    (pk : String) (cs : List β) (t : Tree α) (pnode : TNode α)
    (hp : t.getNode? pk = some pnode) (hnd : (cs.map keyOf).Nodup)
    (hfresh : ∀ c ∈ cs, keyOf c ∉ t.keys) {k : String} (hkp : k ≠ pk)
    (hkc : ∀ c ∈ cs, keyOf c ≠ k) :
    (cs.foldl (fun o c => o.addNode (keyOf c) (some pk) (payOf c)) t).getNode? k =
      t.getNode? k := by
  unfold Tree.getNode?
  rw [foldl_addNode_nodes keyOf payOf pk cs t pnode hp hnd hfresh]
  have hpres : ∀ n : TNode α, ((if n.key == pk then
      { n with childrenKeys := n.childrenKeys ++ cs.map keyOf } else n).key == k) =
      (n.key == k) := by
    intro n
    by_cases hk : (n.key == pk) = true
    · rw [if_pos hk]
    · rw [if_neg hk]
  cases hfind : t.nodes.find? (fun x => x.key == k) with
  | some x =>
    have hmid : (t.nodes.map (fun n => if n.key == pk then
        { n with childrenKeys := n.childrenKeys ++ cs.map keyOf } else n)).find?
        (fun y => y.key == k) =
        some (if x.key == pk then
          { x with childrenKeys := x.childrenKeys ++ cs.map keyOf } else x) := by
      rw [find?_map_pres _ _ hpres, hfind]
      rfl
    rw [find?_append_some _ hmid]
    have hxk : x.key = k := by
      have := List.find?_some hfind
      simpa using this
    rw [if_neg (by simp [hxk, hkp])]
  | none =>
    have hmid : (t.nodes.map (fun n => if n.key == pk then
        { n with childrenKeys := n.childrenKeys ++ cs.map keyOf } else n)).find?
        (fun y => y.key == k) = none := by
      rw [find?_map_pres _ _ hpres, hfind]
      rfl
    rw [find?_append_none _ hmid]
    rw [List.find?_eq_none]
    intro x hx
    obtain ⟨c, hcmem, hcx⟩ := List.mem_map.mp hx
    rw [← hcx]
    simp [hkc c hcmem]

theorem nodes_key_unique {α : Type} :
    ∀ {ns : List (TNode α)}, (ns.map (·.key)).Nodup →
      ∀ {n m : TNode α}, n ∈ ns → m ∈ ns → n.key = m.key → n = m := by
  intro ns
  induction ns with
  | nil => intro _ n m hn; simp at hn
  | cons a l ihl =>
    intro hnd n m hn hm hk
    rw [List.map_cons] at hnd
    obtain ⟨hhd, htl⟩ := List.nodup_cons.mp hnd
    rcases List.mem_cons.mp hn with rfl | hn' <;> rcases List.mem_cons.mp hm with rfl | hm'
    · rfl
    · exact absurd (hk ▸ List.mem_map_of_mem (·.key) hm') hhd
    · exact absurd (hk ▸ List.mem_map_of_mem (·.key) hn') hhd
    · exact ihl htl hn' hm' hk

theorem sum_childless_bump (pk : String) (ck : List String) (hck : ck ≠ []) :
    ∀ (ns : List (TNode DTP)), (ns.map (·.key)).Nodup →
      ∀ pnode : TNode DTP, pnode ∈ ns → pnode.key = pk → pnode.childrenKeys = [] →
      (((ns.map (fun n => if n.key == pk then
          { n with childrenKeys := n.childrenKeys ++ ck } else n)).filter
          (fun n => n.childrenKeys.isEmpty)).map (fun n => n.payload.prob)).sum =
      (((ns.filter (fun n => n.childrenKeys.isEmpty)).map (fun n => n.payload.prob)).sum
        - pnode.payload.prob) := by
  intro ns
  induction ns with
  | nil => intro _ pnode hmem; simp at hmem
  | cons a l ihl =>
    intro hnd pnode hmem hkey hleaf
    rw [List.map_cons] at hnd
    obtain ⟨hhd, htl⟩ := List.nodup_cons.mp hnd
    rw [List.map_cons]
    rcases List.mem_cons.mp hmem with hEq | hmem'
    · subst hEq
      rw [if_pos (by simp [hkey])]
      have hrest : l.map (fun n => if n.key == pk then
          { n with childrenKeys := n.childrenKeys ++ ck } else n) = l := by
        have h1 : l.map (fun n => if n.key == pk then
            { n with childrenKeys := n.childrenKeys ++ ck } else n) = l.map id :=
          List.map_congr_left (fun n hn => by
            rw [if_neg ?_]
            · rfl
            · intro hc
              have hc2 : n.key = pk := by simpa using hc
              exact hhd (hkey ▸ hc2 ▸ List.mem_map_of_mem (·.key) hn))
        rw [h1, List.map_id]
      rw [hrest]
      have hbumped : ((pnode.childrenKeys ++ ck).isEmpty) = false := by
        rw [hleaf]
        cases ck with
        | nil => exact absurd rfl hck
        | cons x xs => rfl
      rw [List.filter_cons, List.filter_cons,
        show (({ pnode with childrenKeys := pnode.childrenKeys ++ ck } :
          TNode DTP).childrenKeys.isEmpty) = false from hbumped,
        show (pnode.childrenKeys.isEmpty) = true from by rw [hleaf]; rfl,
        if_neg (by simp), if_pos rfl]
      rw [List.map_cons, List.sum_cons]
      ring
    · have hane : (a.key == pk) = false := by
        by_cases hc : (a.key == pk) = true
        · have hak : a.key = pk := by simpa using hc
          have hmm : a.key ∈ List.map (fun x => x.key) l := by
            rw [hak, ← hkey]
            exact List.mem_map_of_mem (·.key) hmem'
          exact absurd hmm hhd
        · exact bool_not_true hc
      rw [if_neg (by rw [hane]; simp)]
      rw [List.filter_cons, List.filter_cons]
      by_cases hae : (a.childrenKeys.isEmpty) = true
      · rw [if_pos hae, if_pos hae]
        rw [List.map_cons, List.sum_cons, List.map_cons, List.sum_cons,
          ihl htl pnode hmem' hkey hleaf]
        ring
      · rw [if_neg (by rw [bool_not_true hae]; simp), if_neg (by rw [bool_not_true hae]; simp)]
        exact ihl htl pnode hmem' hkey hleaf

theorem leafProbSum_foldl_addNode {β : Type} (keyOf : β → String) (payOf : β → DTP)
    (pk : String) (cs : List β) (t : Tree DTP) (pnode : TNode DTP)
    (hp : t.getNode? pk = some pnode) (hnd : (cs.map keyOf).Nodup)
    (hfresh : ∀ c ∈ cs, keyOf c ∉ t.keys) (hndk : t.keys.Nodup)
    (hleaf : pnode.childrenKeys = []) (hcs : cs ≠ []) :
    leafProbSum (cs.foldl (fun o c => o.addNode (keyOf c) (some pk) (payOf c)) t) =
      leafProbSum t - pnode.payload.prob + (cs.map (fun c => (payOf c).prob)).sum := by
  unfold leafProbSum
  rw [foldl_addNode_nodes keyOf payOf pk cs t pnode hp hnd hfresh]
  rw [List.filter_append, List.map_append, List.sum_append]
  have hnew : (cs.map (fun c => (⟨keyOf c, some pk, [], pnode.depth + 1,
      payOf c⟩ : TNode DTP))).filter (fun n => n.childrenKeys.isEmpty) =
      cs.map (fun c => ⟨keyOf c, some pk, [], pnode.depth + 1, payOf c⟩) :=
    List.filter_eq_self.mpr (fun x hx => by
      obtain ⟨c, _, hc⟩ := List.mem_map.mp hx
      rw [← hc]
      rfl)
  rw [hnew, List.map_map]
  have hckne : cs.map keyOf ≠ [] := by
    intro h
    cases cs with
    | nil => exact hcs rfl
    | cons x xs => simp at h
  rw [sum_childless_bump pk (cs.map keyOf) hckne t.nodes hndk pnode
    (Tree.getNode?_mem hp).1 (Tree.getNode?_mem hp).2 hleaf]
  have hsum2 : cs.map ((fun n : TNode DTP => n.payload.prob) ∘
      (fun c => (⟨keyOf c, some pk, [], pnode.depth + 1, payOf c⟩ : TNode DTP))) =
      cs.map (fun c => (payOf c).prob) :=
    List.map_congr_left (fun c _ => rfl)
  rw [hsum2]

theorem filterMap_getNode?_map_key {α : Type} (t : Tree α) :
    ∀ ks : List String, (∀ k ∈ ks, ∃ c, t.getNode? k = some c) →
      ((ks.filterMap t.getNode?).map (·.key)) = ks := by
  intro ks
  induction ks with
  | nil => intro _; rfl
  | cons k ks ihk =>
    intro hres
    obtain ⟨c, hc⟩ := hres k (List.mem_cons_self k ks)
    rw [List.filterMap_cons, hc, List.map_cons,
      ihk (fun k' hk' => hres k' (List.mem_cons_of_mem k hk')), (Tree.getNode?_mem hc).2]

theorem mem_filterMap_getNode? {α : Type} {t : Tree α} {ks : List String}
    {c : TNode α} (h : c ∈ ks.filterMap t.getNode?) :
    c ∈ t.nodes ∧ c.key ∈ ks ∧ t.getNode? c.key = some c := by
  obtain ⟨k, hk, hc⟩ := List.mem_filterMap.mp h
  have hm := Tree.getNode?_mem hc
  refine ⟨hm.1, ?_, ?_⟩
  · rw [hm.2]
    exact hk
  · rw [hm.2]
    exact hc

theorem copyStep_inv (dt : Tree DTP) (node : TNode DTP) (hWnd : dt.keys.Nodup)
    (hWco : ∀ n ∈ dt.nodes, ∀ k ∈ n.childrenKeys, ∃ c, dt.getNode? k = some c ∧
      c.parentKey = some n.key ∧ c.depth = n.depth + 1)
    (hWcn : ∀ n ∈ dt.nodes, n.childrenKeys.Nodup)
    (hWsum : ∀ n ∈ dt.nodes, n.parentKey ≠ none → n.childrenKeys ≠ [] →
      ((n.childrenKeys.filterMap dt.getNode?).map (fun c => c.payload.prob)).sum =
        n.payload.prob)
    (hnodemem : node ∈ dt.nodes)
    (cur : TNode DTP) (rest : List (TNode DTP)) (out : Tree DTP)
    (h : CopyInv dt node (cur :: rest) out) :
    CopyInv dt node (rest ++ cur.childrenKeys.filterMap dt.getNode?)
      ((cur.childrenKeys.filterMap dt.getNode?).foldl
        (fun o c => o.addNode c.key (some cur.key) c.payload) out) := by
  obtain ⟨h1, h2, h3, h4, h5, h6, h7, h8, h9⟩ := h
  obtain ⟨hcurdt, hcurdep, hcurpar⟩ := h1 cur (List.mem_cons_self cur rest)
  obtain ⟨oq, hoq, hoqleaf, hoqpay⟩ := h3 cur (List.mem_cons_self cur rest)
  rw [List.map_cons] at h2
  obtain ⟨hcurhd, hrestnd⟩ := List.nodup_cons.mp h2
  have hcurout : cur.key ∈ out.keys := by
    have hx := Tree.getNode?_mem hoq
    exact hx.2 ▸ Tree.mem_keys_of_mem hx.1
  have hres : ∀ k ∈ cur.childrenKeys, ∃ c, dt.getNode? k = some c := fun k hk =>
    (hWco cur hcurdt k hk).imp (fun c hc => hc.1)
  have hkeys : ((cur.childrenKeys.filterMap dt.getNode?).map (·.key)) =
      cur.childrenKeys := filterMap_getNode?_map_key dt _ hres
  have hcsmem : ∀ c ∈ cur.childrenKeys.filterMap dt.getNode?,
      c ∈ dt.nodes ∧ c.key ∈ cur.childrenKeys ∧ dt.getNode? c.key = some c :=
    fun c hc => mem_filterMap_getNode? hc
  have huniq : ∀ {n m : TNode DTP}, n ∈ dt.nodes → m ∈ dt.nodes → n.key = m.key →
      n = m := fun hn hm hk => nodes_key_unique hWnd hn hm hk
  have hcspar : ∀ c ∈ cur.childrenKeys.filterMap dt.getNode?,
      c.parentKey = some cur.key ∧ c.depth = cur.depth + 1 := by
    intro c hc
    obtain ⟨hcdt, hck, hcg⟩ := hcsmem c hc
    obtain ⟨c', hc', hp', hd'⟩ := hWco cur hcurdt c.key hck
    have hceq : c' = c := by
      rw [hcg] at hc'
      exact (Option.some.inj hc').symm
    rw [hceq] at hp' hd'
    exact ⟨hp', hd'⟩
  have hcsnd : ((cur.childrenKeys.filterMap dt.getNode?).map (·.key)).Nodup := by
    rw [hkeys]
    exact hWcn cur hcurdt
  have hcsfresh : ∀ c ∈ cur.childrenKeys.filterMap dt.getNode?, c.key ∉ out.keys :=
    fun c hc => h4 cur (List.mem_cons_self cur rest) c.key (hcsmem c hc).2.1
  have hparentdet : ∀ {p q : TNode DTP} {k : String}, p ∈ dt.nodes → q ∈ dt.nodes →
      k ∈ p.childrenKeys → k ∈ q.childrenKeys → p = q := by
    intro p q k hp hq hkp hkq
    obtain ⟨c1, hc1, hp1, _⟩ := hWco p hp k hkp
    obtain ⟨c2, hc2, hp2, _⟩ := hWco q hq k hkq
    have hc12 : c1 = c2 := by
      rw [hc1] at hc2
      exact Option.some.inj hc2
    rw [hc12] at hp1
    exact huniq hp hq (Option.some.inj (hp1.symm.trans hp2))
  have hcurnotchild : cur.key ∉ cur.childrenKeys := by
    intro hmem
    obtain ⟨c', hc', hp', hd'⟩ := hWco cur hcurdt cur.key hmem
    have hceq : c' = cur := huniq (Tree.getNode?_mem hc').1 hcurdt (Tree.getNode?_mem hc').2
    rw [hceq] at hd'
    omega
  have hkeysEq : ((cur.childrenKeys.filterMap dt.getNode?).foldl
      (fun o c => o.addNode c.key (some cur.key) c.payload) out).keys =
      out.keys ++ cur.childrenKeys := by
    rw [foldl_addNode_keys (fun c : TNode DTP => c.key) (fun c : TNode DTP => c.payload) cur.key _ out oq
      hoq hcsnd hcsfresh, hkeys]
  have hnodesEq := foldl_addNode_nodes (fun c : TNode DTP => c.key)
    (fun c : TNode DTP => c.payload) cur.key (cur.childrenKeys.filterMap dt.getNode?)
    out oq hoq hcsnd hcsfresh
  refine ⟨?_, ?_, ?_, ?_, ?_, ?_, ?_, ?_, ?_⟩
  · intro q hq
    rcases List.mem_append.mp hq with hq | hq
    · exact h1 q (List.mem_cons_of_mem cur hq)
    · obtain ⟨hqdt, hqk, _⟩ := hcsmem q hq
      obtain ⟨hqp, hqd⟩ := hcspar q hq
      refine ⟨hqdt, by omega, ?_⟩
      rw [hqp]
      simp
  · rw [List.map_append]
    refine List.nodup_append.mpr ⟨hrestnd, hcsnd, ?_⟩
    intro a ha hb
    obtain ⟨q, hq, hqa⟩ := List.mem_map.mp ha
    rw [hkeys] at hb
    obtain ⟨oq', hoq', _, _⟩ := h3 q (List.mem_cons_of_mem cur hq)
    have hqout : q.key ∈ out.keys := by
      have hx := Tree.getNode?_mem hoq'
      exact hx.2 ▸ Tree.mem_keys_of_mem hx.1
    rw [hqa] at hqout
    exact h4 cur (List.mem_cons_self cur rest) a hb hqout
  · intro q hq
    rcases List.mem_append.mp hq with hq | hq
    · obtain ⟨oq', hoq', hlf, hpay⟩ := h3 q (List.mem_cons_of_mem cur hq)
      refine ⟨oq', ?_, hlf, hpay⟩
      rw [foldl_addNode_getNode_other (fun c : TNode DTP => c.key) (fun c : TNode DTP => c.payload) cur.key _
        out oq hoq hcsnd hcsfresh ?_ ?_]
      · exact hoq'
      · intro hEq
        exact hcurhd (hEq ▸ List.mem_map_of_mem (·.key) hq)
      · intro c hc hEq
        have hEq' : c.key = q.key := hEq
        have hqout : q.key ∈ out.keys := by
          have hx := Tree.getNode?_mem hoq'
          exact hx.2 ▸ Tree.mem_keys_of_mem hx.1
        rw [← hEq'] at hqout
        exact hcsfresh c hc hqout
    · refine ⟨⟨q.key, some cur.key, [], oq.depth + 1, q.payload⟩, ?_, rfl, rfl⟩
      exact foldl_addNode_getNode_child (fun c : TNode DTP => c.key) (fun c : TNode DTP => c.payload) cur.key _
        out oq hoq hcsnd hcsfresh hq
  · intro q hq k hk hmem
    rw [hkeysEq] at hmem
    rcases List.mem_append.mp hmem with hout | hchild
    · rcases List.mem_append.mp hq with hq | hq
      · exact h4 q (List.mem_cons_of_mem cur hq) k hk hout
      · rcases h7 k hout with hnk | ⟨p, hpdt, hpk, hppar, hpout, hpnq⟩
        · obtain ⟨ck, hckg, hckp, hckd⟩ := hWco q (hcsmem q hq).1 k hk
          have hckmem := Tree.getNode?_mem hckg
          have hckn : ck = node := huniq hckmem.1 hnodemem (hnk ▸ hckmem.2)
          have hqd := (hcspar q hq).2
          rw [hckn] at hckd
          omega
        · have hpq : p = q := hparentdet hpdt (hcsmem q hq).1 hpk hk
          rw [hpq] at hpout
          exact hcsfresh q hq hpout
    · rcases List.mem_append.mp hq with hq | hq
      · have hqcur : q = cur := hparentdet
          (h1 q (List.mem_cons_of_mem cur hq)).1 hcurdt hk hchild
        rw [hqcur] at hq
        exact hcurhd (List.mem_map_of_mem (·.key) hq)
      · have hqcur : q = cur := hparentdet (hcsmem q hq).1 hcurdt hk hchild
        have : q.key ∈ cur.childrenKeys := (hcsmem q hq).2.1
        rw [hqcur] at this
        exact hcurnotchild this
  · rw [hkeysEq]
    refine List.nodup_append.mpr ⟨h5, hWcn cur hcurdt, ?_⟩
    intro a ha hb
    exact h4 cur (List.mem_cons_self cur rest) a hb ha
  · by_cases hempty : cur.childrenKeys = []
    · have hcse : cur.childrenKeys.filterMap dt.getNode? = [] := by
        rw [hempty]
        rfl
      rw [hcse, List.foldl_nil]
      exact h6
    · have hcsne : cur.childrenKeys.filterMap dt.getNode? ≠ [] := by
        intro hEq
        rw [hEq] at hkeys
        exact hempty hkeys.symm
      rw [leafProbSum_foldl_addNode (fun c : TNode DTP => c.key) (fun c : TNode DTP => c.payload) cur.key _
        out oq hoq hcsnd hcsfresh h5 hoqleaf hcsne]
      have hsum := hWsum cur hcurdt hcurpar hempty
      have hpay : oq.payload.prob = cur.payload.prob := by rw [hoqpay]
      rw [show ((cur.childrenKeys.filterMap dt.getNode?).map
        (fun c => ((fun c : TNode DTP => c.payload) c).prob)).sum =
        ((cur.childrenKeys.filterMap dt.getNode?).map
          (fun c => c.payload.prob)).sum from rfl, hsum, hpay, h6]
      ring
  · intro ko hko
    rw [hkeysEq] at hko
    rcases List.mem_append.mp hko with hold | hnew
    · rcases h7 ko hold with hnk | ⟨p, hpdt, hpk, hppar, hpout, hpnq⟩
      · exact Or.inl hnk
      · refine Or.inr ⟨p, hpdt, hpk, hppar, ?_, ?_⟩
        · rw [hkeysEq]
          exact List.mem_append_left _ hpout
        · rw [List.map_append]
          intro hmem
          rcases List.mem_append.mp hmem with hx | hx
          · rw [List.map_cons] at hpnq
            exact hpnq (List.mem_cons_of_mem _ hx)
          · rw [hkeys] at hx
            exact h4 cur (List.mem_cons_self cur rest) p.key hx hpout
    · refine Or.inr ⟨cur, hcurdt, hnew, hcurpar, ?_, ?_⟩
      · rw [hkeysEq]
        exact List.mem_append_left _ hcurout
      · rw [List.map_append]
        intro hmem
        rcases List.mem_append.mp hmem with hx | hx
        · exact hcurhd hx
        · rw [hkeys] at hx
          exact hcurnotchild hx
  · obtain ⟨r, rest0, hout, hrk, hrp, hrpay, hrest0⟩ := h8
    refine ⟨(if r.key == cur.key then { r with childrenKeys := r.childrenKeys ++
        (cur.childrenKeys.filterMap dt.getNode?).map (fun c => c.key) } else r),
      (rest0.map (fun n => if n.key == cur.key then { n with childrenKeys :=
        n.childrenKeys ++ (cur.childrenKeys.filterMap dt.getNode?).map (fun c => c.key) }
        else n)) ++ (cur.childrenKeys.filterMap dt.getNode?).map
        (fun c => ⟨c.key, some cur.key, [], oq.depth + 1, c.payload⟩), ?_, ?_, ?_, ?_, ?_⟩
    · rw [hnodesEq, hout, List.map_cons, List.cons_append]
    · by_cases hk : (r.key == cur.key) = true
      · rw [if_pos hk]
        exact hrk
      · rw [if_neg hk]
        exact hrk
    · by_cases hk : (r.key == cur.key) = true
      · rw [if_pos hk]
        exact hrp
      · rw [if_neg hk]
        exact hrp
    · by_cases hk : (r.key == cur.key) = true
      · rw [if_pos hk]
        exact hrpay
      · rw [if_neg hk]
        exact hrpay
    · intro n hn
      rcases List.mem_append.mp hn with hx | hx
      · obtain ⟨m, hm, hmn⟩ := List.mem_map.mp hx
        have hmp := hrest0 m hm
        rw [← hmn]
        by_cases hk : (m.key == cur.key) = true
        · rw [if_pos hk]
          exact hmp
        · rw [if_neg hk]
          exact hmp
      · obtain ⟨c, hc, hcn⟩ := List.mem_map.mp hx
        rw [← hcn]
        simp
  · intro nd hnd
    rw [hnodesEq] at hnd
    rcases List.mem_append.mp hnd with hx | hx
    · obtain ⟨m, hm, hmn⟩ := List.mem_map.mp hx
      obtain ⟨dn, hdndt, hdk, hdpay, hdpar⟩ := h9 m hm
      refine ⟨dn, hdndt, ?_, ?_, ?_⟩ <;> rw [← hmn]
      · by_cases hk : (m.key == cur.key) = true
        · rw [if_pos hk]
          exact hdk
        · rw [if_neg hk]
          exact hdk
      · by_cases hk : (m.key == cur.key) = true
        · rw [if_pos hk]
          exact hdpay
        · rw [if_neg hk]
          exact hdpay
      · by_cases hk : (m.key == cur.key) = true
        · rw [if_pos hk]
          exact hdpar
        · rw [if_neg hk]
          exact hdpar
    · obtain ⟨c, hc, hcn⟩ := List.mem_map.mp hx
      have hcn' : (⟨c.key, some cur.key, [], oq.depth + 1, c.payload⟩ : TNode DTP) = nd := hcn
      refine ⟨c, (hcsmem c hc).1, ?_, ?_, ?_⟩ <;> rw [← hcn']
      intro _
      exact ((hcspar c hc).1).symm

theorem copyBFS_inv (dt : Tree DTP) (node : TNode DTP) (hWnd : dt.keys.Nodup)
    (hWco : ∀ n ∈ dt.nodes, ∀ k ∈ n.childrenKeys, ∃ c, dt.getNode? k = some c ∧
      c.parentKey = some n.key ∧ c.depth = n.depth + 1)
    (hWcn : ∀ n ∈ dt.nodes, n.childrenKeys.Nodup)
    (hWsum : ∀ n ∈ dt.nodes, n.parentKey ≠ none → n.childrenKeys ≠ [] →
      ((n.childrenKeys.filterMap dt.getNode?).map (fun c => c.payload.prob)).sum =
        n.payload.prob)
    (hnodemem : node ∈ dt.nodes) :
    ∀ (fuel : Nat) (Q : List (TNode DTP)) (out : Tree DTP),
      CopyInv dt node Q out →
      ∃ Q2, CopyInv dt node Q2 (copyBFS dt fuel Q out) := by
  intro fuel
  induction fuel with
  | zero => intro Q out h; exact ⟨Q, h⟩
  | succ fuel ih =>
    intro Q out h
    cases Q with
    | nil =>
      rw [copyBFS]
      exact ⟨[], h⟩
    | cons cur rest =>
      rw [copyBFS]
      exact ih _ _ (copyStep_inv dt node hWnd hWco hWcn hWsum hnodemem cur rest out h)

theorem copyInv_init (dt : Tree DTP) (node : TNode DTP)
    (hWco : ∀ n ∈ dt.nodes, ∀ k ∈ n.childrenKeys, ∃ c, dt.getNode? k = some c ∧
      c.parentKey = some n.key ∧ c.depth = n.depth + 1)
    (hWnd : dt.keys.Nodup)
    (hnodemem : node ∈ dt.nodes) (hnodepar : node.parentKey ≠ none) :
    CopyInv dt node [node] (Tree.empty.addNode node.key none node.payload) := by
  have hnodes : (Tree.empty.addNode node.key none node.payload).nodes =
      [⟨node.key, none, [], 0, node.payload⟩] := rfl
  have hkeys : (Tree.empty.addNode node.key none node.payload).keys = [node.key] := rfl
  have hget : (Tree.empty.addNode node.key none node.payload).getNode? node.key =
      some ⟨node.key, none, [], 0, node.payload⟩ := by
    unfold Tree.getNode?
    rw [hnodes]
    rw [List.find?_cons_of_pos _ (by simp)]
  have hnotself : node.key ∉ node.childrenKeys := by
    intro hmem
    obtain ⟨c', hc', hp', hd'⟩ := hWco node hnodemem node.key hmem
    have hceq : c' = node := nodes_key_unique hWnd (Tree.getNode?_mem hc').1 hnodemem
      (Tree.getNode?_mem hc').2
    rw [hceq] at hd'
    omega
  refine ⟨?_, ?_, ?_, ?_, ?_, ?_, ?_, ?_, ?_⟩
  · intro q hq
    rw [List.mem_singleton] at hq
    rw [hq]
    exact ⟨hnodemem, le_refl _, hnodepar⟩
  · simp
  · intro q hq
    rw [List.mem_singleton] at hq
    rw [hq]
    exact ⟨⟨node.key, none, [], 0, node.payload⟩, hget, rfl, rfl⟩
  · intro q hq k hk hmem
    rw [List.mem_singleton] at hq
    rw [hq] at hk
    rw [hkeys, List.mem_singleton] at hmem
    rw [hmem] at hk
    exact hnotself hk
  · rw [hkeys]
    simp
  · unfold leafProbSum
    rw [hnodes]
    rw [List.filter_cons,
      if_pos (show ((⟨node.key, none, [], 0, node.payload⟩ :
        TNode DTP).childrenKeys.isEmpty) = true from rfl)]
    simp
  · intro ko hko
    rw [hkeys, List.mem_singleton] at hko
    exact Or.inl hko
  · exact ⟨⟨node.key, none, [], 0, node.payload⟩, [], hnodes, rfl, rfl, rfl,
      fun n hn => absurd hn (List.not_mem_nil n)⟩
  · intro nd hnd
    rw [hnodes, List.mem_singleton] at hnd
    subst hnd
    exact ⟨node, hnodemem, rfl, rfl, fun hne => absurd rfl hne⟩

theorem copy_out_facts (t1 : Tree ScenarioData) (dt : Tree DTP) (node : TNode DTP)
    (hWnd : dt.keys.Nodup)
    (hWco : ∀ n ∈ dt.nodes, ∀ k ∈ n.childrenKeys, ∃ c, dt.getNode? k = some c ∧
      c.parentKey = some n.key ∧ c.depth = n.depth + 1)
    (hWcn : ∀ n ∈ dt.nodes, n.childrenKeys.Nodup)
    (hWsum : ∀ n ∈ dt.nodes, n.parentKey ≠ none → n.childrenKeys ≠ [] →
      ((n.childrenKeys.filterMap dt.getNode?).map (fun c => c.payload.prob)).sum =
        n.payload.prob)
    (hWform : DtFormula t1 dt)
    (hnodemem : node ∈ dt.nodes) (hnodepar : node.parentKey ≠ none) :
    (∃ r, (copyBFS dt (dt.nodes.length + 1) [node]
        (Tree.empty.addNode node.key none node.payload)).getRoot? = some r ∧
      r.payload.prob = node.payload.prob) ∧
    (((copyBFS dt (dt.nodes.length + 1) [node]
        (Tree.empty.addNode node.key none node.payload)).getLeafNodes.map
        (fun n => n.payload.prob)).sum = node.payload.prob) ∧
    (∀ c ∈ (copyBFS dt (dt.nodes.length + 1) [node]
        (Tree.empty.addNode node.key none node.payload)).nodes,
      ∀ p ∈ (copyBFS dt (dt.nodes.length + 1) [node]
        (Tree.empty.addNode node.key none node.payload)).nodes,
      c.parentKey = some p.key →
      ∃ sp sc, t1.getNode? p.key = some sp ∧ t1.getNode? c.key = some sc ∧
        sc ∈ endChildren t1 sp ∧
        c.payload.prob = scenProbOf sc / ((endChildren t1 sp).map scenProbOf).sum *
          p.payload.prob) := by
  obtain ⟨Q2, i1, i2, i3, i4, i5, i6, i7, i8, i9⟩ := copyBFS_inv dt node hWnd hWco hWcn
    hWsum hnodemem (dt.nodes.length + 1) [node] _
    (copyInv_init dt node hWco hWnd hnodemem hnodepar)
  refine ⟨?_, ?_, ?_⟩
  · obtain ⟨r, rest, houtnodes, hrk, hrp, hrpay, _⟩ := i8
    refine ⟨r, ?_, by rw [hrpay]⟩
    unfold Tree.getRoot?
    rw [houtnodes, List.find?_cons_of_pos _ (by rw [hrp]; rfl)]
  · exact i6
  · intro c hc p hp hpc
    obtain ⟨dnc, hdncdt, hkc, hpayc, hparc⟩ := i9 c hc
    obtain ⟨dnp, hdnpdt, hkp, hpayp, _⟩ := i9 p hp
    have hparc' : c.parentKey = dnc.parentKey := hparc (by rw [hpc]; simp)
    have hdncpar : dnc.parentKey = some p.key := by rw [← hparc', hpc]
    obtain ⟨dp, hdp, hdisj⟩ := hWform dnc hdncdt p.key hdncpar
    have hdpEq : dp = dnp := by
      have hx := Tree.getNode?_mem hdp
      exact nodes_key_unique hWnd hx.1 hdnpdt (hx.2.trans hkp.symm)
    rcases hdisj with hnone | ⟨sp, sc, hsp, hsc, hscmem, hform⟩
    · exfalso
      have hpkeys : p.key ∈ (copyBFS dt (dt.nodes.length + 1) [node]
          (Tree.empty.addNode node.key none node.payload)).keys :=
        Tree.mem_keys_of_mem hp
      rcases i7 p.key hpkeys with hEq | ⟨pp, hppdt, hppk, hpppar, _, _⟩
      · have hdn : dp = node := by
          have hx := Tree.getNode?_mem hdp
          exact nodes_key_unique hWnd hx.1 hnodemem (hx.2.trans hEq)
        rw [hdn] at hnone
        exact hnodepar hnone
      · obtain ⟨cc, hcc, hccp, _⟩ := hWco pp hppdt p.key hppk
        have hccdp : cc = dp := by
          have hx := Tree.getNode?_mem hcc
          have hy := Tree.getNode?_mem hdp
          exact nodes_key_unique hWnd hx.1 hy.1 (hx.2.trans hy.2.symm)
        rw [hccdp] at hccp
        rw [hccp] at hnone
        simp at hnone
    · refine ⟨sp, sc, hsp, ?_, hscmem, ?_⟩
      · rw [hkc] at hsc
        exact hsc
      · rw [← hpayc, hform, hdpEq, hpayp]

theorem notSelfChild {α : Type} (t : Tree α) (hnd : t.keys.Nodup)
    (hco : ∀ n ∈ t.nodes, ∀ k ∈ n.childrenKeys, ∃ c, t.getNode? k = some c ∧
      c.parentKey = some n.key ∧ c.depth = n.depth + 1)
    {n : TNode α} (hn : n ∈ t.nodes) : n.key ∉ n.childrenKeys := by
  intro hmem
  obtain ⟨c', hc', hp', hd'⟩ := hco n hn n.key hmem
  have hceq : c' = n := nodes_key_unique hnd (Tree.getNode?_mem hc').1 hn
    (Tree.getNode?_mem hc').2
  rw [hceq] at hd'
  omega

theorem parentDet {α : Type} (t : Tree α) (hnd : t.keys.Nodup)
    (hco : ∀ n ∈ t.nodes, ∀ k ∈ n.childrenKeys, ∃ c, t.getNode? k = some c ∧
      c.parentKey = some n.key ∧ c.depth = n.depth + 1)
    {p q : TNode α} {k : String} (hp : p ∈ t.nodes) (hq : q ∈ t.nodes)
    (hkp : k ∈ p.childrenKeys) (hkq : k ∈ q.childrenKeys) : p = q := by
  obtain ⟨c1, hc1, hp1, _⟩ := hco p hp k hkp
  obtain ⟨c2, hc2, hp2, _⟩ := hco q hq k hkq
  have hc12 : c1 = c2 := by
    rw [hc1] at hc2
    exact Option.some.inj hc2
  rw [hc12] at hp1
  exact nodes_key_unique hnd hp hq (Option.some.inj (hp1.symm.trans hp2))

theorem filterMap_eq_map_of_some {β γ : Type} (f : β → Option γ) (g : β → γ) :
    ∀ l : List β, (∀ c ∈ l, f c = some (g c)) → l.filterMap f = l.map g := by
  intro l
  induction l with
  | nil => intro _; rfl
  | cons a l ihl =>
    intro h
    rw [List.filterMap_cons, h a (List.mem_cons_self a l), List.map_cons,
      ihl (fun c hc => h c (List.mem_cons_of_mem a hc))]

theorem sum_map_div_mul (T P : Rat) : ∀ l : List Rat,
    (l.map (fun x => x / T * P)).sum = l.sum / T * P := by
  intro l
  induction l with
  | nil => simp
  | cons a l ihl =>
    rw [List.map_cons, List.sum_cons, List.sum_cons, ihl]
    ring

theorem sum_pos_of_mem_pos : ∀ l : List Rat, l ≠ [] → (∀ x ∈ l, 0 < x) → 0 < l.sum := by
  intro l
  induction l with
  | nil => intro h; exact absurd rfl h
  | cons a l ihl =>
    intro _ hpos
    rw [List.sum_cons]
    cases l with
    | nil =>
      simpa using hpos a (List.mem_cons_self a [])
    | cons b bs =>
      have h1 := hpos a (List.mem_cons_self a _)
      have h2 := ihl (by simp) (fun x hx => hpos x (List.mem_cons_of_mem a hx))
      linarith

theorem Tree.getNode?_self {α : Type} {t : Tree α} (hnd : t.keys.Nodup)
    {n : TNode α} (hn : n ∈ t.nodes) : t.getNode? n.key = some n :=
  find?_key_of_mem_nodup t.nodes n hnd hn

theorem filterMap_map_congr {α γ : Type} (f g : String → Option (TNode α))
    (pr : TNode α → γ) : ∀ ks : List String,
    (∀ k ∈ ks, ∃ a b, f k = some a ∧ g k = some b ∧ pr a = pr b) →
    ((ks.filterMap f).map pr) = ((ks.filterMap g).map pr) := by
  intro ks
  induction ks with
  | nil => intro _; rfl
  | cons k ks ihk =>
    intro h
    obtain ⟨a, b, ha, hb, hab⟩ := h k (List.mem_cons_self k ks)
    rw [List.filterMap_cons, List.filterMap_cons, ha, hb, List.map_cons, List.map_cons,
      hab, ihk (fun k' hk' => h k' (List.mem_cons_of_mem k hk'))]

theorem mem_endChildren_facts {t1 : Tree ScenarioData}
    (hnd : t1.keys.Nodup)
    (hco : ∀ n ∈ t1.nodes, ∀ k ∈ n.childrenKeys, ∃ c, t1.getNode? k = some c ∧
      c.parentKey = some n.key ∧ c.depth = n.depth + 1)
    {cur : TNode ScenarioData} (hcur : cur ∈ t1.nodes)
    {c : TNode ScenarioData} (hc : c ∈ endChildren t1 cur) :
    c ∈ t1.nodes ∧ c.key ∈ cur.childrenKeys ∧ t1.getNode? c.key = some c ∧
      c.parentKey = some cur.key ∧ c.payload.endFlag = true := by
  unfold endChildren at hc
  have hc1 := List.mem_filter.mp hc
  obtain ⟨hdt, hck, hget⟩ := mem_filterMap_getNode? hc1.1
  obtain ⟨c', hc', hp', _⟩ := hco cur hcur c.key hck
  have hceq : c' = c := by
    rw [hget] at hc'
    exact (Option.some.inj hc').symm
  rw [hceq] at hp'
  exact ⟨hdt, hck, hget, hp', hc1.2⟩

theorem endChildren_keys_nodup {t1 : Tree ScenarioData}
    (hcn : ∀ n ∈ t1.nodes, n.childrenKeys.Nodup)
    {cur : TNode ScenarioData} (hcur : cur ∈ t1.nodes)
    (hres : ∀ k ∈ cur.childrenKeys, ∃ c, t1.getNode? k = some c) :
    ((endChildren t1 cur).map (·.key)).Nodup := by
  unfold endChildren
  have hsub : ((cur.childrenKeys.filterMap t1.getNode?).filter
      (fun c => c.payload.endFlag)).Sublist (cur.childrenKeys.filterMap t1.getNode?) :=
    List.filter_sublist _
  have hmapsub := hsub.map (·.key)
  refine List.Nodup.sublist hmapsub ?_
  rw [filterMap_getNode?_map_key t1 _ hres]
  exact hcn cur hcur

theorem buildStep_inv (t1 : Tree ScenarioData) (root : TNode ScenarioData)
    (done : List String)
    (hSnd : t1.keys.Nodup)
    (hSco : ∀ n ∈ t1.nodes, ∀ k ∈ n.childrenKeys, ∃ c, t1.getNode? k = some c ∧
      c.parentKey = some n.key ∧ c.depth = n.depth + 1)
    (hScn : ∀ n ∈ t1.nodes, n.childrenKeys.Nodup)
    (hSpos : ∀ n ∈ t1.nodes, n.parentKey ≠ none → 0 < scenProbOf n)
    (hrootmem : root ∈ t1.nodes) (hrootpar : root.parentKey = none)
    (hdone : ∀ d ∈ done, d ∈ root.childrenKeys)
    (cur : TNode ScenarioData) (rest : List (TNode ScenarioData)) (dt : Tree DTP)
    (h : BuildInv t1 root done (cur :: rest) dt) :
    BuildInv t1 root done (rest ++ (buildStep t1 dt cur).2)
      (buildStep t1 dt cur).1 := by
  obtain ⟨h1, h2, h3, h4, h5, h6, h7, h8, h9, h10, h11, h12⟩ := h
  obtain ⟨hcurt1, hcurpar1⟩ := h1 cur (List.mem_cons_self cur rest)
  obtain ⟨dq, hdq, hdqleaf, hdqpar⟩ := h3 cur (List.mem_cons_self cur rest)
  rw [List.map_cons] at h2
  obtain ⟨hcurhd, hrestnd⟩ := List.nodup_cons.mp h2
  have hdqmem := Tree.getNode?_mem hdq
  have hcurdt : cur.key ∈ dt.keys := hdqmem.2 ▸ Tree.mem_keys_of_mem hdqmem.1
  have hstep1 : (buildStep t1 dt cur).1 = (endChildren t1 cur).foldl
      (fun d c => d.addNode c.key (some cur.key)
        ⟨scenProbOf c / ((endChildren t1 cur).map scenProbOf).sum *
          ((dt.getNode? cur.key).map (·.payload.prob)).getD 0, none⟩) dt := rfl
  have hstep2 : (buildStep t1 dt cur).2 = endChildren t1 cur := rfl
  rw [hstep1, hstep2]
  have hP : ((dt.getNode? cur.key).map (·.payload.prob)).getD 0 = dq.payload.prob := by
    rw [hdq]
    rfl
  rw [hP]
  have hres : ∀ k ∈ cur.childrenKeys, ∃ c, t1.getNode? k = some c := fun k hk =>
    (hSco cur hcurt1 k hk).imp (fun c hc => hc.1)
  have hfacts : ∀ c ∈ endChildren t1 cur, c ∈ t1.nodes ∧ c.key ∈ cur.childrenKeys ∧
      t1.getNode? c.key = some c ∧ c.parentKey = some cur.key ∧
      c.payload.endFlag = true :=
    fun c hc => mem_endChildren_facts hSnd hSco hcurt1 hc
  have hcsnd : ((endChildren t1 cur).map (·.key)).Nodup :=
    endChildren_keys_nodup hScn hcurt1 hres
  have hcsfresh : ∀ c ∈ endChildren t1 cur, c.key ∉ dt.keys :=
    fun c hc => h4 cur (List.mem_cons_self cur rest) c.key (hfacts c hc).2.1
  have huniqD : ∀ {n m : TNode DTP}, n ∈ dt.nodes → m ∈ dt.nodes → n.key = m.key →
      n = m := fun hn hm hk => nodes_key_unique h5 hn hm hk
  have hpdet : ∀ {p q : TNode ScenarioData} {k : String}, p ∈ t1.nodes → q ∈ t1.nodes →
      k ∈ p.childrenKeys → k ∈ q.childrenKeys → p = q :=
    fun hp hq hkp hkq => parentDet t1 hSnd hSco hp hq hkp hkq
  have hnsc : ∀ {n : TNode ScenarioData}, n ∈ t1.nodes → n.key ∉ n.childrenKeys :=
    fun hn => notSelfChild t1 hSnd hSco hn
  have hrootget : t1.getNode? root.key = some root := Tree.getNode?_self hSnd hrootmem
  have hcurget : t1.getNode? cur.key = some cur := Tree.getNode?_self hSnd hcurt1
  obtain ⟨rr, rest0, hdtnodes, hrrk, hrrpar, hrest0⟩ := h11
  have hrrmem : rr ∈ dt.nodes := by
    rw [hdtnodes]
    exact List.mem_cons_self rr rest0
  have hrootdt : root.key ∈ dt.keys := hrrk ▸ Tree.mem_keys_of_mem hrrmem
  have hkeysEq : ((endChildren t1 cur).foldl
      (fun d c => d.addNode c.key (some cur.key)
        ⟨scenProbOf c / ((endChildren t1 cur).map scenProbOf).sum * dq.payload.prob,
          none⟩) dt).keys = dt.keys ++ (endChildren t1 cur).map (·.key) :=
    foldl_addNode_keys (fun c : TNode ScenarioData => c.key)
      (fun c : TNode ScenarioData => (⟨scenProbOf c /
        ((endChildren t1 cur).map scenProbOf).sum * dq.payload.prob, none⟩ : DTP))
      cur.key _ dt dq hdq hcsnd hcsfresh
  have hnodesEq := foldl_addNode_nodes (fun c : TNode ScenarioData => c.key)
    (fun c : TNode ScenarioData => (⟨scenProbOf c /
      ((endChildren t1 cur).map scenProbOf).sum * dq.payload.prob, none⟩ : DTP))
    cur.key (endChildren t1 cur) dt dq hdq hcsnd hcsfresh
  have hgetpar : ((endChildren t1 cur).foldl
      (fun d c => d.addNode c.key (some cur.key)
        ⟨scenProbOf c / ((endChildren t1 cur).map scenProbOf).sum * dq.payload.prob,
          none⟩) dt).getNode? cur.key = some { dq with
        childrenKeys := dq.childrenKeys ++ (endChildren t1 cur).map (fun c => c.key) } :=
    foldl_addNode_getNode_parent (fun c : TNode ScenarioData => c.key)
      (fun c : TNode ScenarioData => (⟨scenProbOf c /
        ((endChildren t1 cur).map scenProbOf).sum * dq.payload.prob, none⟩ : DTP))
      cur.key _ dt dq hdq hcsnd hcsfresh
  have hgetchild : ∀ c ∈ endChildren t1 cur, ((endChildren t1 cur).foldl
      (fun d c => d.addNode c.key (some cur.key)
        ⟨scenProbOf c / ((endChildren t1 cur).map scenProbOf).sum * dq.payload.prob,
          none⟩) dt).getNode? c.key = some ⟨c.key, some cur.key, [], dq.depth + 1,
        ⟨scenProbOf c / ((endChildren t1 cur).map scenProbOf).sum * dq.payload.prob,
          none⟩⟩ := fun c hc =>
    foldl_addNode_getNode_child (fun c : TNode ScenarioData => c.key)
      (fun c : TNode ScenarioData => (⟨scenProbOf c /
        ((endChildren t1 cur).map scenProbOf).sum * dq.payload.prob, none⟩ : DTP))
      cur.key _ dt dq hdq hcsnd hcsfresh hc
  have hgetother : ∀ k, k ≠ cur.key → (∀ c ∈ endChildren t1 cur, c.key ≠ k) →
      ((endChildren t1 cur).foldl
        (fun d c => d.addNode c.key (some cur.key)
          ⟨scenProbOf c / ((endChildren t1 cur).map scenProbOf).sum * dq.payload.prob,
            none⟩) dt).getNode? k = dt.getNode? k := fun k hk1 hk2 =>
    foldl_addNode_getNode_other (fun c : TNode ScenarioData => c.key)
      (fun c : TNode ScenarioData => (⟨scenProbOf c /
        ((endChildren t1 cur).map scenProbOf).sum * dq.payload.prob, none⟩ : DTP))
      cur.key _ dt dq hdq hcsnd hcsfresh hk1 hk2
  have hpres : ∀ k, k ∈ dt.keys → ∃ old new, dt.getNode? k = some old ∧
      ((endChildren t1 cur).foldl
        (fun d c => d.addNode c.key (some cur.key)
          ⟨scenProbOf c / ((endChildren t1 cur).map scenProbOf).sum * dq.payload.prob,
            none⟩) dt).getNode? k = some new ∧ new.parentKey = old.parentKey ∧
      new.depth = old.depth ∧ new.payload = old.payload := by
    intro k hk
    obtain ⟨old, hold⟩ : ∃ old, dt.getNode? k = some old := by
      cases hg : dt.getNode? k with
      | none => exact absurd hk (Tree.getNode?_eq_none_iff.mp hg)
      | some x => exact ⟨x, rfl⟩
    by_cases hkc : k = cur.key
    · subst hkc
      have holddq : old = dq := Option.some.inj (hold.symm.trans hdq)
      refine ⟨old, { dq with childrenKeys := dq.childrenKeys ++
        (endChildren t1 cur).map (fun c => c.key) }, hold, hgetpar, ?_, ?_, ?_⟩ <;>
        rw [holddq]
    · refine ⟨old, old, hold, ?_, rfl, rfl, rfl⟩
      rw [hgetother k hkc (fun c hc hEq => hcsfresh c hc (hEq ▸ hk))]
      exact hold
  refine ⟨?_, ?_, ?_, ?_, ?_, ?_, ?_, ?_, ?_, ?_, ?_, ?_⟩
  · intro q hq
    rcases List.mem_append.mp hq with hq | hq
    · exact h1 q (List.mem_cons_of_mem cur hq)
    · refine ⟨(hfacts q hq).1, ?_⟩
      rw [(hfacts q hq).2.2.2.1]
      simp
  · rw [List.map_append]
    refine List.nodup_append.mpr ⟨hrestnd, hcsnd, ?_⟩
    intro a ha hb
    obtain ⟨q, hq, hqa⟩ := List.mem_map.mp ha
    obtain ⟨c, hc, hca⟩ := List.mem_map.mp hb
    obtain ⟨dq', hdq', _, _⟩ := h3 q (List.mem_cons_of_mem cur hq)
    have hqout : q.key ∈ dt.keys := by
      have hx := Tree.getNode?_mem hdq'
      exact hx.2 ▸ Tree.mem_keys_of_mem hx.1
    rw [hqa] at hqout
    have hfr : a ∉ dt.keys := by
      rw [← hca]
      exact hcsfresh c hc
    exact hfr hqout
  · intro q hq
    rcases List.mem_append.mp hq with hq | hq
    · obtain ⟨oq', hoq', hlf, hpar'⟩ := h3 q (List.mem_cons_of_mem cur hq)
      refine ⟨oq', ?_, hlf, hpar'⟩
      rw [hgetother q.key ?_ ?_]
      · exact hoq'
      · intro hEq
        exact hcurhd (hEq ▸ List.mem_map_of_mem (·.key) hq)
      · intro c hc hEq
        have hqout : q.key ∈ dt.keys := by
          have hx := Tree.getNode?_mem hoq'
          exact hx.2 ▸ Tree.mem_keys_of_mem hx.1
        rw [← hEq] at hqout
        exact hcsfresh c hc hqout
    · refine ⟨⟨q.key, some cur.key, [], dq.depth + 1,
        ⟨scenProbOf q / ((endChildren t1 cur).map scenProbOf).sum * dq.payload.prob,
          none⟩⟩, ?_, rfl, ?_⟩
      · exact hgetchild q hq
      · simp
  · intro q hq k hk hmem
    rw [hkeysEq] at hmem
    rcases List.mem_append.mp hmem with hout | hchild
    · rcases List.mem_append.mp hq with hq | hq
      · exact h4 q (List.mem_cons_of_mem cur hq) k hk hout
      · rcases h10 k hout with hrk | hdk | ⟨p, hpdt1, hpk, hppar, hpout, hpnq⟩
        · obtain ⟨ck, hckg, hckp, _⟩ := hSco q (hfacts q hq).1 k hk
          rw [hrk] at hckg
          have hckr : ck = root := by
            rw [hrootget] at hckg
            exact (Option.some.inj hckg).symm
          rw [hckr, hrootpar] at hckp
          exact Option.noConfusion hckp
        · have hkr : k ∈ root.childrenKeys := hdone k hdk
          have hqr : q = root := hpdet (hfacts q hq).1 hrootmem hk hkr
          have hqkeys : q.key ∈ dt.keys := by
            rw [hqr]
            exact hrootdt
          exact hcsfresh q hq hqkeys
        · have hpq : p = q := hpdet hpdt1 (hfacts q hq).1 hpk hk
          rw [hpq] at hpout
          exact hcsfresh q hq hpout
    · obtain ⟨c, hc, hck⟩ := List.mem_map.mp hchild
      have hkcur : k ∈ cur.childrenKeys := by
        rw [← hck]
        exact (hfacts c hc).2.1
      rcases List.mem_append.mp hq with hq | hq
      · have hqcur : q = cur := hpdet (h1 q (List.mem_cons_of_mem cur hq)).1 hcurt1
          hk hkcur
        rw [hqcur] at hq
        exact hcurhd (List.mem_map_of_mem (·.key) hq)
      · have hqcur : q = cur := hpdet (hfacts q hq).1 hcurt1 hk hkcur
        have hx : q.key ∈ cur.childrenKeys := (hfacts q hq).2.1
        rw [hqcur] at hx
        exact hnsc hcurt1 hx
  · rw [hkeysEq]
    refine List.nodup_append.mpr ⟨h5, hcsnd, ?_⟩
    intro a ha hb
    obtain ⟨c, hc, hca⟩ := List.mem_map.mp hb
    rw [← hca] at ha
    exact hcsfresh c hc ha
  · intro dn hdn k hk
    rw [hnodesEq] at hdn
    rcases List.mem_append.mp hdn with hx | hx
    · obtain ⟨m, hm, hmn⟩ := List.mem_map.mp hx
      have hdnkey : dn.key = m.key := by
        rw [← hmn]
        by_cases hmk : (m.key == cur.key) = true
        · rw [if_pos hmk]
        · rw [if_neg hmk]
      have hdndep : dn.depth = m.depth := by
        rw [← hmn]
        by_cases hmk : (m.key == cur.key) = true
        · rw [if_pos hmk]
        · rw [if_neg hmk]
      by_cases hmk : (m.key == cur.key) = true
      · have hmcur : m.key = cur.key := by simpa using hmk
        have hmdq : m = dq := huniqD hm hdqmem.1 (hmcur.trans hdqmem.2.symm)
        rw [if_pos hmk] at hmn
        have hdnch : dn.childrenKeys = (endChildren t1 cur).map
            (fun c : TNode ScenarioData => c.key) := by
          rw [← hmn]
          show m.childrenKeys ++ _ = _
          rw [hmdq, hdqleaf, List.nil_append]
        rw [hdnch] at hk
        obtain ⟨c, hc, hck⟩ := List.mem_map.mp hk
        refine ⟨⟨c.key, some cur.key, [], dq.depth + 1,
          ⟨scenProbOf c / ((endChildren t1 cur).map scenProbOf).sum * dq.payload.prob,
            none⟩⟩, ?_, ?_, ?_⟩
        · rw [← hck]
          exact hgetchild c hc
        · show some cur.key = some dn.key
          rw [hdnkey, hmcur]
        · show dq.depth + 1 = dn.depth + 1
          rw [hdndep, hmdq]
      · rw [if_neg hmk] at hmn
        have hkm : k ∈ m.childrenKeys := by
          rw [hmn]
          exact hk
        obtain ⟨c0, hc0, hc0p, hc0d⟩ := h6 m hm k hkm
        have hkdt : k ∈ dt.keys := by
          have hy := Tree.getNode?_mem hc0
          exact hy.2 ▸ Tree.mem_keys_of_mem hy.1
        obtain ⟨old, new, hold, hnew, hnp, hnd2, _⟩ := hpres k hkdt
        have holdc0 : old = c0 := Option.some.inj (hold.symm.trans hc0)
        refine ⟨new, hnew, ?_, ?_⟩
        · rw [hnp, holdc0, hc0p, hdnkey]
        · rw [hnd2, holdc0, hc0d, hdndep]
    · obtain ⟨c, hc, hcn⟩ := List.mem_map.mp hx
      rw [← hcn] at hk
      exact absurd hk (List.not_mem_nil k)
  · intro dn hdn
    rw [hnodesEq] at hdn
    rcases List.mem_append.mp hdn with hx | hx
    · obtain ⟨m, hm, hmn⟩ := List.mem_map.mp hx
      by_cases hmk : (m.key == cur.key) = true
      · have hmcur : m.key = cur.key := by simpa using hmk
        have hmdq : m = dq := huniqD hm hdqmem.1 (hmcur.trans hdqmem.2.symm)
        rw [if_pos hmk] at hmn
        rw [← hmn]
        show (m.childrenKeys ++ _).Nodup
        rw [hmdq, hdqleaf, List.nil_append]
        exact hcsnd
      · rw [if_neg hmk] at hmn
        rw [← hmn]
        exact h7 m hm
    · obtain ⟨c, hc, hcn⟩ := List.mem_map.mp hx
      rw [← hcn]
      exact List.nodup_nil
  · intro dn hdn hpar hne
    rw [hnodesEq] at hdn
    rcases List.mem_append.mp hdn with hx | hx
    · obtain ⟨m, hm, hmn⟩ := List.mem_map.mp hx
      by_cases hmk : (m.key == cur.key) = true
      · have hmcur : m.key = cur.key := by simpa using hmk
        have hmdq : m = dq := huniqD hm hdqmem.1 (hmcur.trans hdqmem.2.symm)
        rw [if_pos hmk] at hmn
        have hdnch : dn.childrenKeys = (endChildren t1 cur).map
            (fun c : TNode ScenarioData => c.key) := by
          rw [← hmn]
          show m.childrenKeys ++ _ = _
          rw [hmdq, hdqleaf, List.nil_append]
        have hdnpay : dn.payload = dq.payload := by
          rw [← hmn]
          show m.payload = dq.payload
          rw [hmdq]
        have hcsne : endChildren t1 cur ≠ [] := by
          intro hEq
          rw [hdnch, hEq] at hne
          exact hne rfl
        have hfm : (((endChildren t1 cur).map
            (fun c : TNode ScenarioData => c.key)).filterMap
            ((endChildren t1 cur).foldl
              (fun d c => d.addNode c.key (some cur.key)
                ⟨scenProbOf c / ((endChildren t1 cur).map scenProbOf).sum *
                  dq.payload.prob, none⟩) dt).getNode?) =
            (endChildren t1 cur).map (fun c => (⟨c.key, some cur.key, [],
              dq.depth + 1, ⟨scenProbOf c /
                ((endChildren t1 cur).map scenProbOf).sum * dq.payload.prob,
                none⟩⟩ : TNode DTP)) := by
          rw [List.filterMap_map]
          exact filterMap_eq_map_of_some _ _ _ (fun c hc => hgetchild c hc)
        rw [hdnch, hfm, hdnpay, List.map_map]
        have hpos : 0 < ((endChildren t1 cur).map scenProbOf).sum := by
          refine sum_pos_of_mem_pos _ ?_ ?_
          · intro hEq
            exact hcsne (List.map_eq_nil.mp hEq)
          · intro x hx2
            obtain ⟨c, hc, hcx⟩ := List.mem_map.mp hx2
            rw [← hcx]
            refine hSpos c (hfacts c hc).1 ?_
            rw [(hfacts c hc).2.2.2.1]
            simp
        have hdiv : ((endChildren t1 cur).map (fun c => scenProbOf c /
            ((endChildren t1 cur).map scenProbOf).sum * dq.payload.prob)).sum =
            ((endChildren t1 cur).map scenProbOf).sum /
              ((endChildren t1 cur).map scenProbOf).sum * dq.payload.prob := by
          have hsd := sum_map_div_mul (((endChildren t1 cur).map scenProbOf).sum)
            dq.payload.prob ((endChildren t1 cur).map scenProbOf)
          rw [List.map_map] at hsd
          exact hsd
        show ((endChildren t1 cur).map (fun c => scenProbOf c /
          ((endChildren t1 cur).map scenProbOf).sum * dq.payload.prob)).sum =
          dq.payload.prob
        rw [hdiv, div_self (ne_of_gt hpos), one_mul]
      · rw [if_neg hmk] at hmn
        have hsum := h8 m hm (by rw [hmn]; exact hpar) (by rw [hmn]; exact hne)
        rw [← hmn]
        have hcong : ((m.childrenKeys.filterMap ((endChildren t1 cur).foldl
            (fun d c => d.addNode c.key (some cur.key)
              ⟨scenProbOf c / ((endChildren t1 cur).map scenProbOf).sum *
                dq.payload.prob, none⟩) dt).getNode?).map
            (fun c => c.payload.prob)) =
            ((m.childrenKeys.filterMap dt.getNode?).map (fun c => c.payload.prob)) := by
          refine filterMap_map_congr _ _ _ _ ?_
          intro k hk
          obtain ⟨c0, hc0, _, _⟩ := h6 m hm k hk
          have hkdt : k ∈ dt.keys := by
            have hy := Tree.getNode?_mem hc0
            exact hy.2 ▸ Tree.mem_keys_of_mem hy.1
          obtain ⟨old, new, hold, hnew, _, _, hnpay⟩ := hpres k hkdt
          exact ⟨new, old, hnew, hold, by rw [hnpay]⟩
        rw [hcong]
        exact hsum
    · obtain ⟨c, hc, hcn⟩ := List.mem_map.mp hx
      rw [← hcn] at hne
      exact absurd rfl hne
  · intro dn hdn pk' hpk'
    rw [hnodesEq] at hdn
    rcases List.mem_append.mp hdn with hx | hx
    · obtain ⟨m, hm, hmn⟩ := List.mem_map.mp hx
      have hdnkey : dn.key = m.key := by
        rw [← hmn]
        by_cases hmk : (m.key == cur.key) = true
        · rw [if_pos hmk]
        · rw [if_neg hmk]
      have hdnpar : dn.parentKey = m.parentKey := by
        rw [← hmn]
        by_cases hmk : (m.key == cur.key) = true
        · rw [if_pos hmk]
        · rw [if_neg hmk]
      have hdnpay : dn.payload = m.payload := by
        rw [← hmn]
        by_cases hmk : (m.key == cur.key) = true
        · rw [if_pos hmk]
        · rw [if_neg hmk]
      have hmpar : m.parentKey = some pk' := by
        rw [← hdnpar]
        exact hpk'
      obtain ⟨dp, hdp, hdisj⟩ := h9 m hm pk' hmpar
      have hpkdt : pk' ∈ dt.keys := by
        have hy := Tree.getNode?_mem hdp
        exact hy.2 ▸ Tree.mem_keys_of_mem hy.1
      obtain ⟨old, new, hold, hnew, hnp, _, hnpay⟩ := hpres pk' hpkdt
      have holddp : old = dp := Option.some.inj (hold.symm.trans hdp)
      refine ⟨new, hnew, ?_⟩
      rcases hdisj with hnone | ⟨sp, sc, hsp, hsc, hscmem, hform⟩
      · left
        rw [hnp, holddp]
        exact hnone
      · right
        refine ⟨sp, sc, hsp, ?_, hscmem, ?_⟩
        · rw [hdnkey]
          exact hsc
        · rw [hdnpay, hnpay, holddp]
          exact hform
    · obtain ⟨c, hc, hcn⟩ := List.mem_map.mp hx
      have hpkc : pk' = cur.key := by
        rw [← hcn] at hpk'
        exact (Option.some.inj hpk').symm
      subst hpkc
      refine ⟨{ dq with childrenKeys := dq.childrenKeys ++
        (endChildren t1 cur).map (fun c : TNode ScenarioData => c.key) },
        hgetpar, Or.inr ⟨cur, c, hcurget, ?_, hc, ?_⟩⟩
      · rw [← hcn]
        exact (hfacts c hc).2.2.1
      · rw [← hcn]
  · intro ko hko
    rw [hkeysEq] at hko
    rcases List.mem_append.mp hko with hold | hnew
    · rcases h10 ko hold with hrk | hdk | ⟨p, hpdt1, hpk, hppar, hpout, hpnq⟩
      · exact Or.inl hrk
      · exact Or.inr (Or.inl hdk)
      · refine Or.inr (Or.inr ⟨p, hpdt1, hpk, hppar, ?_, ?_⟩)
        · rw [hkeysEq]
          exact List.mem_append_left _ hpout
        · rw [List.map_append]
          intro hmem
          rcases List.mem_append.mp hmem with hx | hx
          · rw [List.map_cons] at hpnq
            exact hpnq (List.mem_cons_of_mem _ hx)
          · obtain ⟨c, hc, hck⟩ := List.mem_map.mp hx
            have hfr := hcsfresh c hc
            rw [hck] at hfr
            exact hfr hpout
    · obtain ⟨c, hc, hck⟩ := List.mem_map.mp hnew
      refine Or.inr (Or.inr ⟨cur, hcurt1, ?_, hcurpar1, ?_, ?_⟩)
      · rw [← hck]
        exact (hfacts c hc).2.1
      · rw [hkeysEq]
        exact List.mem_append_left _ hcurdt
      · rw [List.map_append]
        intro hmem
        rcases List.mem_append.mp hmem with hx | hx
        · exact hcurhd hx
        · obtain ⟨c', hc', hck'⟩ := List.mem_map.mp hx
          have hx2 : c'.key ∈ cur.childrenKeys := (hfacts c' hc').2.1
          rw [hck'] at hx2
          exact hnsc hcurt1 hx2
  · refine ⟨(if rr.key == cur.key then { rr with
        childrenKeys := rr.childrenKeys ++ (endChildren t1 cur).map (fun c : TNode ScenarioData => c.key) } else rr),
      (rest0.map (fun n => if n.key == cur.key then { n with
        childrenKeys := n.childrenKeys ++ (endChildren t1 cur).map
          (fun c : TNode ScenarioData => c.key) } else n)) ++
        (endChildren t1 cur).map (fun c => (⟨c.key, some cur.key, [], dq.depth + 1,
          ⟨scenProbOf c / ((endChildren t1 cur).map scenProbOf).sum *
            dq.payload.prob, none⟩⟩ : TNode DTP)), ?_, ?_, ?_, ?_⟩
    · rw [hnodesEq, hdtnodes, List.map_cons, List.cons_append]
    · by_cases hk : (rr.key == cur.key) = true
      · rw [if_pos hk]
        exact hrrk
      · rw [if_neg hk]
        exact hrrk
    · by_cases hk : (rr.key == cur.key) = true
      · rw [if_pos hk]
        exact hrrpar
      · rw [if_neg hk]
        exact hrrpar
    · intro nd hnd2
      rcases List.mem_append.mp hnd2 with hx | hx
      · obtain ⟨m2, hm2, hm2n⟩ := List.mem_map.mp hx
        have hmp := hrest0 m2 hm2
        rw [← hm2n]
        by_cases hk : (m2.key == cur.key) = true
        · rw [if_pos hk]
          exact hmp
        · rw [if_neg hk]
          exact hmp
      · obtain ⟨c, hc, hcn2⟩ := List.mem_map.mp hx
        rw [← hcn2]
        simp
  · intro dn hdn hdnr
    rw [hnodesEq] at hdn
    rcases List.mem_append.mp hdn with hx | hx
    · obtain ⟨m, hm, hmn⟩ := List.mem_map.mp hx
      have hdnpar : dn.parentKey = m.parentKey := by
        rw [← hmn]
        by_cases hmk : (m.key == cur.key) = true
        · rw [if_pos hmk]
        · rw [if_neg hmk]
      have hdnpay : dn.payload = m.payload := by
        rw [← hmn]
        by_cases hmk : (m.key == cur.key) = true
        · rw [if_pos hmk]
        · rw [if_neg hmk]
      rw [hdnpay]
      exact h12 m hm (by rw [← hdnpar]; exact hdnr)
    · obtain ⟨c, hc, hcn⟩ := List.mem_map.mp hx
      have hpc : some cur.key = some root.key := by
        rw [← hcn] at hdnr
        exact hdnr
      have hcr : cur.key = root.key := Option.some.inj hpc
      have hdqrr : dq = rr := huniqD hdqmem.1 hrrmem (by rw [hdqmem.2, hcr, hrrk])
      rw [hdqrr, hrrpar] at hdqpar
      exact absurd rfl hdqpar

theorem buildBFS_inv (t1 : Tree ScenarioData) (root : TNode ScenarioData)
    (done : List String)
    (hSnd : t1.keys.Nodup)
    (hSco : ∀ n ∈ t1.nodes, ∀ k ∈ n.childrenKeys, ∃ c, t1.getNode? k = some c ∧
      c.parentKey = some n.key ∧ c.depth = n.depth + 1)
    (hScn : ∀ n ∈ t1.nodes, n.childrenKeys.Nodup)
    (hSpos : ∀ n ∈ t1.nodes, n.parentKey ≠ none → 0 < scenProbOf n)
    (hrootmem : root ∈ t1.nodes) (hrootpar : root.parentKey = none)
    (hdone : ∀ d ∈ done, d ∈ root.childrenKeys) :
    ∀ (fuel : Nat) (Q : List (TNode ScenarioData)) (dt : Tree DTP),
      BuildInv t1 root done Q dt →
      ∃ Q2, BuildInv t1 root done Q2 (buildBFS t1 fuel Q dt) := by
  intro fuel
  induction fuel with
  | zero =>
    intro Q dt h
    exact ⟨Q, h⟩
  | succ fuel ih =>
    intro Q dt h
    cases Q with
    | nil =>
      rw [buildBFS]
      exact ⟨[], h⟩
    | cons cur rest =>
      rw [buildBFS]
      exact ih _ _ (buildStep_inv t1 root done hSnd hSco hScn hSpos hrootmem
        hrootpar hdone cur rest dt h)

theorem buildInv_init (t1 : Tree ScenarioData) (root : TNode ScenarioData) :
    BuildInv t1 root [] []
      (Tree.empty.addNode root.key none (⟨1, none⟩ : DTP)) := by
  have hnodes : (Tree.empty.addNode root.key none (⟨1, none⟩ : DTP)).nodes =
      [⟨root.key, none, [], 0, ⟨1, none⟩⟩] := rfl
  have hkeys : (Tree.empty.addNode root.key none (⟨1, none⟩ : DTP)).keys =
      [root.key] := rfl
  refine ⟨?_, ?_, ?_, ?_, ?_, ?_, ?_, ?_, ?_, ?_, ?_, ?_⟩
  · intro q hq
    exact absurd hq (List.not_mem_nil q)
  · simp
  · intro q hq
    exact absurd hq (List.not_mem_nil q)
  · intro q hq
    exact absurd hq (List.not_mem_nil q)
  · rw [hkeys]
    simp
  · intro dn hdn k hk
    rw [hnodes, List.mem_singleton] at hdn
    rw [hdn] at hk
    exact absurd hk (List.not_mem_nil k)
  · intro dn hdn
    rw [hnodes, List.mem_singleton] at hdn
    rw [hdn]
    exact List.nodup_nil
  · intro dn hdn hpar hne
    rw [hnodes, List.mem_singleton] at hdn
    rw [hdn] at hne
    exact absurd rfl hne
  · intro dn hdn pk hpk
    rw [hnodes, List.mem_singleton] at hdn
    rw [hdn] at hpk
    exact Option.noConfusion hpk
  · intro ko hko
    rw [hkeys, List.mem_singleton] at hko
    exact Or.inl hko
  · exact ⟨⟨root.key, none, [], 0, ⟨1, none⟩⟩, [], hnodes, rfl, rfl,
      fun o ho => absurd ho (List.not_mem_nil o)⟩
  · intro dn hdn hpk
    rw [hnodes, List.mem_singleton] at hdn
    rw [hdn] at hpk
    exact Option.noConfusion hpk

theorem buildFoldStep_inv (t1 : Tree ScenarioData) (root : TNode ScenarioData)
    (done : List String)
    (hSnd : t1.keys.Nodup)
    (hSco : ∀ n ∈ t1.nodes, ∀ k ∈ n.childrenKeys, ∃ c, t1.getNode? k = some c ∧
      c.parentKey = some n.key ∧ c.depth = n.depth + 1)
    (hrootmem : root ∈ t1.nodes) (hrootpar : root.parentKey = none)
    (hdone : ∀ d ∈ done, d ∈ root.childrenKeys)
    (k : String) (hkroot : k ∈ root.childrenKeys) (hknotdone : k ∉ done)
    (node : TNode ScenarioData) (hnode : t1.getNode? k = some node)
    (Q : List (TNode ScenarioData)) (dt : Tree DTP)
    (h : BuildInv t1 root done Q dt) :
    BuildInv t1 root (done ++ [k]) [node]
      (dt.addNode node.key (some root.key) (⟨1, none⟩ : DTP)) := by
  obtain ⟨_, _, _, _, h5, h6, h7, h8, h9, h10, h11, h12⟩ := h
  have hnodemem : node ∈ t1.nodes := (Tree.getNode?_mem hnode).1
  have hnodekey : node.key = k := (Tree.getNode?_mem hnode).2
  obtain ⟨c0, hc0, hc0p, hc0d⟩ := hSco root hrootmem k hkroot
  have hc0node : c0 = node := by
    rw [hnode] at hc0
    exact (Option.some.inj hc0).symm
  have hnodepar : node.parentKey = some root.key := by
    rw [← hc0node]
    exact hc0p
  have huniqD : ∀ {n m : TNode DTP}, n ∈ dt.nodes → m ∈ dt.nodes → n.key = m.key →
      n = m := fun hn hm hk => nodes_key_unique h5 hn hm hk
  have hpdet : ∀ {p q : TNode ScenarioData} {k' : String}, p ∈ t1.nodes →
      q ∈ t1.nodes → k' ∈ p.childrenKeys → k' ∈ q.childrenKeys → p = q :=
    fun hp hq hkp hkq => parentDet t1 hSnd hSco hp hq hkp hkq
  have hnsc : ∀ {n : TNode ScenarioData}, n ∈ t1.nodes → n.key ∉ n.childrenKeys :=
    fun hn => notSelfChild t1 hSnd hSco hn
  have hrootget : t1.getNode? root.key = some root := Tree.getNode?_self hSnd hrootmem
  obtain ⟨rr, rest0, hdtnodes, hrrk, hrrpar, hrest0⟩ := h11
  have hrrmem : rr ∈ dt.nodes := by
    rw [hdtnodes]
    exact List.mem_cons_self rr rest0
  have hrootdt : root.key ∈ dt.keys := hrrk ▸ Tree.mem_keys_of_mem hrrmem
  have hrootres : dt.getNode? root.key = some rr := by
    unfold Tree.getNode?
    rw [hdtnodes]
    rw [List.find?_cons_of_pos _ (by simp [hrrk])]
  have hfresh : node.key ∉ dt.keys := by
    intro hmem
    rcases h10 node.key hmem with hrk | hdk | ⟨p, hpdt1, hpk, hppar, _, _⟩
    · rw [hnodekey] at hrk
      rw [hrk] at hkroot
      exact hnsc hrootmem hkroot
    · rw [hnodekey] at hdk
      exact hknotdone hdk
    · rw [hnodekey] at hpk
      have hpr : p = root := hpdet hpdt1 hrootmem hpk hkroot
      rw [hpr, hrootpar] at hppar
      exact hppar rfl
  have hfoldEq : dt.addNode node.key (some root.key) (⟨1, none⟩ : DTP) =
      [node].foldl (fun d c => d.addNode c.key (some root.key) (⟨1, none⟩ : DTP))
        dt := rfl
  rw [hfoldEq]
  have hnd1 : (([node] : List (TNode ScenarioData)).map (·.key)).Nodup := by simp
  have hfresh1 : ∀ c ∈ ([node] : List (TNode ScenarioData)), c.key ∉ dt.keys := by
    intro c hc
    rw [List.mem_singleton] at hc
    rw [hc]
    exact hfresh
  have hkeysEq : (([node] : List (TNode ScenarioData)).foldl
      (fun d c => d.addNode c.key (some root.key) (⟨1, none⟩ : DTP)) dt).keys =
      dt.keys ++ [node].map (·.key) :=
    foldl_addNode_keys (fun c : TNode ScenarioData => c.key)
      (fun _ : TNode ScenarioData => (⟨1, none⟩ : DTP)) root.key _ dt rr hrootres
      hnd1 hfresh1
  have hnodesEq := foldl_addNode_nodes (fun c : TNode ScenarioData => c.key)
    (fun _ : TNode ScenarioData => (⟨1, none⟩ : DTP)) root.key [node] dt rr hrootres
    hnd1 hfresh1
  have hgetpar : (([node] : List (TNode ScenarioData)).foldl
      (fun d c => d.addNode c.key (some root.key) (⟨1, none⟩ : DTP)) dt).getNode?
      root.key = some { rr with
        childrenKeys := rr.childrenKeys ++ [node].map (fun c => c.key) } :=
    foldl_addNode_getNode_parent (fun c : TNode ScenarioData => c.key)
      (fun _ : TNode ScenarioData => (⟨1, none⟩ : DTP)) root.key _ dt rr hrootres
      hnd1 hfresh1
  have hgetchild : (([node] : List (TNode ScenarioData)).foldl
      (fun d c => d.addNode c.key (some root.key) (⟨1, none⟩ : DTP)) dt).getNode?
      node.key = some ⟨node.key, some root.key, [], rr.depth + 1, ⟨1, none⟩⟩ :=
    foldl_addNode_getNode_child (fun c : TNode ScenarioData => c.key)
      (fun _ : TNode ScenarioData => (⟨1, none⟩ : DTP)) root.key _ dt rr hrootres
      hnd1 hfresh1 (List.mem_singleton.mpr rfl)
  have hgetother : ∀ k2, k2 ≠ root.key → k2 ≠ node.key →
      (([node] : List (TNode ScenarioData)).foldl
        (fun d c => d.addNode c.key (some root.key) (⟨1, none⟩ : DTP)) dt).getNode?
        k2 = dt.getNode? k2 := by
    intro k2 hk1 hk2
    exact foldl_addNode_getNode_other (fun c : TNode ScenarioData => c.key)
      (fun _ : TNode ScenarioData => (⟨1, none⟩ : DTP)) root.key _ dt rr hrootres
      hnd1 hfresh1 hk1 (by
        intro c hc
        rw [List.mem_singleton] at hc
        rw [hc]
        exact fun hEq => hk2 hEq.symm)
  have hpres : ∀ k2, k2 ∈ dt.keys → ∃ old new, dt.getNode? k2 = some old ∧
      (([node] : List (TNode ScenarioData)).foldl
        (fun d c => d.addNode c.key (some root.key) (⟨1, none⟩ : DTP)) dt).getNode?
        k2 = some new ∧ new.parentKey = old.parentKey ∧
      new.depth = old.depth ∧ new.payload = old.payload := by
    intro k2 hk2
    obtain ⟨old, hold⟩ : ∃ old, dt.getNode? k2 = some old := by
      cases hg : dt.getNode? k2 with
      | none => exact absurd hk2 (Tree.getNode?_eq_none_iff.mp hg)
      | some x => exact ⟨x, rfl⟩
    by_cases hkc : k2 = root.key
    · subst hkc
      have holdrr : old = rr := Option.some.inj (hold.symm.trans hrootres)
      refine ⟨old, { rr with
        childrenKeys := rr.childrenKeys ++ [node].map (fun c => c.key) }, hold,
        hgetpar, ?_, ?_, ?_⟩ <;> rw [holdrr]
    · refine ⟨old, old, hold, ?_, rfl, rfl, rfl⟩
      rw [hgetother k2 hkc (fun hEq => hfresh (hEq ▸ hk2))]
      exact hold
  refine ⟨?_, ?_, ?_, ?_, ?_, ?_, ?_, ?_, ?_, ?_, ?_, ?_⟩
  · intro q hq
    rw [List.mem_singleton] at hq
    rw [hq]
    refine ⟨hnodemem, ?_⟩
    rw [hnodepar]
    simp
  · simp
  · intro q hq
    rw [List.mem_singleton] at hq
    rw [hq]
    exact ⟨⟨node.key, some root.key, [], rr.depth + 1, ⟨1, none⟩⟩, hgetchild, rfl,
      by simp⟩
  · intro q hq k2 hk2 hmem
    rw [List.mem_singleton] at hq
    rw [hq] at hk2
    rw [hkeysEq] at hmem
    rcases List.mem_append.mp hmem with hout | hnew
    · rcases h10 k2 hout with hrk | hdk | ⟨p, hpdt1, hpk, hppar, hpout, _⟩
      · obtain ⟨ck, hckg, hckp, _⟩ := hSco node hnodemem k2 hk2
        rw [hrk] at hckg
        have hckr : ck = root := by
          rw [hrootget] at hckg
          exact (Option.some.inj hckg).symm
        rw [hckr, hrootpar] at hckp
        exact Option.noConfusion hckp
      · have hk2r : k2 ∈ root.childrenKeys := hdone k2 hdk
        have hnr : node = root := hpdet hnodemem hrootmem hk2 hk2r
        have hnp2 := hnodepar
        rw [hnr, hrootpar] at hnp2
        exact Option.noConfusion hnp2
      · have hpn : p = node := hpdet hpdt1 hnodemem hpk hk2
        rw [hpn] at hpout
        exact hfresh hpout
    · rw [List.map_singleton, List.mem_singleton] at hnew
      rw [hnew] at hk2
      exact hnsc hnodemem hk2
  · rw [hkeysEq]
    refine List.nodup_append.mpr ⟨h5, by simp, ?_⟩
    intro a ha hb
    rw [List.map_singleton, List.mem_singleton] at hb
    rw [hb] at ha
    exact hfresh ha
  · intro dn hdn k2 hk2
    rw [hnodesEq] at hdn
    rcases List.mem_append.mp hdn with hx | hx
    · obtain ⟨m, hm, hmn⟩ := List.mem_map.mp hx
      have hdnkey : dn.key = m.key := by
        rw [← hmn]
        by_cases hmk : (m.key == root.key) = true
        · rw [if_pos hmk]
        · rw [if_neg hmk]
      have hdndep : dn.depth = m.depth := by
        rw [← hmn]
        by_cases hmk : (m.key == root.key) = true
        · rw [if_pos hmk]
        · rw [if_neg hmk]
      have htrans : k2 ∈ m.childrenKeys → ∃ c, (([node] :
          List (TNode ScenarioData)).foldl
          (fun d c => d.addNode c.key (some root.key) (⟨1, none⟩ : DTP))
            dt).getNode? k2 = some c ∧ c.parentKey = some dn.key ∧
          c.depth = dn.depth + 1 := by
        intro hkm
        obtain ⟨c1, hc1, hc1p, hc1d⟩ := h6 m hm k2 hkm
        have hk2dt : k2 ∈ dt.keys := by
          have hy := Tree.getNode?_mem hc1
          exact hy.2 ▸ Tree.mem_keys_of_mem hy.1
        obtain ⟨old, new, hold, hnew, hnp, hnd2, _⟩ := hpres k2 hk2dt
        have holdc1 : old = c1 := Option.some.inj (hold.symm.trans hc1)
        refine ⟨new, hnew, ?_, ?_⟩
        · rw [hnp, holdc1, hc1p, hdnkey]
        · rw [hnd2, holdc1, hc1d, hdndep]
      by_cases hmk : (m.key == root.key) = true
      · have hmroot : m.key = root.key := by simpa using hmk
        have hmrr : m = rr := huniqD hm hrrmem (hmroot.trans hrrk.symm)
        rw [if_pos hmk] at hmn
        have hkdn : k2 ∈ m.childrenKeys ++ [node].map
            (fun c : TNode ScenarioData => c.key) := by
          have hk2b := hk2
          rw [← hmn] at hk2b
          exact hk2b
        rcases List.mem_append.mp hkdn with hkm | hkn
        · exact htrans hkm
        · rw [List.map_singleton, List.mem_singleton] at hkn
          rw [hkn]
          refine ⟨⟨node.key, some root.key, [], rr.depth + 1, ⟨1, none⟩⟩,
            hgetchild, ?_, ?_⟩
          · show some root.key = some dn.key
            rw [hdnkey, hmroot]
          · show rr.depth + 1 = dn.depth + 1
            rw [hdndep, hmrr]
      · rw [if_neg hmk] at hmn
        refine htrans ?_
        rw [hmn]
        exact hk2
    · obtain ⟨c, hc, hcn⟩ := List.mem_map.mp hx
      rw [← hcn] at hk2
      exact absurd hk2 (List.not_mem_nil k2)
  · intro dn hdn
    rw [hnodesEq] at hdn
    rcases List.mem_append.mp hdn with hx | hx
    · obtain ⟨m, hm, hmn⟩ := List.mem_map.mp hx
      by_cases hmk : (m.key == root.key) = true
      · have hmroot : m.key = root.key := by simpa using hmk
        have hmrr : m = rr := huniqD hm hrrmem (hmroot.trans hrrk.symm)
        rw [if_pos hmk] at hmn
        rw [← hmn]
        show (m.childrenKeys ++ _).Nodup
        refine List.nodup_append.mpr ⟨h7 m hm, by simp, ?_⟩
        intro a ha hb
        rw [List.map_singleton, List.mem_singleton] at hb
        rw [hb] at ha
        obtain ⟨c1, hc1, _, _⟩ := h6 m hm node.key ha
        have hy := Tree.getNode?_mem hc1
        exact hfresh (hy.2 ▸ Tree.mem_keys_of_mem hy.1)
      · rw [if_neg hmk] at hmn
        rw [← hmn]
        exact h7 m hm
    · obtain ⟨c, hc, hcn⟩ := List.mem_map.mp hx
      rw [← hcn]
      exact List.nodup_nil
  · intro dn hdn hpar hne
    rw [hnodesEq] at hdn
    rcases List.mem_append.mp hdn with hx | hx
    · obtain ⟨m, hm, hmn⟩ := List.mem_map.mp hx
      by_cases hmk : (m.key == root.key) = true
      · have hmroot : m.key = root.key := by simpa using hmk
        have hmrr : m = rr := huniqD hm hrrmem (hmroot.trans hrrk.symm)
        exfalso
        have hdnpar : dn.parentKey = m.parentKey := by
          rw [← hmn]
          rw [if_pos hmk]
        rw [hdnpar, hmrr, hrrpar] at hpar
        exact hpar rfl
      · rw [if_neg hmk] at hmn
        have hsum := h8 m hm (by rw [hmn]; exact hpar) (by rw [hmn]; exact hne)
        rw [← hmn]
        have hcong : ((m.childrenKeys.filterMap (([node] :
            List (TNode ScenarioData)).foldl
            (fun d c => d.addNode c.key (some root.key) (⟨1, none⟩ : DTP))
              dt).getNode?).map (fun c => c.payload.prob)) =
            ((m.childrenKeys.filterMap dt.getNode?).map
              (fun c => c.payload.prob)) := by
          refine filterMap_map_congr _ _ _ _ ?_
          intro k2 hk2
          obtain ⟨c1, hc1, _, _⟩ := h6 m hm k2 hk2
          have hk2dt : k2 ∈ dt.keys := by
            have hy := Tree.getNode?_mem hc1
            exact hy.2 ▸ Tree.mem_keys_of_mem hy.1
          obtain ⟨old, new, hold, hnew, _, _, hnpay⟩ := hpres k2 hk2dt
          exact ⟨new, old, hnew, hold, by rw [hnpay]⟩
        rw [hcong]
        exact hsum
    · obtain ⟨c, hc, hcn⟩ := List.mem_map.mp hx
      rw [← hcn] at hne
      exact absurd rfl hne
  · intro dn hdn pk' hpk'
    rw [hnodesEq] at hdn
    rcases List.mem_append.mp hdn with hx | hx
    · obtain ⟨m, hm, hmn⟩ := List.mem_map.mp hx
      have hdnkey : dn.key = m.key := by
        rw [← hmn]
        by_cases hmk : (m.key == root.key) = true
        · rw [if_pos hmk]
        · rw [if_neg hmk]
      have hdnpar : dn.parentKey = m.parentKey := by
        rw [← hmn]
        by_cases hmk : (m.key == root.key) = true
        · rw [if_pos hmk]
        · rw [if_neg hmk]
      have hdnpay : dn.payload = m.payload := by
        rw [← hmn]
        by_cases hmk : (m.key == root.key) = true
        · rw [if_pos hmk]
        · rw [if_neg hmk]
      have hmpar : m.parentKey = some pk' := by
        rw [← hdnpar]
        exact hpk'
      obtain ⟨dp, hdp, hdisj⟩ := h9 m hm pk' hmpar
      have hpkdt : pk' ∈ dt.keys := by
        have hy := Tree.getNode?_mem hdp
        exact hy.2 ▸ Tree.mem_keys_of_mem hy.1
      obtain ⟨old, new, hold, hnew, hnp, _, hnpay⟩ := hpres pk' hpkdt
      have holddp : old = dp := Option.some.inj (hold.symm.trans hdp)
      refine ⟨new, hnew, ?_⟩
      rcases hdisj with hnone | ⟨sp, sc, hsp, hsc, hscmem, hform⟩
      · left
        rw [hnp, holddp]
        exact hnone
      · right
        refine ⟨sp, sc, hsp, ?_, hscmem, ?_⟩
        · rw [hdnkey]
          exact hsc
        · rw [hdnpay, hnpay, holddp]
          exact hform
    · obtain ⟨c, hc, hcn⟩ := List.mem_map.mp hx
      have hpkc : pk' = root.key := by
        rw [← hcn] at hpk'
        exact (Option.some.inj hpk').symm
      subst hpkc
      refine ⟨{ rr with
        childrenKeys := rr.childrenKeys ++ [node].map (fun c => c.key) },
        hgetpar, Or.inl ?_⟩
      show rr.parentKey = none
      exact hrrpar
  · intro ko hko
    rw [hkeysEq] at hko
    rcases List.mem_append.mp hko with hold | hnew
    · rcases h10 ko hold with hrk | hdk | ⟨p, hpdt1, hpk, hppar, hpout, _⟩
      · exact Or.inl hrk
      · exact Or.inr (Or.inl (List.mem_append_left _ hdk))
      · refine Or.inr (Or.inr ⟨p, hpdt1, hpk, hppar, ?_, ?_⟩)
        · rw [hkeysEq]
          exact List.mem_append_left _ hpout
        · rw [List.map_singleton]
          intro hmem
          rw [List.mem_singleton] at hmem
          rw [hmem] at hpout
          exact hfresh hpout
    · rw [List.map_singleton, List.mem_singleton] at hnew
      refine Or.inr (Or.inl ?_)
      rw [hnew, hnodekey]
      exact List.mem_append_right _ (List.mem_singleton.mpr rfl)
  · refine ⟨(if rr.key == root.key then { rr with
        childrenKeys := rr.childrenKeys ++ [node].map (fun c : TNode ScenarioData => c.key) } else rr),
      (rest0.map (fun n => if n.key == root.key then { n with
        childrenKeys := n.childrenKeys ++ [node].map
          (fun c : TNode ScenarioData => c.key) } else n)) ++
        [node].map (fun c => (⟨c.key, some root.key, [], rr.depth + 1,
          (⟨1, none⟩ : DTP)⟩ : TNode DTP)), ?_, ?_, ?_, ?_⟩
    · rw [hnodesEq, hdtnodes, List.map_cons, List.cons_append]
    · by_cases hk2 : (rr.key == root.key) = true
      · rw [if_pos hk2]
        exact hrrk
      · rw [if_neg hk2]
        exact hrrk
    · by_cases hk2 : (rr.key == root.key) = true
      · rw [if_pos hk2]
        exact hrrpar
      · rw [if_neg hk2]
        exact hrrpar
    · intro nd hnd2
      rcases List.mem_append.mp hnd2 with hx | hx
      · obtain ⟨m2, hm2, hm2n⟩ := List.mem_map.mp hx
        have hmp := hrest0 m2 hm2
        rw [← hm2n]
        by_cases hk2 : (m2.key == root.key) = true
        · rw [if_pos hk2]
          exact hmp
        · rw [if_neg hk2]
          exact hmp
      · obtain ⟨c, hc, hcn2⟩ := List.mem_map.mp hx
        rw [← hcn2]
        simp
  · intro dn hdn hdnr
    rw [hnodesEq] at hdn
    rcases List.mem_append.mp hdn with hx | hx
    · obtain ⟨m, hm, hmn⟩ := List.mem_map.mp hx
      have hdnpar : dn.parentKey = m.parentKey := by
        rw [← hmn]
        by_cases hmk : (m.key == root.key) = true
        · rw [if_pos hmk]
        · rw [if_neg hmk]
      have hdnpay : dn.payload = m.payload := by
        rw [← hmn]
        by_cases hmk : (m.key == root.key) = true
        · rw [if_pos hmk]
        · rw [if_neg hmk]
      rw [hdnpay]
      exact h12 m hm (by rw [← hdnpar]; exact hdnr)
    · obtain ⟨c, hc, hcn⟩ := List.mem_map.mp hx
      rw [← hcn]

theorem Tree.getRoot?_mem {α : Type} {t : Tree α} {r : TNode α}
    (h : t.getRoot? = some r) : r ∈ t.nodes ∧ r.parentKey = none := by
  unfold Tree.getRoot? at h
  refine ⟨List.mem_of_find?_eq_some h, ?_⟩
  have hp := List.find?_some h
  exact Option.isNone_iff_eq_none.mp (by simpa using hp)

theorem buildFold_inv (t1 : Tree ScenarioData) (root : TNode ScenarioData)
    (hSnd : t1.keys.Nodup)
    (hSco : ∀ n ∈ t1.nodes, ∀ k ∈ n.childrenKeys, ∃ c, t1.getNode? k = some c ∧
      c.parentKey = some n.key ∧ c.depth = n.depth + 1)
    (hScn : ∀ n ∈ t1.nodes, n.childrenKeys.Nodup)
    (hSpos : ∀ n ∈ t1.nodes, n.parentKey ≠ none → 0 < scenProbOf n)
    (hrootmem : root ∈ t1.nodes) (hrootpar : root.parentKey = none) :
    ∀ (ks : List String), ks.Nodup → (∀ x ∈ ks, x ∈ root.childrenKeys) →
      ∀ (done : List String) (Q : List (TNode ScenarioData)) (dt : Tree DTP),
      (∀ d ∈ done, d ∈ root.childrenKeys) → (∀ x ∈ ks, x ∉ done) →
      BuildInv t1 root done Q dt →
      ∃ done2 Q2, BuildInv t1 root done2 Q2
        (ks.foldl (fun dt key =>
          match t1.getNode? key with
          | none => dt
          | some node =>
            if node.payload.endFlag then
              buildBFS t1 (t1.nodes.length + 1) [node]
                (dt.addNode node.key (some root.key) (⟨1, none⟩ : DTP))
            else dt) dt) := by
  intro ks
  induction ks with
  | nil =>
    intro _ _ done Q dt _ _ h
    exact ⟨done, Q, h⟩
  | cons k ks ih =>
    intro hnd hsub done Q dt hdone hdisj h
    rw [List.foldl_cons]
    have hnd' := (List.nodup_cons.mp hnd).2
    have hhd := (List.nodup_cons.mp hnd).1
    have hsub' : ∀ x ∈ ks, x ∈ root.childrenKeys := fun x hx =>
      hsub x (List.mem_cons_of_mem k hx)
    cases hg : t1.getNode? k with
    | none =>
      exact ih hnd' hsub' done Q dt hdone
        (fun x hx => hdisj x (List.mem_cons_of_mem k hx)) h
    | some node =>
      cases hef : node.payload.endFlag with
      | false =>
        simp only []
        rw [if_neg (by simp [hef])]
        exact ih hnd' hsub' done Q dt hdone
          (fun x hx => hdisj x (List.mem_cons_of_mem k hx)) h
      | true =>
        simp only []
        rw [if_pos hef]
        have hstep := buildFoldStep_inv t1 root done hSnd hSco hrootmem hrootpar
          hdone k (hsub k (List.mem_cons_self k ks))
          (hdisj k (List.mem_cons_self k ks)) node hg Q dt h
        have hdone2 : ∀ d ∈ done ++ [k], d ∈ root.childrenKeys := by
          intro d hd
          rcases List.mem_append.mp hd with hd | hd
          · exact hdone d hd
          · rw [List.mem_singleton] at hd
            rw [hd]
            exact hsub k (List.mem_cons_self k ks)
        obtain ⟨Q2, hbfs⟩ := buildBFS_inv t1 root (done ++ [k]) hSnd hSco hScn
          hSpos hrootmem hrootpar hdone2 (t1.nodes.length + 1) [node] _ hstep
        have hdisj2 : ∀ x ∈ ks, x ∉ done ++ [k] := by
          intro x hx hmem
          rcases List.mem_append.mp hmem with hm | hm
          · exact hdisj x (List.mem_cons_of_mem k hx) hm
          · rw [List.mem_singleton] at hm
            rw [hm] at hx
            exact hhd hx
        exact ih hnd' hsub' (done ++ [k]) Q2 _ hdone2 hdisj2 hbfs

theorem treeWF_props {t : Tree ScenarioData} (h : treeWF t = true) :
    t.keys.Nodup ∧
    (∀ n ∈ t.nodes, n.childrenKeys.Nodup) ∧
    (∀ n ∈ t.nodes, ∀ k ∈ n.childrenKeys, ∃ c, t.getNode? k = some c ∧
      c.parentKey = some n.key ∧ c.depth = n.depth + 1) ∧
    (∀ n ∈ t.nodes, n.parentKey ≠ none → 0 < scenProbOf n) := by
  unfold treeWF at h
  rw [Bool.and_eq_true, Bool.and_eq_true, Bool.and_eq_true] at h
  obtain ⟨⟨⟨h1, h2⟩, h3⟩, h4⟩ := h
  refine ⟨of_decide_eq_true h1, ?_, ?_, ?_⟩
  · intro n hn
    exact of_decide_eq_true (List.all_eq_true.mp h2 n hn)
  · intro n hn k hk
    have hk2 := List.all_eq_true.mp (List.all_eq_true.mp h3 n hn) k hk
    cases hg : t.getNode? k with
    | none =>
      rw [hg] at hk2
      exact absurd hk2 (by simp)
    | some c =>
      rw [hg] at hk2
      simp only [] at hk2
      rw [Bool.and_eq_true] at hk2
      exact ⟨c, rfl, eq_of_beq hk2.1, eq_of_beq hk2.2⟩
  · intro n hn hpar
    have hx := List.all_eq_true.mp h4 n hn
    rw [Bool.or_eq_true] at hx
    rcases hx with hx | hx
    · cases hpk : n.parentKey with
      | none => exact absurd hpk hpar
      | some v =>
        rw [hpk] at hx
        exact absurd hx (by simp)
    · exact of_decide_eq_true hx

theorem searchWF_backProp {t : Tree ScenarioData} (h : treeWF t = true) :
    SearchWF (backProp t) := by
  obtain ⟨hnd, hcn, hco, hpos⟩ := treeWF_props h
  have hsh := backProp_shape t
  refine ⟨?_, ?_, ?_, ?_⟩
  · rw [keys_of_shape hsh]
    exact hnd
  · intro n' hn' k hk
    obtain ⟨n, hn, hk1, _, hc1, hd1, _⟩ := mem_of_shape hsh hn'
    rw [hc1] at hk
    obtain ⟨c, hc, hcp, hcd⟩ := hco n hn k hk
    obtain ⟨c', hc', _, hcp', _, hcd', _⟩ := (getNode?_of_shape hsh k).2 c hc
    refine ⟨c', hc', ?_, ?_⟩
    · rw [hcp', hcp, hk1]
    · rw [hcd', hcd, hd1]
  · intro n' hn'
    obtain ⟨n, hn, _, _, hc1, _, _⟩ := mem_of_shape hsh hn'
    rw [hc1]
    exact hcn n hn
  · intro n' hn' hpar
    obtain ⟨n, hn, _, hp1, _, _, hdata⟩ := mem_of_shape hsh hn'
    have hdata' : n'.payload.data = n.payload.data := hdata
    have hsp : scenProbOf n' = scenProbOf n := by
      unfold scenProbOf
      rw [hdata']
    rw [hsp]
    refine hpos n hn ?_
    rw [← hp1]
    exact hpar

theorem buildDataTree_inv (t1 : Tree ScenarioData)
    (hSnd : t1.keys.Nodup)
    (hSco : ∀ n ∈ t1.nodes, ∀ k ∈ n.childrenKeys, ∃ c, t1.getNode? k = some c ∧
      c.parentKey = some n.key ∧ c.depth = n.depth + 1)
    (hScn : ∀ n ∈ t1.nodes, n.childrenKeys.Nodup)
    (hSpos : ∀ n ∈ t1.nodes, n.parentKey ≠ none → 0 < scenProbOf n)
    (root : TNode ScenarioData) (hroot : t1.getRoot? = some root) :
    ∃ done2 Q2, BuildInv t1 root done2 Q2 (buildDataTree t1) := by
  have hrootmem := (Tree.getRoot?_mem hroot).1
  have hrootpar := (Tree.getRoot?_mem hroot).2
  have hEq : buildDataTree t1 = root.childrenKeys.foldl (fun dt key =>
      match t1.getNode? key with
      | none => dt
      | some node =>
        if node.payload.endFlag then
          buildBFS t1 (t1.nodes.length + 1) [node]
            (dt.addNode node.key (some root.key) (⟨1, none⟩ : DTP))
        else dt) (Tree.empty.addNode root.key none (⟨1, none⟩ : DTP)) := by
    unfold buildDataTree
    rw [hroot]
  rw [hEq]
  exact buildFold_inv t1 root hSnd hSco hScn hSpos hrootmem hrootpar
    root.childrenKeys (hScn root hrootmem) (fun x hx => hx) [] [] _
    (fun d hd => absurd hd (List.not_mem_nil d))
    (fun x _ hx => absurd hx (List.not_mem_nil x))
    (buildInv_init t1 root)

theorem finalDt_facts (cfg : Config) (t1 : Tree ScenarioData)
    (hS : SearchWF t1) (root : TNode ScenarioData) (hroot : t1.getRoot? = some root) :
    (attachAll cfg t1 (buildDataTree t1)).keys.Nodup ∧
    (∀ n ∈ (attachAll cfg t1 (buildDataTree t1)).nodes, ∀ k ∈ n.childrenKeys,
      ∃ c, (attachAll cfg t1 (buildDataTree t1)).getNode? k = some c ∧
        c.parentKey = some n.key ∧ c.depth = n.depth + 1) ∧
    (∀ n ∈ (attachAll cfg t1 (buildDataTree t1)).nodes, n.childrenKeys.Nodup) ∧
    (∀ n ∈ (attachAll cfg t1 (buildDataTree t1)).nodes, n.parentKey ≠ none →
      n.childrenKeys ≠ [] →
      ((n.childrenKeys.filterMap (attachAll cfg t1 (buildDataTree t1)).getNode?).map
        (fun c => c.payload.prob)).sum = n.payload.prob) ∧
    DtFormula t1 (attachAll cfg t1 (buildDataTree t1)) ∧
    (∃ rrF restF, (attachAll cfg t1 (buildDataTree t1)).nodes = rrF :: restF ∧
      rrF.key = root.key ∧ rrF.parentKey = none ∧
      ∀ o ∈ restF, o.parentKey ≠ none) ∧
    (∀ dn ∈ (attachAll cfg t1 (buildDataTree t1)).nodes,
      dn.parentKey = some root.key → dn.payload.prob = 1) := by
  obtain ⟨hSnd, hSco, hScn, hSpos⟩ := hS
  obtain ⟨done2, Q2, hB⟩ := buildDataTree_inv t1 hSnd hSco hScn hSpos root hroot
  obtain ⟨_, _, _, _, h5, h6, h7, h8, h9, _, h11, h12⟩ := hB
  have hsh := attachAll_shape cfg t1 (buildDataTree t1)
  have hcorr : ∀ n' ∈ (attachAll cfg t1 (buildDataTree t1)).nodes,
      ∃ n ∈ (buildDataTree t1).nodes, n'.key = n.key ∧ n'.parentKey = n.parentKey ∧
        n'.childrenKeys = n.childrenKeys ∧ n'.depth = n.depth ∧
        n'.payload.prob = n.payload.prob := by
    intro n' hn'
    obtain ⟨n, hn, h1, h2, h3, h4, h5'⟩ := mem_of_shape hsh hn'
    exact ⟨n, hn, h1, h2, h3, h4, h5'⟩
  have hget : ∀ (k : String) (c : TNode DTP), (buildDataTree t1).getNode? k = some c →
      ∃ c', (attachAll cfg t1 (buildDataTree t1)).getNode? k = some c' ∧
        c'.key = c.key ∧ c'.parentKey = c.parentKey ∧
        c'.childrenKeys = c.childrenKeys ∧ c'.depth = c.depth ∧
        c'.payload.prob = c.payload.prob := by
    intro k c hc
    obtain ⟨c', hc', h1, h2, h3, h4, h5'⟩ := (getNode?_of_shape hsh k).2 c hc
    exact ⟨c', hc', h1, h2, h3, h4, h5'⟩
  refine ⟨?_, ?_, ?_, ?_, ?_, ?_, ?_⟩
  · rw [keys_of_shape hsh]
    exact h5
  · intro n' hn' k hk
    obtain ⟨n, hn, hk1, _, hc1, hd1, _⟩ := hcorr n' hn'
    rw [hc1] at hk
    obtain ⟨c, hc, hcp, hcd⟩ := h6 n hn k hk
    obtain ⟨c', hc', _, hcp', _, hcd', _⟩ := hget k c hc
    refine ⟨c', hc', ?_, ?_⟩
    · rw [hcp', hcp, hk1]
    · rw [hcd', hcd, hd1]
  · intro n' hn'
    obtain ⟨n, hn, _, _, hc1, _, _⟩ := hcorr n' hn'
    rw [hc1]
    exact h7 n hn
  · intro n' hn' hpar hne
    obtain ⟨n, hn, _, hp1, hc1, _, hpr1⟩ := hcorr n' hn'
    have hsum := h8 n hn (by rw [← hp1]; exact hpar) (by rw [← hc1]; exact hne)
    rw [hc1, hpr1, ← hsum]
    refine congrArg List.sum (filterMap_map_congr _ _ _ _ ?_)
    intro k hk
    obtain ⟨c, hc, _, _⟩ := h6 n hn k hk
    obtain ⟨c', hc', _, _, _, _, hcpr⟩ := hget k c hc
    exact ⟨c', c, hc', hc, hcpr⟩
  · intro dn' hdn' pk hpk
    obtain ⟨dn, hdn, hk1, hp1, _, _, hpr1⟩ := hcorr dn' hdn'
    have hdnpar : dn.parentKey = some pk := by
      rw [← hp1]
      exact hpk
    obtain ⟨dp, hdp, hdisj⟩ := h9 dn hdn pk hdnpar
    obtain ⟨dp', hdp', _, hdpp', _, _, hdppr'⟩ := hget pk dp hdp
    refine ⟨dp', hdp', ?_⟩
    rcases hdisj with hnone | ⟨sp, sc, hsp, hsc, hscmem, hform⟩
    · left
      rw [hdpp']
      exact hnone
    · right
      refine ⟨sp, sc, hsp, ?_, hscmem, ?_⟩
      · rw [hk1]
        exact hsc
      · rw [hpr1, hdppr']
        exact hform
  · obtain ⟨rr, rest0, hdtnodes, hrrk, hrrpar, hrest0⟩ := h11
    have hsh2 : List.Forall₂ (fun n n' => n'.key = n.key ∧ n'.parentKey = n.parentKey ∧
        n'.childrenKeys = n.childrenKeys ∧ n'.depth = n.depth ∧
        (fun p : DTP => p.prob) n'.payload = (fun p : DTP => p.prob) n.payload)
        (rr :: rest0) (attachAll cfg t1 (buildDataTree t1)).nodes := by
      rw [← hdtnodes]
      exact hsh
    obtain ⟨rrF, restF, hR, hrest, hcons⟩ := List.forall₂_cons_left_iff.mp hsh2
    refine ⟨rrF, restF, hcons, ?_, ?_, ?_⟩
    · rw [hR.1, hrrk]
    · rw [hR.2.1, hrrpar]
    · intro o ho
      obtain ⟨m, hm, _, hmp, _, _, _⟩ := mem_rel_of_shape hrest o ho
      rw [hmp]
      exact hrest0 m hm
  · intro dn' hdn' hpk
    obtain ⟨dn, hdn, _, hp1, _, _, hpr1⟩ := hcorr dn' hdn'
    rw [hpr1]
    refine h12 dn hdn ?_
    rw [← hp1]
    exact hpk

theorem getScenarioTree_facts (cfg : Config) (t : Tree ScenarioData)
    (hwf : treeWF t = true) :
    ∀ out ∈ getScenarioTree cfg t,
      (∃ r, out.getRoot? = some r ∧ r.payload.prob = 1) ∧
      ((out.getLeafNodes.map (fun n => n.payload.prob)).sum = 1) ∧
      (∀ c ∈ out.nodes, ∀ p ∈ out.nodes, c.parentKey = some p.key →
        ∃ sp sc, (backProp t).getNode? p.key = some sp ∧
          (backProp t).getNode? c.key = some sc ∧
          sc ∈ endChildren (backProp t) sp ∧
          c.payload.prob = scenProbOf sc /
            ((endChildren (backProp t) sp).map scenProbOf).sum * p.payload.prob) := by
  intro out hout
  have hS := searchWF_backProp hwf
  unfold getScenarioTree at hout
  simp only [] at hout
  cases hgr : (backProp t).getRoot? with
  | none =>
    have hbd : buildDataTree (backProp t) = Tree.empty := by
      unfold buildDataTree
      rw [hgr]
    rw [hbd] at hout
    have hsh := attachAll_shape cfg (backProp t) Tree.empty
    have hkeys : (attachAll cfg (backProp t) Tree.empty).keys = [] :=
      keys_of_shape hsh
    have hnodes : (attachAll cfg (backProp t) Tree.empty).nodes = [] := by
      have hk2 : ((attachAll cfg (backProp t) Tree.empty).nodes.map (·.key)) = [] :=
        hkeys
      exact List.map_eq_nil_iff.mp hk2
    have hgrF : (attachAll cfg (backProp t) Tree.empty).getRoot? = none := by
      unfold Tree.getRoot?
      rw [hnodes]
      rfl
    rw [hgrF] at hout
    simp only [] at hout
    exact absurd hout (List.not_mem_nil out)
  | some root =>
    obtain ⟨hWnd, hWco, hWcn, hWsum, hWform, ⟨rrF, restF, hFnodes, hFk, hFpar,
      hFrest⟩, hA12F⟩ := finalDt_facts cfg (backProp t) hS root hgr
    have hgrF : (attachAll cfg (backProp t) (buildDataTree (backProp t))).getRoot? =
        some rrF := by
      unfold Tree.getRoot?
      rw [hFnodes]
      rw [List.find?_cons_of_pos _ (by rw [hFpar]; rfl)]
    rw [hgrF] at hout
    simp only [] at hout
    obtain ⟨key, hkey, hmapped⟩ := List.mem_filterMap.mp hout
    cases hg2 : (attachAll cfg (backProp t) (buildDataTree (backProp t))).getNode?
        key with
    | none =>
      rw [hg2] at hmapped
      exact absurd hmapped (by simp)
    | some node =>
      rw [hg2] at hmapped
      have hout2 : copyBFS (attachAll cfg (backProp t) (buildDataTree (backProp t)))
          ((attachAll cfg (backProp t) (buildDataTree (backProp t))).nodes.length + 1)
          [node] (Tree.empty.addNode node.key none node.payload) = out := by
        simpa using hmapped
      have hrrFmem : rrF ∈ (attachAll cfg (backProp t)
          (buildDataTree (backProp t))).nodes := by
        rw [hFnodes]
        exact List.mem_cons_self rrF restF
      obtain ⟨c, hc, hcp, _⟩ := hWco rrF hrrFmem key hkey
      have hcnode : c = node := by
        rw [hg2] at hc
        exact (Option.some.inj hc).symm
      have hnodemem : node ∈ (attachAll cfg (backProp t)
          (buildDataTree (backProp t))).nodes := (Tree.getNode?_mem hg2).1
      have hnodepar : node.parentKey = some rrF.key := by
        rw [← hcnode]
        exact hcp
      have hprob1 : node.payload.prob = 1 := by
        refine hA12F node hnodemem ?_
        rw [hnodepar, hFk]
      have hfacts := copy_out_facts (backProp t)
        (attachAll cfg (backProp t) (buildDataTree (backProp t))) node hWnd hWco
        hWcn hWsum hWform hnodemem (by rw [hnodepar]; simp)
      rw [hout2, hprob1] at hfacts
      exact hfacts

/-- C2: for every scenario tree returned by get_scenario_tree on a
well-formed search tree (duplicate-free keys, coherent parent/child
links, duplicate-free children lists, positive joint probabilities on
non-root nodes - all invariants create_nodes maintains), the root of
the output tree carries probability exactly 1, the probabilities of its
leaf nodes sum to exactly 1 (the exact-rational model subsumes the
1e-6 floating tolerance), and every child's stored probability equals
its joint probability divided by the sum of the joint probabilities of
its end-flagged siblings in the back-propagated search tree, times the
parent's already-normalised probability; siblings of different
top-level trees never enter a common normalisation sum. -/
theorem claim_C2_probability (cfg : Config) (t : Tree ScenarioData)
    (hwf : treeWF t = true) :
    ∀ out ∈ getScenarioTree cfg t,
      (∃ r, out.getRoot? = some r ∧ r.payload.prob = 1) ∧
      ((out.getLeafNodes.map (fun n => n.payload.prob)).sum = 1) ∧
      (∀ c ∈ out.nodes, ∀ p ∈ out.nodes, c.parentKey = some p.key →
        ∃ sp sc, (backProp t).getNode? p.key = some sp ∧
          (backProp t).getNode? c.key = some sc ∧
          sc ∈ endChildren (backProp t) sp ∧
          c.payload.prob = scenProbOf sc /
            ((endChildren (backProp t) sp).map scenProbOf).sum * p.payload.prob) :=
  getScenarioTree_facts cfg t hwf

/-- Witness for C2: the two-level concrete search tree tC2 is
well-formed, its extraction yields two output trees, and the claim
instantiates to it. -/
theorem claim_C2_probability_witness :
    treeWF tC2 = true ∧ (getScenarioTree cfgW tC2).length = 2 ∧
    (∀ out ∈ getScenarioTree cfgW tC2,
      (∃ r, out.getRoot? = some r ∧ r.payload.prob = 1) ∧
      ((out.getLeafNodes.map (fun n => n.payload.prob)).sum = 1) ∧
      (∀ c ∈ out.nodes, ∀ p ∈ out.nodes, c.parentKey = some p.key →
        ∃ sp sc, (backProp tC2).getNode? p.key = some sp ∧
          (backProp tC2).getNode? c.key = some sc ∧
          sc ∈ endChildren (backProp tC2) sp ∧
          c.payload.prob = scenProbOf sc /
            ((endChildren (backProp tC2) sp).map scenProbOf).sum * p.payload.prob)) :=
  ⟨by with_unfolding_all decide, by with_unfolding_all decide,
    claim_C2_probability cfgW tC2 (by with_unfolding_all decide)⟩

end MindST
